import Mathlib

/-!
ExaDG: benchmark harness, overset-grid driver, right-hand-side operator, variable coefficients,
field registration and post-processing of the Navier-Stokes base operator.

A shallow embedding of parts of the ExaDG sources, and theorems about them.

* `applications/compressible_navier_stokes_performance.cc`: `Problem::setup`,
  `Problem::apply_operator`, `main`, `REFINE_LEVELS`, `enum_to_string(Operator)`
* `exadg/poisson/overset_grids/driver.cpp`: `DriverOversetGrids::setup`, `DriverOversetGrids::solve`
* `exadg/operators/rhs_operator.cpp`: `RHSOperator::evaluate`, `evaluate_add`, `cell_loop`,
  `do_cell_integral`
* `exadg/operators/variable_coefficients.h`: `VariableCoefficients`, `VariableCoefficientsCells`
* `exadg/time_integration/enum_types.cpp`: `enum_to_string`
* `exadg/structure/user_interface/application_base.h`: `ApplicationBase::setup`
* `DGNavierStokesBase.h`: the registration of DoF handlers, constraints and quadrature rules and
  `element_volume` in `DGNavierStokesBase::setup`, `compute_vorticity`, `compute_divergence`,
  `shift_pressure`

The type `double` is embedded with its values (finite numbers, infinities, NaN) and with its
operations rounded to nearest, ties to even, as IEEE 754 binary64 prescribes; the benchmark is
generic in the arithmetic and is run in `double` arithmetic and, for comparison, in exact
rational arithmetic. Statements that only depend on the data flow are kept generic in the number
type; statements about exact values (the element volumes as sums, the pressure shift) are in
rational arithmetic. The calls of the overset-grid driver are those its collaborators record
when the driver runs on them.
-/

namespace ExaDG

/-- A counted loop `for(unsigned int i = 0; i < n; ++i) body`, as a state transformer:
the body is run for `i = 0, 1, ..., n - 1` in this order. -/
def forLoop {σ : Type} (n : Nat) (body : Nat → σ → σ) (init : σ) : σ :=
  (List.range n).foldl (fun s i => body i s) init

/-! ## The number type `double` -/

/-- A value of the C++ type `double` (IEEE 754 binary64): a finite number, given by its exact
value, an infinity with its sign, or a NaN. The sign of a zero and the payload of a NaN are not
kept. -/
inductive Double where
  | finite (value : ℚ)
  | infinity (negative : Bool)
  | nan
  deriving DecidableEq

/-- The value `std::numeric_limits<double>::max()`, the largest finite `double`,
`(2^53 - 1) * 2^971`. -/
def DBL_MAX : ℚ := (2 ^ 53 - 1) * 2 ^ 971

/-- The number of binary digits of `n`: the least `k` with `n < 2 ^ k`, counted with at most
`fuel` halvings. -/
def bit_length : Nat → Nat → Nat
  | 0, _ => 0
  | fuel + 1, n => if n = 0 then 0 else bit_length fuel (n / 2) + 1

/-- The binade of a positive rational `a`: the integer `e` with `2 ^ e <= a < 2 ^ (e + 1)`. -/
def Double.binade (a : ℚ) : Int :=
  let k : Int := (bit_length a.num.natAbs a.num.natAbs : Int) - (bit_length a.den a.den : Int)
  if (2 : ℚ) ^ k ≤ a then k else k - 1

/-- Rounding of a non-negative rational to the nearest integer, ties to the even one. -/
def Double.round_half_even (m : ℚ) : Int :=
  let f := ⌊m⌋
  let r := m - (f : ℚ)
  if r < 1 / 2 then f
  else if 1 / 2 < r then f + 1
  else if f % 2 = 0 then f else f + 1

/-- The magnitude of the `double` nearest to the positive rational `a`, ties to even, before the
overflow check: 53 significant binary digits in the binade of `a`, the spacing `2 ^ (-1074)` of
the subnormal numbers below `2 ^ (-1022)`. -/
def Double.round_magnitude (a : ℚ) : ℚ :=
  let e := max (Double.binade a) (-1022)
  let ulp : ℚ := (2 : ℚ) ^ (e - 52)
  (Double.round_half_even (a / ulp) : ℚ) * ulp

/-- The conversion of a real number to `double` in the default rounding mode (to nearest, ties to
even): a result above `DBL_MAX` in magnitude is an infinity. -/
def Double.round (q : ℚ) : Double :=
  if q = 0 then Double.finite 0
  else
    let v := Double.round_magnitude |q|
    if DBL_MAX < v then Double.infinity (decide (q < 0))
    else Double.finite (if q < 0 then -v else v)

/-- The sum `a + b` of two `double`s. -/
def Double.add : Double → Double → Double
  | Double.finite a, Double.finite b => Double.round (a + b)
  | Double.finite _, Double.infinity t => Double.infinity t
  | Double.infinity s, Double.finite _ => Double.infinity s
  | Double.infinity s, Double.infinity t => if s = t then Double.infinity s else Double.nan
  | Double.nan, _ => Double.nan
  | _, Double.nan => Double.nan

/-- The product `a * b` of two `double`s. -/
def Double.mul : Double → Double → Double
  | Double.finite a, Double.finite b => Double.round (a * b)
  | Double.finite a, Double.infinity t =>
    if a = 0 then Double.nan else Double.infinity (xor (decide (a < 0)) t)
  | Double.infinity s, Double.finite b =>
    if b = 0 then Double.nan else Double.infinity (xor s (decide (b < 0)))
  | Double.infinity s, Double.infinity t => Double.infinity (xor s t)
  | Double.nan, _ => Double.nan
  | _, Double.nan => Double.nan

/-- The quotient `a / b` of two `double`s. -/
def Double.div : Double → Double → Double
  | Double.finite a, Double.finite b =>
    if b = 0 then (if a = 0 then Double.nan else Double.infinity (decide (a < 0)))
    else Double.round (a / b)
  | Double.finite _, Double.infinity _ => Double.finite 0
  | Double.infinity s, Double.finite b => Double.infinity (xor s (decide (b < 0)))
  | Double.infinity _, Double.infinity _ => Double.nan
  | Double.nan, _ => Double.nan
  | _, Double.nan => Double.nan

/-- The comparison `a < b` of two `double`s; it is false when one of them is a NaN. -/
def Double.lt : Double → Double → Bool
  | Double.finite a, Double.finite b => decide (a < b)
  | Double.finite _, Double.infinity t => !t
  | Double.infinity s, Double.finite _ => s
  | Double.infinity s, Double.infinity t => s && !t
  | Double.nan, _ => false
  | _, Double.nan => false

/-! ## `Problem::apply_operator` (compressible_navier_stokes_performance.cc) -/

/-- What `apply_operator` uses of its number type: the literals `0.0` and `1.0`, the value
`std::numeric_limits<double>::max()`, the conversion `(double)n` of an unsigned integer, the
operations `+`, `*`, `/` and the comparison `<`. -/
structure Arithmetic (F : Type) where
  zero : F
  one : F
  max : F
  of_unsigned : Nat → F
  add : F → F → F
  mul : F → F → F
  div : F → F → F
  lt : F → F → Bool

/-- The function `std::min(a, b)`, which is `(b < a) ? b : a`. -/
def Arithmetic.min {F : Type} (ar : Arithmetic F) (a b : F) : F :=
  if ar.lt b a then b else a

/-- The arithmetic of the program: `double`. -/
def Double.arithmetic : Arithmetic Double where
  zero := Double.finite 0
  one := Double.finite 1
  max := Double.finite DBL_MAX
  of_unsigned := fun n => Double.round (n : ℚ)
  add := Double.add
  mul := Double.mul
  div := Double.div
  lt := Double.lt

/-- Exact arithmetic on the rationals, without rounding and without overflow: what the
arithmetic of the program approximates. -/
def exact_arithmetic : Arithmetic ℚ where
  zero := 0
  one := 1
  max := DBL_MAX
  of_unsigned := fun n => (n : ℚ)
  add := fun a b => a + b
  mul := fun a b => a * b
  div := fun a b => a / b
  lt := fun a b => decide (a < b)

/-- The constant `N_REPETITIONS_INNER` of the performance application. -/
def N_REPETITIONS_INNER : Nat := 100

/-- The constant `N_REPETITIONS_OUTER` of the performance application. -/
def N_REPETITIONS_OUTER : Nat := 1

/-- What one call of `Problem::apply_operator` leaves behind: the local `wall_time`, whether the
warning was printed, the two printed throughputs and the global vector `wall_times`. -/
structure BenchmarkResult (F : Type) where
  wall_time : F
  warning : Bool
  dofs_per_walltime : F
  dofs_per_walltime_per_core : F
  wall_times : List (Nat × F)

/-- The inner loop of `apply_operator` for one outer repetition: `current_wall_time` starts at
`0.0`, every inner repetition `i` adds the measured `wall_time.avg`, here `avg i`. -/
def inner_repetitions {F : Type} (ar : Arithmetic F) (n_repetitions_inner : Nat)
    (avg : Nat → F) : F :=
  forLoop n_repetitions_inner (fun i current_wall_time => ar.add current_wall_time (avg i))
    ar.zero

/-- The variable `current_wall_time` at the end of one outer repetition: the sum of the inner
loop, divided by `(double)n_repetitions_inner`. -/
def current_wall_time {F : Type} (ar : Arithmetic F) (n_repetitions_inner : Nat)
    (avg : Nat → F) : F :=
  ar.div (inner_repetitions ar n_repetitions_inner avg) (ar.of_unsigned n_repetitions_inner)

/-- The timing loops of `apply_operator`: `wall_time` starts at
`std::numeric_limits<double>::max()`; every outer repetition runs the inner loop, divides by
`n_repetitions_inner` and keeps the minimum. `timer i_outer i` is the wall time measured for
inner repetition `i` of outer repetition `i_outer`. -/
def timing_loop {F : Type} (ar : Arithmetic F) (n_repetitions_inner n_repetitions_outer : Nat)
    (timer : Nat → Nat → F) : F :=
  forLoop n_repetitions_outer
    (fun i_outer wall_time =>
      ar.min wall_time (current_wall_time ar n_repetitions_inner (timer i_outer)))
    ar.max

/-- The function `Problem::apply_operator`, with the measured wall times `timer`, the number of
DoFs, the number of MPI processes, `param.degree` and the global `wall_times` as inputs. -/
def apply_operator {F : Type} (ar : Arithmetic F) (n_repetitions_inner n_repetitions_outer : Nat)
    (timer : Nat → Nat → F) (dofs N_mpi_processes degree : Nat) (wall_times : List (Nat × F)) :
    BenchmarkResult F :=
  let wall_time := timing_loop ar n_repetitions_inner n_repetitions_outer timer
  let warning :=
    ar.lt
      (ar.mul (ar.mul wall_time (ar.of_unsigned n_repetitions_inner))
        (ar.of_unsigned n_repetitions_outer))
      ar.one
  let dofs_per_walltime := ar.div (ar.of_unsigned dofs) wall_time
  { wall_time := wall_time
    warning := warning
    dofs_per_walltime := dofs_per_walltime
    dofs_per_walltime_per_core := ar.div dofs_per_walltime (ar.of_unsigned N_mpi_processes)
    wall_times := wall_times ++ [(degree, dofs_per_walltime)] }

/-- The mean of the inner repetitions of one outer repetition, as the spec words it. -/
def inner_mean (n_inner : Nat) (t : Nat → ℚ) : ℚ :=
  (∑ i in Finset.range n_inner, t i) / (n_inner : ℚ)

/-- A measured wall time just under a hundredth of a second: the `double`
`0x1.47ae147ae147ap-7`, the one before the `double` of the literal `0.01`. -/
def sample_wall_time : ℚ := 0x147ae147ae147a / 2 ^ 59

/-- The unit roundoff of `double`: `2^-53`, half the distance from `1.0` to the next `double`. -/
def unit_roundoff : ℚ := 1 / 2 ^ 53

/-- Half the distance `2^-1074` between neighbouring subnormal `double`s. -/
def underflow_unit : ℚ := 1 / 2 ^ 1075

/-- A bound on a non-negative quantity that `double` arithmetic computes in `j` rounded
operations where exact arithmetic gives `x`: every operation adds the relative error `2^-53` and,
`a` times in all, the absolute error `2^-1075`. -/
def rounding_bound (x : ℚ) (a j : Nat) : ℚ :=
  (x + (a : ℚ) * underflow_unit) * (1 + unit_roundoff) ^ j

/-- The lower counterpart of `rounding_bound`: `x * (1 - 2^-53)^j - a * 2^-1075`. -/
def rounding_lower_bound (x : ℚ) (a j : Nat) : ℚ :=
  x * (1 - unit_roundoff) ^ j - (a : ℚ) * underflow_unit

/-! ## `DriverOversetGrids` (exadg/poisson/overset_grids/driver.cpp) -/

/-- The two overlapping domains: `application->domain1` with `poisson1`, and
`application->domain2` with `poisson2`. -/
inductive Domain where
  | first
  | second
  deriving DecidableEq

/-- The two members `first_to_second` and `second_to_first` of the driver. -/
inductive Coupling where
  | first_to_second
  | second_to_first
  deriving DecidableEq

/-- The arguments of one `InterfaceCoupling::setup` call, in the order of the call:
the destination's interface data (`get_container_interface_data()` of a Poisson solver), the
source DoF handler, the source mapping, the marked vertices and the geometric tolerance, a
`double`. -/
structure InterfaceCoupling where
  interface_data_dst : Domain
  dof_handler_src : Domain
  mapping_src : Domain
  marked_vertices : List Bool
  tolerance : Double
  deriving DecidableEq

/-- The collaborators of the driver (application, Poisson solvers, interface couplings,
postprocessors) as functions on an environment `W`, which holds everything they keep between
calls (interface data, the coupling objects and their interface maps, output files); `V` is the
vector type. `make_shared c` is the assignment of a new `InterfaceCoupling` object to the member
`c`. A vector passed by reference is an argument and a result. `solve` has the constant time
`0.0` as its third argument in the source. Every call is taken to return. -/
structure Collaborators (W V : Type) where
  application_setup : W → W
  poisson_setup : Domain → W → W
  make_shared : Coupling → W → W
  interface_coupling_setup : Coupling → InterfaceCoupling → W → W
  initialize_dof_vector : Domain → W → W × V
  prescribe_initial_conditions : Domain → W → V → W × V
  do_postprocessing : Domain → W → V → W
  rhs : Domain → W → V → W × V
  solve : Domain → W → V → V → W × V
  update_data : Coupling → W → V → W

/-- The driver: the environment its collaborators work on. -/
structure Driver (W V : Type) where
  world : W

/-- The function `DriverOversetGrids::setup` (console output left out). -/
def DriverOversetGrids.setup {W V : Type} (ops : Collaborators W V) (w : W) : Driver W V :=
  let w := ops.application_setup w
  -- setup Poisson solvers
  let w := ops.poisson_setup Domain.first w
  let w := ops.poisson_setup Domain.second w
  -- domain 1 to domain 2
  let w := ops.make_shared Coupling.first_to_second w
  let w := ops.interface_coupling_setup Coupling.first_to_second
    { interface_data_dst := Domain.second
      dof_handler_src := Domain.first
      mapping_src := Domain.first
      marked_vertices := []
      tolerance := Double.round (1 / 10 ^ 8) } w
  -- domain 2 to domain 1
  let w := ops.make_shared Coupling.second_to_first w
  let w := ops.interface_coupling_setup Coupling.second_to_first
    { interface_data_dst := Domain.first
      dof_handler_src := Domain.second
      mapping_src := Domain.second
      marked_vertices := []
      tolerance := Double.round (1 / 10 ^ 8) } w
  { world := w }

/-- The local variables of `DriverOversetGrids::solve` together with the driver. The counter
`iter` is an `unsigned int`. -/
structure SolveState (W V : Type) where
  driver : Driver W V
  rhs_1 : V
  rhs_2 : V
  sol_1 : V
  sol_2 : V
  converged : Bool
  iter : Nat

/-- The part of `solve` before the loop: the vectors are initialised, the initial conditions
prescribed and both domains postprocessed; `converged = false`, `iter = 0`. -/
def DriverOversetGrids.solve_init {W V : Type} (ops : Collaborators W V) (d : Driver W V) :
    SolveState W V :=
  let w := d.world
  -- initialization of vectors
  let (w, rhs_1) := ops.initialize_dof_vector Domain.first w
  let (w, sol_1) := ops.initialize_dof_vector Domain.first w
  let (w, sol_1) := ops.prescribe_initial_conditions Domain.first w sol_1
  let (w, rhs_2) := ops.initialize_dof_vector Domain.second w
  let (w, sol_2) := ops.initialize_dof_vector Domain.second w
  let (w, sol_2) := ops.prescribe_initial_conditions Domain.second w sol_2
  -- postprocessing of results
  let w := ops.do_postprocessing Domain.first w sol_1
  let w := ops.do_postprocessing Domain.second w sol_2
  { driver := { world := w }
    rhs_1 := rhs_1
    rhs_2 := rhs_2
    sol_1 := sol_1
    sol_2 := sol_2
    converged := false
    iter := 0 }

/-- One pass through the body of `while(not(converged))` in `solve`. -/
def DriverOversetGrids.solve_body {W V : Type} (ops : Collaborators W V) (s : SolveState W V) :
    SolveState W V :=
  let w := s.driver.world
  -- solve on domain 1
  let (w, rhs_1) := ops.rhs Domain.first w s.rhs_1
  let (w, sol_1) := ops.solve Domain.first w s.sol_1 rhs_1
  -- transfer data domain 1 to domain 2
  let w := ops.update_data Coupling.first_to_second w sol_1
  -- solve on domain 2
  let (w, rhs_2) := ops.rhs Domain.second w s.rhs_2
  let (w, sol_2) := ops.solve Domain.second w s.sol_2 rhs_2
  -- transfer data from 2 to 1
  let w := ops.update_data Coupling.second_to_first w sol_2
  -- postprocessing of results
  let w := ops.do_postprocessing Domain.first w sol_1
  let w := ops.do_postprocessing Domain.second w sol_2
  let iter := (s.iter + 1) % 2 ^ 32
  { driver := { world := w }
    rhs_1 := rhs_1
    rhs_2 := rhs_2
    sol_1 := sol_1
    sol_2 := sol_2
    converged := if iter > 10 then true else s.converged
    iter := iter }

/-- The loop `while(not(converged)) body`, run with a bound `fuel` on the number of passes:
`none` when the bound is used up before `converged` holds. -/
def DriverOversetGrids.solve_loop {W V : Type} (ops : Collaborators W V) :
    Nat → SolveState W V → Option (SolveState W V)
  | 0, s => if s.converged then some s else none
  | fuel + 1, s =>
    if s.converged then some s
    else DriverOversetGrids.solve_loop ops fuel (DriverOversetGrids.solve_body ops s)

/-- The function `DriverOversetGrids::solve`, with at most `fuel` passes through its loop. -/
def DriverOversetGrids.solve {W V : Type} (ops : Collaborators W V) (fuel : Nat)
    (d : Driver W V) : Option (SolveState W V) :=
  DriverOversetGrids.solve_loop ops fuel (DriverOversetGrids.solve_init ops d)

/-- A call served by a collaborator, with the arguments it received and the vector it returned;
`V` is the vector type. -/
inductive Call (V : Type) where
  | application_setup
  | poisson_setup (d : Domain)
  | make_shared (c : Coupling)
  | interface_coupling_setup (c : Coupling) (args : InterfaceCoupling)
  | initialize_dof_vector (d : Domain) (result : V)
  | prescribe_initial_conditions (d : Domain) (result : V)
  | do_postprocessing (d : Domain) (sol : V)
  | rhs (d : Domain) (result : V)
  | solve (d : Domain) (rhs : V) (result : V)
  | update_data (c : Coupling) (src : V)
  deriving DecidableEq

/-- The collaborators `ops` with a record of the calls they serve: the environment carries the
list of the calls served so far, and every collaborator, besides doing what it does in `ops`,
appends the call it has just served, with the arguments it received. The driver run on these
collaborators leaves the trace of its calls in the environment. -/
def Collaborators.recording {W V : Type} (ops : Collaborators W V) :
    Collaborators (W × List (Call V)) V where
  application_setup := fun w => (ops.application_setup w.1, w.2 ++ [Call.application_setup])
  poisson_setup := fun d w => (ops.poisson_setup d w.1, w.2 ++ [Call.poisson_setup d])
  make_shared := fun c w => (ops.make_shared c w.1, w.2 ++ [Call.make_shared c])
  interface_coupling_setup := fun c args w =>
    (ops.interface_coupling_setup c args w.1, w.2 ++ [Call.interface_coupling_setup c args])
  initialize_dof_vector := fun d w =>
    (((ops.initialize_dof_vector d w.1).1,
      w.2 ++ [Call.initialize_dof_vector d (ops.initialize_dof_vector d w.1).2]),
      (ops.initialize_dof_vector d w.1).2)
  prescribe_initial_conditions := fun d w v =>
    (((ops.prescribe_initial_conditions d w.1 v).1,
      w.2 ++ [Call.prescribe_initial_conditions d (ops.prescribe_initial_conditions d w.1 v).2]),
      (ops.prescribe_initial_conditions d w.1 v).2)
  do_postprocessing := fun d w v =>
    (ops.do_postprocessing d w.1 v, w.2 ++ [Call.do_postprocessing d v])
  rhs := fun d w v =>
    (((ops.rhs d w.1 v).1, w.2 ++ [Call.rhs d (ops.rhs d w.1 v).2]), (ops.rhs d w.1 v).2)
  solve := fun d w sol rhs =>
    (((ops.solve d w.1 sol rhs).1, w.2 ++ [Call.solve d rhs (ops.solve d w.1 sol rhs).2]),
      (ops.solve d w.1 sol rhs).2)
  update_data := fun c w v => (ops.update_data c w.1 v, w.2 ++ [Call.update_data c v])

/-- A call with its vector arguments forgotten. -/
def Call.erase {V : Type} : Call V → Call Unit
  | Call.application_setup => Call.application_setup
  | Call.poisson_setup d => Call.poisson_setup d
  | Call.make_shared c => Call.make_shared c
  | Call.interface_coupling_setup c a => Call.interface_coupling_setup c a
  | Call.initialize_dof_vector d _ => Call.initialize_dof_vector d ()
  | Call.prescribe_initial_conditions d _ => Call.prescribe_initial_conditions d ()
  | Call.do_postprocessing d _ => Call.do_postprocessing d ()
  | Call.rhs d _ => Call.rhs d ()
  | Call.solve d _ _ => Call.solve d () ()
  | Call.update_data c _ => Call.update_data c ()

/-- Whether a call is an `InterfaceCoupling::setup` on the given coupling object. -/
def Call.is_coupling_setup {V : Type} (c : Coupling) : Call V → Bool
  | Call.interface_coupling_setup c2 _ => decide (c2 = c)
  | _ => false

/-- Whether a call assigns a new object to one of the two coupling members. -/
def Call.is_make_shared {V : Type} : Call V → Bool
  | Call.make_shared _ => true
  | _ => false

/-- Whether a call is `update_data` on the given coupling object. -/
def Call.is_update_data {V : Type} (c : Coupling) : Call V → Bool
  | Call.update_data c2 _ => decide (c2 = c)
  | _ => false

/-- A small instance of the collaborators, to run the driver on: the environment counts the
calls, vectors are single numbers, `rhs` adds one to the right-hand side and `solve` adds the
right-hand side to the solution. -/
def sample_collaborators : Collaborators Nat Nat where
  application_setup := fun w => w + 1
  poisson_setup := fun _ w => w + 1
  make_shared := fun _ w => w + 1
  interface_coupling_setup := fun _ _ w => w + 1
  initialize_dof_vector := fun _ w => (w + 1, 0)
  prescribe_initial_conditions := fun _ w v => (w + 1, v)
  do_postprocessing := fun _ w _ => w + 1
  rhs := fun _ w v => (w + 1, v + 1)
  solve := fun _ w sol rhs => (w + 1, sol + rhs)
  update_data := fun _ w _ => w + 1

/-- The order of the calls of one pass through the loop of `solve` as the specification states
it, vector arguments forgotten. -/
def iteration_order : List (Call Unit) :=
  [ Call.rhs Domain.first (),
    Call.solve Domain.first () (),
    Call.update_data Coupling.first_to_second (),
    Call.rhs Domain.second (),
    Call.solve Domain.second () (),
    Call.update_data Coupling.second_to_first (),
    Call.do_postprocessing Domain.first (),
    Call.do_postprocessing Domain.second () ]

/-- The order of the calls of `solve` before its loop, vector arguments forgotten. -/
def initial_order : List (Call Unit) :=
  [ Call.initialize_dof_vector Domain.first (),
    Call.initialize_dof_vector Domain.first (),
    Call.prescribe_initial_conditions Domain.first (),
    Call.initialize_dof_vector Domain.second (),
    Call.initialize_dof_vector Domain.second (),
    Call.prescribe_initial_conditions Domain.second (),
    Call.do_postprocessing Domain.first (),
    Call.do_postprocessing Domain.second () ]

/-! ## `RHSOperator` (exadg/operators/rhs_operator.cpp) -/

/-- What `RHSOperator` uses of `dealii::MatrixFree`: the cell-batch ranges that
`matrix_free->cell_loop` hands to the worker (in this order), the number of quadrature points of
a cell batch, the global indices of the local DoFs of a cell batch, and the integration against
the test functions done by `integrator.integrate(integrate_values, integrate_gradients)`, from
the two flags, the cell batch and the values submitted at the quadrature points to the local DoF
values. -/
structure MatrixFree (α : Type) where
  cell_ranges : List (Nat × Nat)
  n_q_points : Nat
  dof_indices : Nat → List Nat
  integrate : Bool → Bool → Nat → List α → List α

/-- The operator: the `matrix_free` it points to, the flux of its kernel (the result of
`kernel.get_volume_flux(integrator, q, time)` for the cell batch the integrator is on) and the
mutable member `time`. -/
structure RHSOperator (α : Type) where
  matrix_free : MatrixFree α
  get_volume_flux : Nat → Nat → ℚ → α
  time : ℚ

/-- The cell integrator: the cell batch it is on, the values submitted at the quadrature points
and the local DoF values. -/
structure IntegratorCell (α : Type) where
  cell : Nat
  values_quad : List α
  values_dofs : List α

/-- The integrator as constructed at the start of `cell_loop`. -/
def IntegratorCell.init {α : Type} [Zero α] (mf : MatrixFree α) : IntegratorCell α :=
  { cell := 0, values_quad := List.replicate mf.n_q_points 0, values_dofs := [] }

/-- The call `integrator.reinit(cell)`. -/
def IntegratorCell.reinit {α : Type} (integrator : IntegratorCell α) (cell : Nat) :
    IntegratorCell α :=
  { integrator with cell := cell }

/-- The call `integrator.submit_value(v, q)`. -/
def IntegratorCell.submit_value {α : Type} (integrator : IntegratorCell α) (v : α) (q : Nat) :
    IntegratorCell α :=
  { integrator with values_quad := integrator.values_quad.set q v }

/-- The call `integrator.integrate(integrate_values, integrate_gradients)`. -/
def IntegratorCell.integrate {α : Type} (mf : MatrixFree α) (integrator : IntegratorCell α)
    (integrate_values integrate_gradients : Bool) : IntegratorCell α :=
  { integrator with
    values_dofs :=
      mf.integrate integrate_values integrate_gradients integrator.cell integrator.values_quad }

/-- The update `dst[i] += v` of one vector entry. -/
def add_at {α : Type} [Add α] (dst : List α) (i : Nat) (v : α) : List α :=
  match dst[i]? with
  | some x => dst.set i (x + v)
  | none => dst

/-- The call `integrator.distribute_local_to_global(dst)`: every local DoF value is added to the
entry of `dst` at its global index. -/
def IntegratorCell.distribute_local_to_global {α : Type} [Add α] (mf : MatrixFree α)
    (integrator : IntegratorCell α) (dst : List α) : List α :=
  ((mf.dof_indices integrator.cell).zip integrator.values_dofs).foldl
    (fun dst iv => add_at dst iv.1 iv.2) dst

/-- The function `RHSOperator::do_cell_integral`. -/
def RHSOperator.do_cell_integral {α : Type} (op : RHSOperator α)
    (integrator : IntegratorCell α) : IntegratorCell α :=
  let integrator :=
    forLoop op.matrix_free.n_q_points
      (fun q integrator =>
        integrator.submit_value (op.get_volume_flux integrator.cell q op.time) q)
      integrator
  integrator.integrate op.matrix_free true false

/-- The function `RHSOperator::cell_loop` on the range `[cell_range.first, cell_range.second)`;
the argument `src` is not used. -/
def RHSOperator.cell_loop {α : Type} [Zero α] [Add α] (op : RHSOperator α) (dst : List α)
    (cell_range : Nat × Nat) : List α :=
  (forLoop (cell_range.2 - cell_range.1)
    (fun j (state : IntegratorCell α × List α) =>
      let cell := cell_range.1 + j
      let integrator := state.1.reinit cell
      let integrator := op.do_cell_integral integrator
      (integrator, integrator.distribute_local_to_global op.matrix_free state.2))
    (IntegratorCell.init op.matrix_free, dst)).2

/-- The function `RHSOperator::evaluate_add`: `time` is set, then `matrix_free->cell_loop` runs
`cell_loop` on every range. Returns the operator (with its new `time`) and `dst`. -/
def RHSOperator.evaluate_add {α : Type} [Zero α] [Add α] (op : RHSOperator α) (dst : List α)
    (evaluation_time : ℚ) : RHSOperator α × List α :=
  let op := { op with time := evaluation_time }
  (op, op.matrix_free.cell_ranges.foldl (fun dst cell_range => op.cell_loop dst cell_range) dst)

/-- The function `RHSOperator::evaluate`: `dst = 0`, then `evaluate_add`. -/
def RHSOperator.evaluate {α : Type} [Zero α] [Add α] (op : RHSOperator α) (dst : List α)
    (evaluation_time : ℚ) : RHSOperator α × List α :=
  let dst := dst.map (fun _ => (0 : α))
  op.evaluate_add dst evaluation_time

/-- A small operator to run `evaluate` on: two cell batches `0, 1` in one range, two quadrature
points and two DoFs per batch, batch `c` owning the entries `2c` and `2c + 1`; the integration
hands the submitted values through, and the flux at point `q` of batch `c` is `c + q` plus the
numerator of the time. -/
def sample_rhs_operator : RHSOperator Int :=
  { matrix_free :=
      { cell_ranges := [(0, 2)]
        n_q_points := 2
        dof_indices := fun c => [2 * c, 2 * c + 1]
        integrate := fun _ _ _ vals => vals }
    get_volume_flux := fun c q t => (c : Int) + (q : Int) + t.num
    time := 0 }

/-- The literal `0` of the number type `double`. -/
instance : Zero Double := ⟨Double.finite 0⟩

/-- The operation `+` of the number type `double`. -/
instance : Add Double := ⟨Double.add⟩

/-- A small operator in `double` arithmetic whose two cell batches `0, 1` (one range) have one
quadrature point and one DoF each and share the entry `0` of the vector, as the cells on the two
sides of a DoF of a continuous finite element space do; the integration hands the submitted value
through, and the flux is `1.0`. -/
def sample_rhs_operator_shared_dof : RHSOperator Double :=
  { matrix_free :=
      { cell_ranges := [(0, 2)]
        n_q_points := 1
        dof_indices := fun _ => [0]
        integrate := fun _ _ _ vals => vals }
    get_volume_flux := fun _ _ _ => Double.finite 1
    time := 0 }

/-! ## Quadrature rules of `DGNavierStokesBase::setup` (DGNavierStokesBase.h) -/

/-- The enumeration `QuadratureSelector` of DGNavierStokesBase.h, without its last entry
`n_variants`, which is the constant below. -/
inductive QuadratureSelector where
  | velocity
  | pressure
  | velocity_nonlinear
  | enriched
  deriving DecidableEq

/-- The underlying value of a `QuadratureSelector`: `velocity = 0`, `pressure = 1`,
`velocity_nonlinear = 2`, `enriched = 3`. -/
def QuadratureSelector.underlying : QuadratureSelector → Nat
  | QuadratureSelector.velocity => 0
  | QuadratureSelector.pressure => 1
  | QuadratureSelector.velocity_nonlinear => 2
  | QuadratureSelector.enriched => 3

/-- The enumerator `QuadratureSelector::n_variants = enriched+1`. -/
def QuadratureSelector.n_variants : Nat := QuadratureSelector.enriched.underlying + 1

/-- The call `v.resize(n)` of a `std::vector`: the first `n` entries are kept, missing ones are
value-initialised. -/
def resize {α : Type} (v : List α) (n : Nat) (value : α) : List α :=
  v.take n ++ List.replicate (n - v.length) value

/-- The vector `quadratures` that `DGNavierStokesBase::setup` hands to `data.reinit`, every rule
`QGauss<1>(n)` given by its number `n` of points; a default-constructed `Quadrature<1>` has no
points. -/
def quadratures (fe_degree fe_degree_p n_q_points_1d_xwall : Int) : List Int :=
  let quadratures : List Int := []
  let quadratures := resize quadratures QuadratureSelector.n_variants 0
  let quadratures := quadratures.set QuadratureSelector.velocity.underlying (fe_degree + 1)
  let quadratures := quadratures.set QuadratureSelector.pressure.underlying (fe_degree_p + 1)
  let quadratures := quadratures.set QuadratureSelector.velocity_nonlinear.underlying
    (fe_degree + Int.tdiv (fe_degree + 2) 2)
  let quadratures := quadratures.set QuadratureSelector.enriched.underlying n_q_points_1d_xwall
  quadratures

/-! ## Enumerations and their names (enum_types.cpp, compressible_navier_stokes_performance.cc) -/

/-- Modelled from the spec: the declaration of `CFLConditionType` is in enum_types.h, which is
not among the sources; its enumerators are taken to be the ones the `switch` of
`enum_to_string` handles. -/
inductive CFLConditionType where
  | VelocityNorm
  | VelocityComponents
  deriving DecidableEq

/-- Modelled from the spec: the declaration of `GenAlphaType` is in enum_types.h, which is not
among the sources; its enumerators are taken to be the ones the `switch` of `enum_to_string`
handles. -/
inductive GenAlphaType where
  | Newmark
  | GenAlpha
  | HHTAlpha
  | BossakAlpha
  deriving DecidableEq

/-- The enumeration `Operator` of the performance application. -/
inductive Operator where
  | ConvectiveTerm
  | ViscousTerm
  | ViscousAndConvectiveTerms
  | InverseMassMatrix
  | InverseMassMatrixDstDst
  | VectorUpdate
  | EvaluateOperatorExplicit
  deriving DecidableEq

/-- The function `enum_to_string(CFLConditionType)`: the `switch` as a chain of comparisons, the
`default` branch throwing `Not implemented.`. -/
def CFLConditionType.enum_to_string (enum_type : CFLConditionType) : Except String String :=
  if enum_type = CFLConditionType.VelocityNorm then Except.ok "VelocityNorm"
  else if enum_type = CFLConditionType.VelocityComponents then Except.ok "VelocityComponents"
  else Except.error "Not implemented."

/-- The function `enum_to_string(GenAlphaType)`. -/
def GenAlphaType.enum_to_string (enum_type : GenAlphaType) : Except String String :=
  if enum_type = GenAlphaType.Newmark then Except.ok "Newmark"
  else if enum_type = GenAlphaType.GenAlpha then Except.ok "GenAlpha"
  else if enum_type = GenAlphaType.HHTAlpha then Except.ok "HHTAlpha"
  else if enum_type = GenAlphaType.BossakAlpha then Except.ok "BossakAlpha"
  else Except.error "Not implemented."

/-- The function `enum_to_string(Operator)` of the performance application. -/
def Operator.enum_to_string (enum_type : Operator) : Except String String :=
  if enum_type = Operator.ConvectiveTerm then Except.ok "ConvectiveTerm"
  else if enum_type = Operator.ViscousTerm then Except.ok "ViscousTerm"
  else if enum_type = Operator.ViscousAndConvectiveTerms then
    Except.ok "ViscousAndConvectiveTerms"
  else if enum_type = Operator.InverseMassMatrix then Except.ok "InverseMassMatrix"
  else if enum_type = Operator.InverseMassMatrixDstDst then Except.ok "InverseMassMatrixDstDst"
  else if enum_type = Operator.VectorUpdate then Except.ok "VectorUpdate"
  else if enum_type = Operator.EvaluateOperatorExplicit then
    Except.ok "EvaluateOperatorExplicit"
  else Except.error "Not implemented."

/-- The two local vectors of `Problem::apply_operator`. -/
inductive Buffer where
  | dst
  | src
  deriving DecidableEq

/-- The operations `apply_operator` applies in an inner repetition, with the vectors (and the
time or the factors) they are called with. -/
inductive EngineCall where
  | evaluate_convective (target source : Buffer) (time : ℚ)
  | evaluate_viscous (target source : Buffer) (time : ℚ)
  | evaluate_convective_and_viscous (target source : Buffer) (time : ℚ)
  | apply_inverse_mass (target source : Buffer)
  | sadd (this : Buffer) (s a : ℚ) (V : Buffer)
  | evaluate (target source : Buffer) (time : ℚ)
  deriving DecidableEq

/-- The dispatch on `OPERATOR` in the inner loop of `apply_operator`: the operation applied, or
the exception of the last `else`. -/
def operator_dispatch (OPERATOR : Operator) : Except String EngineCall :=
  if OPERATOR = Operator.ConvectiveTerm then
    Except.ok (EngineCall.evaluate_convective Buffer.dst Buffer.src 0)
  else if OPERATOR = Operator.ViscousTerm then
    Except.ok (EngineCall.evaluate_viscous Buffer.dst Buffer.src 0)
  else if OPERATOR = Operator.ViscousAndConvectiveTerms then
    Except.ok (EngineCall.evaluate_convective_and_viscous Buffer.dst Buffer.src 0)
  else if OPERATOR = Operator.InverseMassMatrix then
    Except.ok (EngineCall.apply_inverse_mass Buffer.dst Buffer.src)
  else if OPERATOR = Operator.InverseMassMatrixDstDst then
    Except.ok (EngineCall.apply_inverse_mass Buffer.dst Buffer.dst)
  else if OPERATOR = Operator.VectorUpdate then
    Except.ok (EngineCall.sadd Buffer.dst 2 1 Buffer.src)
  else if OPERATOR = Operator.EvaluateOperatorExplicit then
    Except.ok (EngineCall.evaluate Buffer.dst Buffer.src 0)
  else Except.error "Specified operator type not implemented"

/-- The operations applied by the two nested repetition loops of `apply_operator`, in order; an
exception thrown in a repetition ends the function. -/
def apply_operator_calls (n_repetitions_inner n_repetitions_outer : Nat) (OPERATOR : Operator) :
    Except String (List EngineCall) :=
  forLoop n_repetitions_outer
    (fun _ calls =>
      forLoop n_repetitions_inner
        (fun _ calls =>
          match calls with
          | Except.error e => Except.error e
          | Except.ok l =>
            match operator_dispatch OPERATOR with
            | Except.error e => Except.error e
            | Except.ok c => Except.ok (l ++ [c]))
        calls)
    (Except.ok [])

/-- The call `this.sadd(s, a, V)` of a deal.II vector: `this = s * this + a * V`. -/
def sadd (s a : ℚ) (this V : List ℚ) : List ℚ :=
  List.zipWith (fun x v => s * x + a * v) this V

/-! ## `VariableCoefficients` (exadg/operators/variable_coefficients.h) -/

/-- A `dealii::Table<2, T>`: a list of rows. -/
abbrev Table (T : Type) : Type := List (List T)

/-- The call `table.reinit(n_rows, n_cols)`: the old content is dropped, every entry of the new
table is value-initialised. -/
def Table.reinit {T : Type} (_table : Table T) (n_rows n_cols : Nat) (value : T) : Table T :=
  List.replicate n_rows (List.replicate n_cols value)

/-- The call `table.fill(value)`. -/
def Table.fill {T : Type} (table : Table T) (value : T) : Table T :=
  table.map (fun row => row.map (fun _ => value))

/-- The read `table[i][j]`; `none` outside the table, where the access is undefined. -/
def Table.get {T : Type} (table : Table T) (i j : Nat) : Option T :=
  match table[i]? with
  | some row => row[j]?
  | none => none

/-- The write `table[i][j] = value`; outside the table (where the access is undefined) the table
is left as it is. -/
def Table.set {T : Type} (table : Table T) (i j : Nat) (value : T) : Table T :=
  match table[i]? with
  | some row => List.set table i (row.set j value)
  | none => table

/-- A `dealii::VectorizedArray<Number>` with all lanes equal to `c`:
`dealii::make_vectorized_array<Number>(c)`. -/
def make_vectorized_array {Number : Type} (n_lanes : Nat) (c : Number) : List Number :=
  List.replicate n_lanes c

/-- The function `dealii::Utilities::pow(base, iexp)` on `unsigned int`. -/
def pow_unsigned (base iexp : Nat) : Nat := (base ^ iexp) % 2 ^ 32

/-- The batch counts `n_cell_batches()`, `n_inner_face_batches()` and
`n_boundary_face_batches()` of a `dealii::MatrixFree`. -/
structure BatchCounts where
  n_cell_batches : Nat
  n_inner_face_batches : Nat
  n_boundary_face_batches : Nat

/-- The class `VariableCoefficientsCells`: its table, of `scalar` entries (lists of lanes). -/
structure VariableCoefficientsCells (Number : Type) where
  coefficients_cell : Table (List Number)

/-- The function `VariableCoefficientsCells::initialize`; `dim >= 1` is the template parameter,
`n_lanes` the width of a `VectorizedArray`. -/
def VariableCoefficientsCells.initialize {Number : Type} [Zero Number]
    (vc : VariableCoefficientsCells Number) (dim n_lanes : Nat) (matrix_free : BatchCounts)
    (degree : Nat) (constant_coefficient : Number) : VariableCoefficientsCells Number :=
  let points_per_cell := pow_unsigned ((degree + 1) % 2 ^ 32) dim
  let coefficients_cell :=
    vc.coefficients_cell.reinit matrix_free.n_cell_batches points_per_cell
      (make_vectorized_array n_lanes 0)
  let coefficients_cell :=
    coefficients_cell.fill (make_vectorized_array n_lanes constant_coefficient)
  { coefficients_cell := coefficients_cell }

/-- The function `VariableCoefficientsCells::get_coefficient`. -/
def VariableCoefficientsCells.get_coefficient {Number : Type}
    (vc : VariableCoefficientsCells Number) (cell q : Nat) : Option (List Number) :=
  vc.coefficients_cell.get cell q

/-- The function `VariableCoefficientsCells::set_coefficient`. -/
def VariableCoefficientsCells.set_coefficient {Number : Type}
    (vc : VariableCoefficientsCells Number) (cell q : Nat) (value : List Number) :
    VariableCoefficientsCells Number :=
  { coefficients_cell := vc.coefficients_cell.set cell q value }

/-- The class `VariableCoefficients`: its three tables. -/
structure VariableCoefficients (Number : Type) where
  coefficients_cell : Table (List Number)
  coefficients_face : Table (List Number)
  coefficients_face_neighbor : Table (List Number)

/-- The function `VariableCoefficients::initialize`. -/
def VariableCoefficients.initialize {Number : Type} [Zero Number]
    (vc : VariableCoefficients Number) (dim n_lanes : Nat) (matrix_free : BatchCounts)
    (degree : Nat) (constant_coefficient : Number) : VariableCoefficients Number :=
  let points_per_cell := pow_unsigned ((degree + 1) % 2 ^ 32) dim
  let points_per_face := pow_unsigned ((degree + 1) % 2 ^ 32) (dim - 1)
  -- cells
  let coefficients_cell :=
    vc.coefficients_cell.reinit matrix_free.n_cell_batches points_per_cell
      (make_vectorized_array n_lanes 0)
  let coefficients_cell :=
    coefficients_cell.fill (make_vectorized_array n_lanes constant_coefficient)
  -- face-based loops
  let coefficients_face :=
    vc.coefficients_face.reinit
      ((matrix_free.n_inner_face_batches + matrix_free.n_boundary_face_batches) % 2 ^ 32)
      points_per_face (make_vectorized_array n_lanes 0)
  let coefficients_face :=
    coefficients_face.fill (make_vectorized_array n_lanes constant_coefficient)
  let coefficients_face_neighbor :=
    vc.coefficients_face_neighbor.reinit matrix_free.n_inner_face_batches points_per_face
      (make_vectorized_array n_lanes 0)
  let coefficients_face_neighbor :=
    coefficients_face_neighbor.fill (make_vectorized_array n_lanes constant_coefficient)
  { coefficients_cell := coefficients_cell
    coefficients_face := coefficients_face
    coefficients_face_neighbor := coefficients_face_neighbor }

/-- The function `VariableCoefficients::get_coefficient_cell`. -/
def VariableCoefficients.get_coefficient_cell {Number : Type} (vc : VariableCoefficients Number)
    (cell q : Nat) : Option (List Number) :=
  vc.coefficients_cell.get cell q

/-- The function `VariableCoefficients::set_coefficient_cell`. -/
def VariableCoefficients.set_coefficient_cell {Number : Type} (vc : VariableCoefficients Number)
    (cell q : Nat) (value : List Number) : VariableCoefficients Number :=
  { vc with coefficients_cell := vc.coefficients_cell.set cell q value }

/-- The function `VariableCoefficients::get_coefficient_face`. -/
def VariableCoefficients.get_coefficient_face {Number : Type} (vc : VariableCoefficients Number)
    (face q : Nat) : Option (List Number) :=
  vc.coefficients_face.get face q

/-- The function `VariableCoefficients::set_coefficient_face`. -/
def VariableCoefficients.set_coefficient_face {Number : Type} (vc : VariableCoefficients Number)
    (face q : Nat) (value : List Number) : VariableCoefficients Number :=
  { vc with coefficients_face := vc.coefficients_face.set face q value }

/-- The function `VariableCoefficients::get_coefficient_face_neighbor`. -/
def VariableCoefficients.get_coefficient_face_neighbor {Number : Type}
    (vc : VariableCoefficients Number) (face q : Nat) : Option (List Number) :=
  vc.coefficients_face_neighbor.get face q

/-- The function `VariableCoefficients::set_coefficient_face_neighbor`. -/
def VariableCoefficients.set_coefficient_face_neighbor {Number : Type}
    (vc : VariableCoefficients Number) (face q : Nat) (value : List Number) :
    VariableCoefficients Number :=
  { vc with coefficients_face_neighbor := vc.coefficients_face_neighbor.set face q value }

/-- A table of coefficients with two cell batches of two points, one face batch and two lanes, to
run the setters and `initialize` on. -/
def sample_variable_coefficients : VariableCoefficients Int :=
  { coefficients_cell := [[[1, 2], [3, 4]], [[5, 6], [7, 8]]]
    coefficients_face := [[[9, 10]]]
    coefficients_face_neighbor := [[[11, 12]]] }

/-! ## `element_volume` in `DGNavierStokesBase::setup` (DGNavierStokesBase.h) -/

/-- The constant `number_vorticity_components = (dim==2) ? 1 : dim`. -/
def number_vorticity_components (dim : Nat) : Nat := if dim = 2 then 1 else dim

/-- The tensor `omega_vector` of `local_compute_vorticity`: a `Tensor<1,dim,...>` (all components
zero when declared) whose first `number_vorticity_components` components are set to those of
`omega`. -/
def omega_vector {α : Type} [Zero α] (dim : Nat) (omega : List α) : List α :=
  let omega_vector : List α := List.replicate dim 0
  forLoop (number_vorticity_components dim)
    (fun d omega_vector => omega_vector.set d (omega.getD d 0))
    omega_vector

/-- The tensor `div_vector` of `local_compute_divergence`: a `Tensor<1,dim,...>` (all components
zero when declared) with component 0 set to the divergence. -/
def div_vector {α : Type} [Zero α] (dim : Nat) (divergence : α) : List α :=
  let div_vector : List α := List.replicate dim 0
  div_vector.set 0 divergence

/-- What the two cell loops use of `MatrixFree` and of the evaluator
`FEEval_Velocity_Velocity_linear`: the cell-batch ranges `data.cell_loop` hands out, the number
of quadrature points, the global indices of the local DoFs of a cell batch, the curl and the
divergence at a quadrature point (from the DoF values read, after `evaluate`), and the integration
`integrate(true, false)` of the submitted tensors against the test functions. -/
structure VelocityMatrixFree (α : Type) where
  cell_ranges : List (Nat × Nat)
  n_q_points : Nat
  dof_indices : Nat → List Nat
  get_curl : Nat → List α → Nat → List α
  get_divergence : Nat → List α → Nat → α
  integrate : Nat → List (List α) → List α

/-- The evaluator `FEEval_Velocity_Velocity_linear`: the cell batch it is on, its local DoF
values and the tensors submitted at the quadrature points. -/
structure FEEvalVelocity (α : Type) where
  cell : Nat
  values_dofs : List α
  values_quad : List (List α)

/-- The evaluator as constructed at the start of a cell loop. -/
def FEEvalVelocity.init {α : Type} [Zero α] (dim : Nat) (data : VelocityMatrixFree α) :
    FEEvalVelocity α :=
  { cell := 0
    values_dofs := []
    values_quad := List.replicate data.n_q_points (List.replicate dim 0) }

/-- The call `velocity.reinit(cell)`. -/
def FEEvalVelocity.reinit {α : Type} (velocity : FEEvalVelocity α) (cell : Nat) :
    FEEvalVelocity α :=
  { velocity with cell := cell }

/-- The call `velocity.read_dof_values(src)`. -/
def FEEvalVelocity.read_dof_values {α : Type} [Zero α] (data : VelocityMatrixFree α)
    (velocity : FEEvalVelocity α) (src : List α) : FEEvalVelocity α :=
  { velocity with values_dofs := (data.dof_indices velocity.cell).map (fun i => src.getD i 0) }

/-- The call `velocity.submit_value(v, q)`. -/
def FEEvalVelocity.submit_value {α : Type} (velocity : FEEvalVelocity α) (v : List α)
    (q : Nat) : FEEvalVelocity α :=
  { velocity with values_quad := velocity.values_quad.set q v }

/-- The call `velocity.integrate(true, false)`. -/
def FEEvalVelocity.integrate {α : Type} (data : VelocityMatrixFree α)
    (velocity : FEEvalVelocity α) : FEEvalVelocity α :=
  { velocity with values_dofs := data.integrate velocity.cell velocity.values_quad }

/-- The call `velocity.distribute_local_to_global(dst)`. -/
def FEEvalVelocity.distribute_local_to_global {α : Type} [Add α] (data : VelocityMatrixFree α)
    (velocity : FEEvalVelocity α) (dst : List α) : List α :=
  ((data.dof_indices velocity.cell).zip velocity.values_dofs).foldl
    (fun dst iv => add_at dst iv.1 iv.2) dst

/-- The loop over the quadrature points in `local_compute_vorticity`. -/
def vorticity_quadrature_loop {α : Type} [Zero α] (dim : Nat) (data : VelocityMatrixFree α)
    (velocity : FEEvalVelocity α) : FEEvalVelocity α :=
  forLoop data.n_q_points
    (fun q velocity =>
      let omega := data.get_curl velocity.cell velocity.values_dofs q
      velocity.submit_value (omega_vector dim omega) q)
    velocity

/-- The loop over the quadrature points in `local_compute_divergence`. -/
def divergence_quadrature_loop {α : Type} [Zero α] (dim : Nat) (data : VelocityMatrixFree α)
    (fe_eval_velocity : FEEvalVelocity α) : FEEvalVelocity α :=
  forLoop data.n_q_points
    (fun q fe_eval_velocity =>
      fe_eval_velocity.submit_value
        (div_vector dim
          (data.get_divergence fe_eval_velocity.cell fe_eval_velocity.values_dofs q)) q)
    fe_eval_velocity

/-- The function `DGNavierStokesBase::local_compute_vorticity`. -/
def local_compute_vorticity {α : Type} [Zero α] [Add α] (dim : Nat)
    (data : VelocityMatrixFree α) (dst src : List α) (cell_range : Nat × Nat) : List α :=
  (forLoop (cell_range.2 - cell_range.1)
    (fun j (state : FEEvalVelocity α × List α) =>
      let cell := cell_range.1 + j
      let velocity := state.1.reinit cell
      let velocity := velocity.read_dof_values data src
      let velocity := vorticity_quadrature_loop dim data velocity
      let velocity := velocity.integrate data
      (velocity, velocity.distribute_local_to_global data state.2))
    (FEEvalVelocity.init dim data, dst)).2

/-- The function `DGNavierStokesBase::local_compute_divergence`. -/
def local_compute_divergence {α : Type} [Zero α] [Add α] (dim : Nat)
    (data : VelocityMatrixFree α) (dst src : List α) (cell_range : Nat × Nat) : List α :=
  (forLoop (cell_range.2 - cell_range.1)
    (fun j (state : FEEvalVelocity α × List α) =>
      let cell := cell_range.1 + j
      let fe_eval_velocity := state.1.reinit cell
      let fe_eval_velocity := fe_eval_velocity.read_dof_values data src
      let fe_eval_velocity := divergence_quadrature_loop dim data fe_eval_velocity
      let fe_eval_velocity := fe_eval_velocity.integrate data
      (fe_eval_velocity, fe_eval_velocity.distribute_local_to_global data state.2))
    (FEEvalVelocity.init dim data, dst)).2

/-- The write of local values to the entries of a vector at the given global indices. -/
def set_dof_values {α : Type} (dst : List α) (indices : List Nat) (values : List α) : List α :=
  (indices.zip values).foldl (fun dst iv => dst.set iv.1 iv.2) dst

/-- Modelled from the spec: `InverseMassMatrixOperator` (InverseMassMatrix.h is not among the
sources). The spec has it apply the exact inverse of the block-diagonal, per-cell mass operator
without assembling it: one block per cell, given here by the global indices of the cell's DoFs
and the inverse of the cell's block (which the spec computes by sequential 1-D operations). -/
structure InverseMassMatrixOperator (α : Type) where
  n_cells : Nat
  dof_indices : Nat → List Nat
  inverse_mass_cell : Nat → List α → List α

/-- Modelled from the spec: `apply_inverse_mass_matrix(dst, src)` on a memory of vectors, `dst`
and `src` naming the vectors (the same name for an in-place call). As in the cell loops of the
sources, every cell reads its DoF values from `src`, applies the inverse of its block and writes
the result to its DoFs in `dst`. -/
def InverseMassMatrixOperator.apply_inverse_mass_matrix {α : Type} [Zero α]
    (op : InverseMassMatrixOperator α) (memory : Nat → List α) (dst src : Nat) :
    Nat → List α :=
  forLoop op.n_cells
    (fun cell memory =>
      let values := (op.dof_indices cell).map (fun i => (memory src).getD i 0)
      let values := op.inverse_mass_cell cell values
      Function.update memory dst (set_dof_values (memory dst) (op.dof_indices cell) values))
    memory

/-- The function `DGNavierStokesBase::compute_vorticity`: `dst = 0`, the cell loop with
`local_compute_vorticity`, then `apply_inverse_mass_matrix(dst, dst)`. -/
def compute_vorticity {α : Type} [Zero α] [Add α] (dim : Nat) (data : VelocityMatrixFree α)
    (inverse_mass_matrix_operator : InverseMassMatrixOperator α) (dst src : List α) : List α :=
  let dst := dst.map (fun _ => (0 : α))
  let dst :=
    data.cell_ranges.foldl
      (fun dst cell_range => local_compute_vorticity dim data dst src cell_range) dst
  (inverse_mass_matrix_operator.apply_inverse_mass_matrix (fun _ => dst) 0 0) 0

/-- The function `DGNavierStokesBase::compute_divergence`. -/
def compute_divergence {α : Type} [Zero α] [Add α] (dim : Nat) (data : VelocityMatrixFree α)
    (inverse_mass_matrix_operator : InverseMassMatrixOperator α) (dst src : List α) : List α :=
  let dst := dst.map (fun _ => (0 : α))
  let dst :=
    data.cell_ranges.foldl
      (fun dst cell_range => local_compute_divergence dim data dst src cell_range) dst
  (inverse_mass_matrix_operator.apply_inverse_mass_matrix (fun _ => dst) 0 0) 0

/-- A small velocity evaluator in two dimensions to run the cell loops on: two cell batches in
one range, one quadrature point and two DoFs per batch, batch `c` owning the entries `2c` and
`2c + 1`; the curl is the difference and the divergence the sum of the two DoF values, and the
integration hands on the components of the submitted tensor. -/
def sample_velocity_matrix_free : VelocityMatrixFree Int :=
  { cell_ranges := [(0, 2)]
    n_q_points := 1
    dof_indices := fun c => [2 * c, 2 * c + 1]
    get_curl := fun _ dofs _ => [dofs.getD 1 0 - dofs.getD 0 0]
    get_divergence := fun _ dofs _ => dofs.getD 0 0 + dofs.getD 1 0
    integrate := fun _ quad => quad.getD 0 [] }

/-- A small inverse mass operator matching the sample evaluator: two cells of two DoFs, the
inverse of a block swapping the two values and doubling them. -/
def sample_inverse_mass_matrix_operator : InverseMassMatrixOperator Int :=
  { n_cells := 2
    dof_indices := fun c => [2 * c, 2 * c + 1]
    inverse_mass_cell := fun _ values => values.reverse.map (fun x => 2 * x) }

/-! ## `main` and `Problem::setup` (compressible_navier_stokes_performance.cc) -/

/-- Modelled from the spec: the declaration of `TriangulationType` is in a header that is not
among the sources; it has the two enumerators `Problem::setup` names, every other value is
`other`. -/
inductive TriangulationType where
  | Distributed
  | FullyDistributed
  | other (value : Nat)
  deriving DecidableEq

/-- The fields of `InputParameters` that `main` and `Problem::setup` read or write. -/
structure InputParameters where
  dim : Nat
  degree : Nat
  h_refinements : Int
  triangulation_type : TriangulationType

/-- The table `REFINE_LEVELS`: refinement level `l = REFINE_LEVELS[degree-1]`. -/
def REFINE_LEVELS : List Int := [7, 6, 6, 5, 5, 5, 5, 4, 4, 4, 4, 4, 4, 4, 4]

/-- The calls that `main` and `Problem::setup` make, in program order. -/
inductive AppCall where
  | MPI_InitFinalize
  | set_input_parameters
  | construct_problem (dim : Nat)
  | print_header
  | print_dealii_info
  | print_MPI_info
  | check_input_parameters
  | print_parameters
  | new_triangulation (triangulation_type : TriangulationType)
  | create_grid_and_set_boundary_ids
  | print_grid_data
  | set_boundary_conditions
  | set_field_functions
  | construct_postprocessor
  | construct_operator
  | operator_setup
  | apply_operator
  | print_throughput
  | wall_times_clear
  | report_exception (what : String)
  deriving DecidableEq

/-- The calls a function made, and the message of the exception it threw, if it threw one. -/
structure Outcome where
  calls : List AppCall
  thrown : Option String

/-- The function `Problem::setup`. `check_input_parameters param` is the message of the
exception `param.check_input_parameters()` throws, `none` when it returns; the other
collaborators are taken to return. -/
def Problem.setup (check_input_parameters : InputParameters → Option String)
    (param_in : InputParameters) : Outcome :=
  let calls := [AppCall.print_header, AppCall.print_dealii_info, AppCall.print_MPI_info]
  let param := param_in
  let calls := calls ++ [AppCall.check_input_parameters]
  match check_input_parameters param with
  | some what => { calls := calls, thrown := some what }
  | none =>
    let calls := calls ++ [AppCall.print_parameters]
    -- triangulation
    if param.triangulation_type = TriangulationType.Distributed
        ∨ param.triangulation_type = TriangulationType.FullyDistributed then
      let calls := calls ++ [AppCall.new_triangulation param.triangulation_type]
      let calls := calls ++
        [ AppCall.create_grid_and_set_boundary_ids,
          AppCall.print_grid_data,
          AppCall.set_boundary_conditions,
          AppCall.set_field_functions,
          AppCall.construct_postprocessor,
          AppCall.construct_operator,
          AppCall.operator_setup ]
      { calls := calls, thrown := none }
    else
      { calls := calls, thrown := some "Invalid parameter triangulation_type." }

/-- The read `REFINE_LEVELS[degree - 1]` of `main`, `degree - 1` computed in `unsigned int` (it
wraps to `2^32 - 1` for `degree = 0`); `none` stands for the undefined behaviour of a read
outside the table. -/
def refine_level (degree : Nat) : Option Int :=
  REFINE_LEVELS[if degree = 0 then 2 ^ 32 - 1 else degree - 1]?

/-- One pass through the body of the degree loop of `main`: the parameters as the pass leaves
them and its outcome, the calls so far included; `none` when the read `REFINE_LEVELS[degree - 1]`
is outside the table. -/
def main_degree_body (check_input_parameters : InputParameters → Option String)
    (param : InputParameters) (degree : Nat) (calls : List AppCall) :
    Option (InputParameters × Outcome) :=
  -- manipulate polynomial degree, reset h-refinements
  match refine_level degree with
  | none => none
  | some h_refinements =>
    let param := { param with degree := degree, h_refinements := h_refinements }
    if param.dim = 2 ∨ param.dim = 3 then
      let calls := calls ++ [AppCall.construct_problem param.dim]
      let setup := Problem.setup check_input_parameters param
      let calls := calls ++ setup.calls
      match setup.thrown with
      | some what => some (param, { calls := calls, thrown := some what })
      | none => some (param, { calls := calls ++ [AppCall.apply_operator], thrown := none })
    else
      some (param, { calls := calls, thrown := some "Only dim=2 and dim=3 implemented." })

/-- The degree loop of `main` over the degrees still to come: it ends with the first pass that
throws. -/
def main_degree_loop (check_input_parameters : InputParameters → Option String) :
    List Nat → InputParameters → List AppCall → Option Outcome
  | [], _, calls => some { calls := calls, thrown := none }
  | degree :: degrees, param, calls =>
    match main_degree_body check_input_parameters param degree calls with
    | none => none
    | some (param, outcome) =>
      match outcome.thrown with
      | some _ => some outcome
      | none => main_degree_loop check_input_parameters degrees param outcome.calls

/-- The function `main`: the calls it makes and its exit code. `param` is what
`set_input_parameters` leaves, `DEGREE_MIN` and `DEGREE_MAX` are the constants of the test case
header (not among the sources); the degree loop runs over `DEGREE_MIN, ..., DEGREE_MAX`. An
exception is caught, reported and answered with exit code 1. -/
def main (check_input_parameters : InputParameters → Option String) (param : InputParameters)
    (DEGREE_MIN DEGREE_MAX : Nat) : Option (List AppCall × Nat) :=
  let calls := [AppCall.MPI_InitFinalize, AppCall.set_input_parameters]
  match main_degree_loop check_input_parameters
      (List.range' DEGREE_MIN (DEGREE_MAX + 1 - DEGREE_MIN)) param calls with
  | none => none
  | some outcome =>
    match outcome.thrown with
    | some what => some (outcome.calls ++ [AppCall.report_exception what], 1)
    | none => some (outcome.calls ++ [AppCall.print_throughput, AppCall.wall_times_clear], 0)

/-! ## The field registration in `DGNavierStokesBase::setup` (DGNavierStokesBase.h) -/

/-- The enumeration `DofHandlerSelector`, without its last entry `n_variants`, which is the
constant below. -/
inductive DofHandlerSelector where
  | velocity
  | pressure
  | wdist_tauw
  | enriched
  deriving DecidableEq

/-- The underlying value of a `DofHandlerSelector`: `velocity = 0`, `pressure = 1`,
`wdist_tauw = 2`, `enriched = 3`. -/
def DofHandlerSelector.underlying : DofHandlerSelector → Nat
  | DofHandlerSelector.velocity => 0
  | DofHandlerSelector.pressure => 1
  | DofHandlerSelector.wdist_tauw => 2
  | DofHandlerSelector.enriched => 3

/-- The enumerator `DofHandlerSelector::n_variants = enriched+1`. -/
def DofHandlerSelector.n_variants : Nat := DofHandlerSelector.enriched.underlying + 1

/-- The DoF handlers `setup` registers: the members `dof_handler_u`, `dof_handler_p`,
`dof_handler_xwall` and the one returned by `xwall.ReturnDofHandlerWallDistance()`. -/
inductive DoFHandlerObject where
  | dof_handler_u
  | dof_handler_p
  | xwall_dof_handler_wall_distance
  | dof_handler_xwall
  deriving DecidableEq

/-- The constraint objects `setup` registers: the locals `constraint` and `constraint_p` and the
one returned by `xwall.ReturnConstraintMatrix()`. -/
inductive ConstraintObject where
  | constraint
  | constraint_p
  | xwall_constraint_matrix
  deriving DecidableEq

/-- The four assignments `dof_handler_vec[selector] = &handler` of `setup`, in program order. -/
def dof_handler_assignments : List (DofHandlerSelector × DoFHandlerObject) :=
  [ (DofHandlerSelector.velocity, DoFHandlerObject.dof_handler_u),
    (DofHandlerSelector.pressure, DoFHandlerObject.dof_handler_p),
    (DofHandlerSelector.wdist_tauw, DoFHandlerObject.xwall_dof_handler_wall_distance),
    (DofHandlerSelector.enriched, DoFHandlerObject.dof_handler_xwall) ]

/-- The vector `dof_handler_vec` handed to `data.reinit`: resized to `n_variants` null pointers,
then assigned slot by slot. -/
def dof_handler_vec : List (Option DoFHandlerObject) :=
  let dof_handler_vec : List (Option DoFHandlerObject) := []
  let dof_handler_vec := resize dof_handler_vec DofHandlerSelector.n_variants none
  dof_handler_assignments.foldl
    (fun dof_handler_vec assignment =>
      dof_handler_vec.set assignment.1.underlying (some assignment.2))
    dof_handler_vec

/-- The vector `constraint_matrix_vec` handed to `data.reinit`, built by four `push_back`. -/
def constraint_matrix_vec : List ConstraintObject :=
  let constraint_matrix_vec : List ConstraintObject := []
  let constraint_matrix_vec := constraint_matrix_vec ++ [ConstraintObject.constraint]
  let constraint_matrix_vec := constraint_matrix_vec ++ [ConstraintObject.constraint_p]
  let constraint_matrix_vec :=
    constraint_matrix_vec ++ [ConstraintObject.xwall_constraint_matrix]
  let constraint_matrix_vec := constraint_matrix_vec ++ [ConstraintObject.constraint]
  constraint_matrix_vec

/-- The slots of `quadratures` that `setup` assigns, in program order. -/
def quadrature_assignments : List QuadratureSelector :=
  [ QuadratureSelector.velocity,
    QuadratureSelector.pressure,
    QuadratureSelector.velocity_nonlinear,
    QuadratureSelector.enriched ]

/-! ## `Structure::ApplicationBase::setup` (exadg/structure/user_interface/application_base.h) -/

/-- The steps of `ApplicationBase::setup`, in program order. -/
inductive StructureCall where
  | parse_parameters
  | set_parameters
  | param_check
  | param_print
  | make_shared_grid
  | create_grid
  | print_grid_info
  | make_shared_boundary_descriptor
  | set_boundary_descriptor
  | verify_boundary_conditions
  | make_shared_material_descriptor
  | set_material_descriptor
  | make_shared_field_functions
  | set_field_functions
  deriving DecidableEq

/-- The steps a run of `ApplicationBase::setup` has entered, and the message of the exception
that ended it, if one did. -/
structure StructureOutcome where
  calls : List StructureCall
  thrown : Option String

/-- A sequence of steps run one after the other; `throws step` is the message of the exception
the step throws, `none` when it returns. The first step that throws ends the run. -/
def run_calls (throws : StructureCall → Option String) :
    List StructureCall → List StructureCall → StructureOutcome
  | [], done => { calls := done, thrown := none }
  | step :: steps, done =>
    match throws step with
    | some what => { calls := done ++ [step], thrown := some what }
    | none => run_calls throws steps (done ++ [step])

/-- The body of `ApplicationBase::setup` as its sequence of steps. -/
def ApplicationBase.setup_steps : List StructureCall :=
  [ StructureCall.parse_parameters,
    -- parameters
    StructureCall.set_parameters,
    StructureCall.param_check,
    StructureCall.param_print,
    -- grid
    StructureCall.make_shared_grid,
    StructureCall.create_grid,
    StructureCall.print_grid_info,
    -- boundary conditions
    StructureCall.make_shared_boundary_descriptor,
    StructureCall.set_boundary_descriptor,
    StructureCall.verify_boundary_conditions,
    -- material
    StructureCall.make_shared_material_descriptor,
    StructureCall.set_material_descriptor,
    -- field functions
    StructureCall.make_shared_field_functions,
    StructureCall.set_field_functions ]

/-- The function `Structure::ApplicationBase::setup`. -/
def ApplicationBase.setup (throws : StructureCall → Option String) : StructureOutcome :=
  run_calls throws ApplicationBase.setup_steps []

/-! ## `DGNavierStokesBase::shift_pressure` (DGNavierStokesBase.h) -/

/-- A `parallel::distributed::Vector`: for every process the entries it owns, each with its
global index. -/
abbrev DistributedVector : Type := List (List (Nat × ℚ))

/-- The entry of a distributed vector at a global index, on the process that owns it; `none` if
no process owns the index. -/
def DistributedVector.entry (v : DistributedVector) (i : Nat) : Option ℚ :=
  v.flatten.lookup i

/-- The value of `current` on one process before the sum over the processes: the entry at
`dof_index_first_point` if the process owns this index, else `0.`. -/
def shift_pressure_current (local_entries : List (Nat × ℚ)) (dof_index_first_point : Nat) : ℚ :=
  match local_entries.lookup dof_index_first_point with
  | some value => value
  | none => 0

/-- The function `DGNavierStokesBase::shift_pressure`, run by all processes: `vec1` is a copy of
`pressure` with all local entries `1.`, `exact` the analytical pressure at `first_point` and
`time + time_step`, `current` the sum over the processes (`Utilities::MPI::sum`), and
`pressure.add(exact-current, vec1)` adds `(exact-current) * vec1` to `pressure`. -/
def shift_pressure {P : Type} (analytical_pressure : ℚ → P → ℚ) (first_point : P)
    (dof_index_first_point : Nat) (time time_step : ℚ) (pressure : DistributedVector) :
    DistributedVector :=
  let exact := analytical_pressure (time + time_step) first_point
  let current :=
    (pressure.map
      (fun local_entries => shift_pressure_current local_entries dof_index_first_point)).sum
  pressure.map
    (fun local_entries =>
      let vec1 := local_entries.map (fun entry => (entry.1, (1 : ℚ)))
      List.zipWith (fun entry one => (entry.1, entry.2 + (exact - current) * one.2))
        local_entries vec1)

/-! ## The global `wall_times` along `main` (compressible_navier_stokes_performance.cc) -/

/-- The degree loop of `main` together with the global `wall_times`: a pass that does not throw
ends with `problem->apply_operator()`, which appends to `wall_times`. `timer degree` are the wall
times measured for the degree, `dofs degree` its number of DoFs. -/
def main_degree_loop_wall_times {F : Type} (ar : Arithmetic F)
    (check_input_parameters : InputParameters → Option String)
    (timer : Nat → Nat → Nat → F) (dofs : Nat → Nat) (N_mpi_processes : Nat) :
    List Nat → InputParameters → List AppCall → List (Nat × F) →
      Option (Outcome × List (Nat × F))
  | [], _, calls, wall_times => some ({ calls := calls, thrown := none }, wall_times)
  | degree :: degrees, param, calls, wall_times =>
    match main_degree_body check_input_parameters param degree calls with
    | none => none
    | some (param, outcome) =>
      match outcome.thrown with
      | some _ => some (outcome, wall_times)
      | none =>
        let wall_times :=
          (apply_operator ar N_REPETITIONS_INNER N_REPETITIONS_OUTER (timer degree) (dofs degree)
            N_mpi_processes param.degree wall_times).wall_times
        main_degree_loop_wall_times ar check_input_parameters timer dofs N_mpi_processes degrees
          param outcome.calls wall_times

/-- What `main` leaves of `wall_times`: its exit code, the vector handed to `print_throughput`
(if that call is reached) and the global `wall_times` at exit. -/
structure MainWallTimes (F : Type) where
  exit_code : Nat
  printed : Option (List (Nat × F))
  wall_times : List (Nat × F)

/-- The function `main` with the global `wall_times`, which is empty at program start:
after the degree loop `print_throughput(wall_times, ...)` and `wall_times.clear()`; an exception
is answered with exit code 1. -/
def main_wall_times {F : Type} (ar : Arithmetic F)
    (check_input_parameters : InputParameters → Option String)
    (timer : Nat → Nat → Nat → F) (dofs : Nat → Nat) (N_mpi_processes : Nat)
    (param : InputParameters) (DEGREE_MIN DEGREE_MAX : Nat) : Option (MainWallTimes F) :=
  match main_degree_loop_wall_times ar check_input_parameters timer dofs N_mpi_processes
      (List.range' DEGREE_MIN (DEGREE_MAX + 1 - DEGREE_MIN)) param
      [AppCall.MPI_InitFinalize, AppCall.set_input_parameters] [] with
  | none => none
  | some (outcome, wall_times) =>
    match outcome.thrown with
    | some _ => some { exit_code := 1, printed := none, wall_times := wall_times }
    | none => some { exit_code := 0, printed := some wall_times, wall_times := [] }

/-! ## Theorems -/

/-! ### Helper lemmas on the timing loops -/

theorem forLoop_zero {σ : Type} (body : Nat → σ → σ) (init : σ) : forLoop 0 body init = init := by
  simp [forLoop]

theorem forLoop_succ {σ : Type} (n : Nat) (body : Nat → σ → σ) (init : σ) :
    forLoop (n + 1) body init = body n (forLoop n body init) := by
  simp [forLoop, List.range_succ, List.foldl_append]

theorem forLoop_add_eq_sum (n : Nat) (f : Nat → ℚ) :
    forLoop n (fun i s => s + f i) 0 = ∑ i in Finset.range n, f i := by
  induction n with
  | zero => simp [forLoop_zero]
  | succ k ih => rw [forLoop_succ, ih, Finset.sum_range_succ]

theorem inner_repetitions_eq_sum (n : Nat) (avg : Nat → ℚ) :
    inner_repetitions exact_arithmetic n avg = ∑ i in Finset.range n, avg i :=
  forLoop_add_eq_sum n avg

theorem current_wall_time_exact (n : Nat) (avg : Nat → ℚ) :
    current_wall_time exact_arithmetic n avg = inner_mean n avg := by
  unfold current_wall_time inner_mean
  rw [inner_repetitions_eq_sum]
  rfl

theorem exact_arithmetic_min (a b : ℚ) : exact_arithmetic.min a b = min a b := by
  unfold Arithmetic.min
  show (if decide (b < a) = true then b else a) = min a b
  by_cases h : b < a
  · simp [h, min_eq_right (le_of_lt h)]
  · simp [h, min_eq_left (not_lt.1 h)]

theorem timing_loop_succ {F : Type} (ar : Arithmetic F) (nI k : Nat) (t : Nat → Nat → F) :
    timing_loop ar nI (k + 1) t
      = ar.min (timing_loop ar nI k t) (current_wall_time ar nI (t k)) := by
  unfold timing_loop
  rw [forLoop_succ]

theorem timing_loop_zero {F : Type} (ar : Arithmetic F) (nI : Nat) (t : Nat → Nat → F) :
    timing_loop ar nI 0 t = ar.max := by
  simp [timing_loop, forLoop_zero]

theorem timing_loop_exact_succ (nI k : Nat) (t : Nat → Nat → ℚ) :
    timing_loop exact_arithmetic nI (k + 1) t
      = min (timing_loop exact_arithmetic nI k t) (inner_mean nI (t k)) := by
  rw [timing_loop_succ, exact_arithmetic_min, current_wall_time_exact]

theorem inner_mean_le_max (nI : Nat) (t : Nat → ℚ) (hI : 1 ≤ nI)
    (h : ∀ i, i < nI → t i ≤ DBL_MAX) : inner_mean nI t ≤ DBL_MAX := by
  unfold inner_mean
  have hpos : (0 : ℚ) < (nI : ℚ) := by exact_mod_cast hI
  rw [div_le_iff₀ hpos]
  have hs : ∑ i in Finset.range nI, t i ≤ ∑ _i in Finset.range nI, DBL_MAX :=
    Finset.sum_le_sum (fun i hi => h i (Finset.mem_range.1 hi))
  simpa [mul_comm] using hs

theorem timing_loop_le (nI nO : Nat) (t : Nat → Nat → ℚ) :
    ∀ o, o < nO → timing_loop exact_arithmetic nI nO t ≤ inner_mean nI (t o) := by
  induction nO with
  | zero => intro o ho; omega
  | succ k ih =>
    intro o ho
    rw [timing_loop_exact_succ]
    rcases Nat.lt_succ_iff_lt_or_eq.1 ho with h | h
    · exact le_trans (min_le_left _ _) (ih o h)
    · subst h; exact min_le_right _ _

theorem timing_loop_attained (nI nO : Nat) (t : Nat → Nat → ℚ) (hI : 1 ≤ nI) (hO : 1 ≤ nO)
    (h : ∀ o i, o < nO → i < nI → t o i ≤ DBL_MAX) :
    ∃ o, o < nO ∧ timing_loop exact_arithmetic nI nO t = inner_mean nI (t o) := by
  induction nO with
  | zero => omega
  | succ k ih =>
    rw [timing_loop_exact_succ]
    rcases Nat.eq_zero_or_pos k with hk | hk
    · subst hk
      refine ⟨0, by omega, ?_⟩
      rw [timing_loop_zero]
      exact min_eq_right (inner_mean_le_max nI (t 0) hI (fun i hi => h 0 i (by omega) hi))
    · obtain ⟨o, ho, heq⟩ := ih hk (fun o i ho hi => h o i (by omega) hi)
      rcases le_total (timing_loop exact_arithmetic nI k t) (inner_mean nI (t k)) with hle | hle
      · exact ⟨o, by omega, by rw [min_eq_left hle, heq]⟩
      · exact ⟨k, by omega, by rw [min_eq_right hle]⟩

theorem range_nonempty_of_one_le {n : Nat} (h : 1 ≤ n) : (Finset.range n).Nonempty :=
  Finset.nonempty_range_iff.2 (by omega)

theorem timing_loop_eq_inf (nI nO : Nat) (t : Nat → Nat → ℚ) (hI : 1 ≤ nI) (hO : 1 ≤ nO)
    (h : ∀ o i, o < nO → i < nI → t o i ≤ DBL_MAX) :
    timing_loop exact_arithmetic nI nO t
      = (Finset.range nO).inf' (range_nonempty_of_one_le hO) (fun o => inner_mean nI (t o)) := by
  apply le_antisymm
  · exact (Finset.le_inf'_iff _ _).2 (fun o ho => timing_loop_le nI nO t o (Finset.mem_range.1 ho))
  · obtain ⟨o, ho, heq⟩ := timing_loop_attained nI nO t hI hO h
    rw [heq]
    exact Finset.inf'_le _ (Finset.mem_range.2 ho)

theorem inf_mul_card_le_sum (nO : Nat) (hO : 1 ≤ nO) (f : Nat → ℚ) :
    (Finset.range nO).inf' (range_nonempty_of_one_le hO) f * (nO : ℚ)
      ≤ ∑ o in Finset.range nO, f o := by
  have h : ∑ _o in Finset.range nO, (Finset.range nO).inf' (range_nonempty_of_one_le hO) f
      ≤ ∑ o in Finset.range nO, f o :=
    Finset.sum_le_sum (fun o ho => Finset.inf'_le _ ho)
  simpa [mul_comm] using h

theorem inner_mean_mul (nI : Nat) (hI : 1 ≤ nI) (t : Nat → ℚ) :
    inner_mean nI t * (nI : ℚ) = ∑ i in Finset.range nI, t i := by
  have hpos : (nI : ℚ) ≠ 0 := by
    have : (0 : ℚ) < (nI : ℚ) := by exact_mod_cast hI
    exact ne_of_gt this
  unfold inner_mean
  field_simp

/-! ### Helper lemmas on `double` -/

theorem Double.round_half_even_nonneg (m : ℚ) (hm : 0 ≤ m) : 0 ≤ Double.round_half_even m := by
  have hf : (0 : Int) ≤ ⌊m⌋ := Int.floor_nonneg.2 hm
  unfold Double.round_half_even
  simp only
  split
  · exact hf
  · split
    · omega
    · split
      · exact hf
      · omega

theorem Double.round_magnitude_nonneg (a : ℚ) (ha : 0 ≤ a) : 0 ≤ Double.round_magnitude a := by
  unfold Double.round_magnitude
  simp only
  have hulp : (0 : ℚ) < (2 : ℚ) ^ (max (Double.binade a) (-1022) - 52) := zpow_pos (by norm_num) _
  have hm := Double.round_half_even_nonneg _ (div_nonneg ha (le_of_lt hulp))
  exact mul_nonneg (by exact_mod_cast hm) (le_of_lt hulp)

theorem DBL_MAX_pos : 0 < DBL_MAX := by
  unfold DBL_MAX
  norm_num

theorem Double.round_finite_le (q v : ℚ) (h : Double.round q = Double.finite v) :
    v ≤ DBL_MAX := by
  unfold Double.round at h
  by_cases hq : q = 0
  · rw [if_pos hq] at h
    injection h with h
    rw [← h]
    exact le_of_lt DBL_MAX_pos
  · rw [if_neg hq] at h
    simp only at h
    by_cases hv : DBL_MAX < Double.round_magnitude |q|
    · rw [if_pos hv] at h
      exact Double.noConfusion h
    · rw [if_neg hv] at h
      injection h with h
      rw [← h]
      have hle := not_lt.1 hv
      by_cases hneg : q < 0
      · rw [if_pos hneg]
        have hnn := Double.round_magnitude_nonneg |q| (abs_nonneg q)
        have hmax := DBL_MAX_pos
        linarith
      · rw [if_neg hneg]
        exact hle

theorem Double.div_finite_le (x y : Double) (v : ℚ) (h : Double.div x y = Double.finite v) :
    v ≤ DBL_MAX := by
  cases x with
  | finite a =>
    cases y with
    | finite b =>
      unfold Double.div at h
      simp only at h
      by_cases hb : b = 0
      · rw [if_pos hb] at h
        by_cases ha : a = 0
        · rw [if_pos ha] at h; exact Double.noConfusion h
        · rw [if_neg ha] at h; exact Double.noConfusion h
      · rw [if_neg hb] at h
        exact Double.round_finite_le _ _ h
    | infinity t =>
      unfold Double.div at h
      simp only at h
      injection h with h
      rw [← h]
      exact le_of_lt DBL_MAX_pos
    | nan => exact Double.noConfusion h
  | infinity s =>
    cases y with
    | finite b => exact Double.noConfusion h
    | infinity t => exact Double.noConfusion h
    | nan => exact Double.noConfusion h
  | nan => cases y <;> exact Double.noConfusion h

theorem Double.arithmetic_min_finite (a b : ℚ) :
    Double.arithmetic.min (Double.finite a) (Double.finite b) = Double.finite (min a b) := by
  unfold Arithmetic.min
  show (if decide (b < a) = true then Double.finite b else Double.finite a)
    = Double.finite (min a b)
  by_cases h : b < a
  · simp [h, min_eq_right (le_of_lt h)]
  · simp [h, min_eq_left (not_lt.1 h)]

/-- The timing loops in `double`: when the mean computed for every outer repetition is finite,
`wall_time` is finite, is at most each of these means and, after at least one outer repetition,
is one of them. -/
theorem timing_loop_double (nI : Nat) (timer : Nat → Nat → Double) (mean : Nat → ℚ) :
    ∀ nO, (∀ o, o < nO → current_wall_time Double.arithmetic nI (timer o)
        = Double.finite (mean o)) →
      ∃ v, timing_loop Double.arithmetic nI nO timer = Double.finite v
        ∧ (∀ o, o < nO → v ≤ mean o)
        ∧ (nO = 0 → v = DBL_MAX)
        ∧ (1 ≤ nO → ∃ o, o < nO ∧ v = mean o) := by
  intro nO
  induction nO with
  | zero =>
    intro _
    exact ⟨DBL_MAX, timing_loop_zero _ _ _, fun o ho => absurd ho (Nat.not_lt_zero o),
      fun _ => rfl, fun h => absurd h (by omega)⟩
  | succ k ih =>
    intro hmean
    obtain ⟨v, hv, hle, hzero, hatt⟩ := ih (fun o ho => hmean o (by omega))
    have hk := hmean k (by omega)
    refine ⟨min v (mean k), ?_, ?_, fun h => absurd h (by omega), fun _ => ?_⟩
    · rw [timing_loop_succ, hv, hk, Double.arithmetic_min_finite]
    · intro o ho
      rcases Nat.lt_succ_iff_lt_or_eq.1 ho with h | h
      · exact le_trans (min_le_left _ _) (hle o h)
      · subst h; exact min_le_right _ _
    · rcases Nat.eq_zero_or_pos k with hk0 | hk0
      · refine ⟨k, by omega, ?_⟩
        rw [hzero hk0]
        exact min_eq_right (Double.div_finite_le _ _ _ hk)
      · obtain ⟨o, ho, heq⟩ := hatt hk0
        rcases le_total v (mean k) with h | h
        · exact ⟨o, by omega, by rw [min_eq_left h, heq]⟩
        · exact ⟨k, by omega, by rw [min_eq_right h]⟩

theorem timing_loop_double_eq_inf (nI nO : Nat) (timer : Nat → Nat → Double) (mean : Nat → ℚ)
    (hO : 1 ≤ nO)
    (hmean : ∀ o, o < nO → current_wall_time Double.arithmetic nI (timer o)
      = Double.finite (mean o)) :
    timing_loop Double.arithmetic nI nO timer
      = Double.finite ((Finset.range nO).inf' (range_nonempty_of_one_le hO) mean) := by
  obtain ⟨v, hv, hle, _, hatt⟩ := timing_loop_double nI timer mean nO hmean
  rw [hv]
  congr 1
  apply le_antisymm
  · exact (Finset.le_inf'_iff _ _).2 (fun o ho => hle o (Finset.mem_range.1 ho))
  · obtain ⟨o, ho, heq⟩ := hatt hO
    rw [heq]
    exact Finset.inf'_le _ (Finset.mem_range.2 ho)

/-! ### The rounding error of `double` arithmetic -/

theorem bit_length_zero (fuel : Nat) : bit_length fuel 0 = 0 := by
  cases fuel <;> simp [bit_length]

theorem bit_length_spec : ∀ (fuel n : Nat), n ≤ fuel →
    n < 2 ^ bit_length fuel n ∧ (1 ≤ n → 2 ^ (bit_length fuel n - 1) ≤ n) := by
  intro fuel
  induction fuel with
  | zero =>
    intro n hn
    have h0 : n = 0 := by omega
    subst h0
    exact ⟨by simp [bit_length], fun h => absurd h (by omega)⟩
  | succ f ih =>
    intro n hn
    by_cases h0 : n = 0
    · subst h0
      exact ⟨by simp [bit_length], fun h => absurd h (by omega)⟩
    · have hdef : bit_length (f + 1) n = bit_length f (n / 2) + 1 := by
        simp [bit_length, h0]
      rw [hdef]
      obtain ⟨hlt, hge⟩ := ih (n / 2) (by omega)
      constructor
      · rw [pow_succ]
        omega
      · intro _
        rw [Nat.add_sub_cancel]
        by_cases h1 : 1 ≤ n / 2
        · have hb := hge h1
          have hpos : 1 ≤ bit_length f (n / 2) := by
            by_contra hcon
            have : bit_length f (n / 2) = 0 := by omega
            rw [this] at hlt
            simp at hlt
            omega
          have hsplit : 2 ^ bit_length f (n / 2) = 2 * 2 ^ (bit_length f (n / 2) - 1) := by
            rw [← pow_succ']
            congr 1
            omega
          rw [hsplit]
          omega
        · have hn2 : n / 2 = 0 := by omega
          rw [hn2, bit_length_zero]
          simp
          omega

/-- The binade of a positive rational is not above it: `2 ^ binade a <= a`. -/
theorem Double.binade_le (a : ℚ) (ha : 0 < a) : (2 : ℚ) ^ Double.binade a ≤ a := by
  unfold Double.binade
  simp only
  split
  · assumption
  · have hnum : 0 < a.num := Rat.num_pos.2 ha
    have hp1 : 1 ≤ a.num.natAbs := by omega
    have hden : 1 ≤ a.den := a.den_pos
    have hp := (bit_length_spec a.num.natAbs a.num.natAbs (le_refl _)).2 hp1
    have hd := (bit_length_spec a.den a.den (le_refl _)).1
    have hbp : 1 ≤ bit_length a.num.natAbs a.num.natAbs := by
      by_contra hcon
      have h0 : bit_length a.num.natAbs a.num.natAbs = 0 := by omega
      have := (bit_length_spec a.num.natAbs a.num.natAbs (le_refl _)).1
      rw [h0, pow_zero] at this
      omega
    have hpq : ((2 : ℚ) ^ (bit_length a.num.natAbs a.num.natAbs - 1)) ≤ (a.num.natAbs : ℚ) := by
      exact_mod_cast hp
    have hdq : (a.den : ℚ) ≤ (2 : ℚ) ^ (bit_length a.den a.den) := by
      exact_mod_cast le_of_lt hd
    have hval : a = (a.num.natAbs : ℚ) / (a.den : ℚ) := by
      have h1 : ((a.num.natAbs : ℤ) : ℚ) = (a.num : ℚ) := by
        rw [Int.natAbs_of_nonneg (le_of_lt hnum)]
      have h2 : ((a.num.natAbs : ℕ) : ℚ) = ((a.num.natAbs : ℤ) : ℚ) :=
        (Int.cast_natCast _).symm
      rw [h2, h1]
      exact (Rat.num_div_den a).symm
    have hexp : ((bit_length a.num.natAbs a.num.natAbs : ℤ) - (bit_length a.den a.den : ℤ) - 1)
        = ((bit_length a.num.natAbs a.num.natAbs - 1 : ℕ) : ℤ) - ((bit_length a.den a.den : ℕ) : ℤ) := by
      omega
    rw [hexp, zpow_sub₀ (by norm_num : (2 : ℚ) ≠ 0), zpow_natCast, zpow_natCast]
    have hdpos : (0 : ℚ) < (a.den : ℚ) := by exact_mod_cast hden
    have h2pos : (0 : ℚ) < (2 : ℚ) ^ (bit_length a.den a.den) := by positivity
    calc (2 : ℚ) ^ (bit_length a.num.natAbs a.num.natAbs - 1) / (2 : ℚ) ^ (bit_length a.den a.den)
        ≤ (a.num.natAbs : ℚ) / (2 : ℚ) ^ (bit_length a.den a.den) :=
          div_le_div_of_nonneg_right hpq (le_of_lt h2pos)
      _ ≤ (a.num.natAbs : ℚ) / (a.den : ℚ) :=
          div_le_div_of_nonneg_left (by positivity) hdpos hdq
      _ = a := hval.symm

/-- Rounding to the nearest integer moves a number by at most one half. -/
theorem Double.round_half_even_error (m : ℚ) : |(Double.round_half_even m : ℚ) - m| ≤ 1 / 2 := by
  have hfl : ((⌊m⌋ : ℤ) : ℚ) ≤ m := Int.floor_le m
  have hlt : m < ((⌊m⌋ : ℤ) : ℚ) + 1 := Int.lt_floor_add_one m
  unfold Double.round_half_even
  simp only
  split
  · rename_i h
    rw [abs_le]
    constructor <;> linarith
  · rename_i h
    split
    · rename_i h2
      rw [abs_le]
      push_cast
      constructor <;> linarith
    · rename_i h2
      have hr : m - ((⌊m⌋ : ℤ) : ℚ) = 1 / 2 := le_antisymm (not_lt.1 h2) (not_lt.1 h)
      split
      · rw [abs_le]
        constructor <;> linarith
      · rw [abs_le]
        push_cast
        constructor <;> linarith

/-- The rounding error of a positive number: at most the relative error `2^-53`, or the absolute
error `2^-1075` in the range of the subnormal numbers. -/
theorem Double.round_magnitude_error (a : ℚ) (ha : 0 < a) :
    |Double.round_magnitude a - a| ≤ unit_roundoff * a + underflow_unit := by
  unfold Double.round_magnitude
  simp only
  have hulp : (0 : ℚ) < (2 : ℚ) ^ (max (Double.binade a) (-1022) - 52) := zpow_pos (by norm_num) _
  have herr := Double.round_half_even_error (a / (2 : ℚ) ^ (max (Double.binade a) (-1022) - 52))
  have hmul : |(Double.round_half_even (a / (2 : ℚ) ^ (max (Double.binade a) (-1022) - 52)) : ℚ)
        * (2 : ℚ) ^ (max (Double.binade a) (-1022) - 52) - a|
      ≤ 1 / 2 * (2 : ℚ) ^ (max (Double.binade a) (-1022) - 52) := by
    have heq : (Double.round_half_even (a / (2 : ℚ) ^ (max (Double.binade a) (-1022) - 52)) : ℚ)
          * (2 : ℚ) ^ (max (Double.binade a) (-1022) - 52) - a
        = ((Double.round_half_even (a / (2 : ℚ) ^ (max (Double.binade a) (-1022) - 52)) : ℚ)
            - a / (2 : ℚ) ^ (max (Double.binade a) (-1022) - 52))
          * (2 : ℚ) ^ (max (Double.binade a) (-1022) - 52) := by
      field_simp
    rw [heq, abs_mul, abs_of_pos hulp]
    exact mul_le_mul_of_nonneg_right herr (le_of_lt hulp)
  refine le_trans hmul ?_
  have hua : (0 : ℚ) ≤ unit_roundoff * a := by
    unfold unit_roundoff
    positivity
  have hun : (0 : ℚ) ≤ underflow_unit := by
    unfold underflow_unit
    positivity
  rcases le_total (Double.binade a) (-1022) with hb | hb
  · rw [max_eq_right hb]
    have : (1 : ℚ) / 2 * (2 : ℚ) ^ ((-1022 : ℤ) - 52) = underflow_unit := by
      unfold underflow_unit
      norm_num [zpow_neg]
    rw [this]
    linarith
  · rw [max_eq_left hb]
    have hsplit : (1 : ℚ) / 2 * (2 : ℚ) ^ (Double.binade a - 52)
        = unit_roundoff * (2 : ℚ) ^ Double.binade a := by
      rw [zpow_sub₀ (by norm_num : (2 : ℚ) ≠ 0)]
      unfold unit_roundoff
      norm_num
      ring
    rw [hsplit]
    have hle := Double.binade_le a ha
    have : unit_roundoff * (2 : ℚ) ^ Double.binade a ≤ unit_roundoff * a :=
      mul_le_mul_of_nonneg_left hle (by unfold unit_roundoff; positivity)
    linarith

theorem unit_roundoff_pos : 0 < unit_roundoff := by
  unfold unit_roundoff
  positivity

theorem underflow_unit_pos : 0 < underflow_unit := by
  unfold underflow_unit
  positivity

/-- A non-negative number that rounds to a finite `double` `v`: `v` is non-negative and within
the rounding error of the number. -/
theorem Double.round_nonneg_bounds (q v : ℚ) (hq : 0 ≤ q)
    (h : Double.round q = Double.finite v) :
    0 ≤ v ∧ v ≤ q * (1 + unit_roundoff) + underflow_unit
      ∧ q * (1 - unit_roundoff) - underflow_unit ≤ v := by
  have hu := unit_roundoff_pos
  have he := underflow_unit_pos
  unfold Double.round at h
  by_cases h0 : q = 0
  · rw [if_pos h0] at h
    injection h with h
    subst h0
    rw [← h]
    refine ⟨le_refl _, ?_, ?_⟩ <;> linarith
  · rw [if_neg h0] at h
    simp only at h
    have hpos : 0 < q := lt_of_le_of_ne hq (Ne.symm h0)
    have hneg : ¬ q < 0 := not_lt.2 hq
    rw [abs_of_pos hpos] at h
    by_cases hv : DBL_MAX < Double.round_magnitude q
    · rw [if_pos hv] at h
      exact Double.noConfusion h
    · rw [if_neg hv, if_neg hneg] at h
      injection h with h
      rw [← h]
      have herr := Double.round_magnitude_error q hpos
      rw [abs_le] at herr
      refine ⟨Double.round_magnitude_nonneg q hq, ?_, ?_⟩ <;> linarith [herr.1, herr.2]

/-- A non-negative number rounds to a finite `double` when it is, with its rounding error, at
most `DBL_MAX`. -/
theorem Double.round_finite_of_le (q : ℚ) (hq : 0 ≤ q)
    (h : q * (1 + unit_roundoff) + underflow_unit ≤ DBL_MAX) :
    ∃ v, Double.round q = Double.finite v := by
  unfold Double.round
  by_cases h0 : q = 0
  · exact ⟨0, by rw [if_pos h0]⟩
  · rw [if_neg h0]
    simp only
    have hpos : 0 < q := lt_of_le_of_ne hq (Ne.symm h0)
    have hneg : ¬ q < 0 := not_lt.2 hq
    rw [abs_of_pos hpos]
    have herr := Double.round_magnitude_error q hpos
    rw [abs_le] at herr
    have hv : ¬ DBL_MAX < Double.round_magnitude q := by
      rw [not_lt]
      linarith [herr.2]
    rw [if_neg hv, if_neg hneg]
    exact ⟨_, rfl⟩

/-- The conversion of an unsigned integer below `2^53` to `double` is exact. -/
theorem Double.round_natCast (n : Nat) (hn : n < 2 ^ 53) :
    Double.round (n : ℚ) = Double.finite (n : ℚ) := by
  by_cases h0 : n = 0
  · subst h0
    simp [Double.round]
  · have hpos : (0 : ℚ) < (n : ℚ) := by exact_mod_cast Nat.pos_of_ne_zero h0
    have hne : (n : ℚ) ≠ 0 := ne_of_gt hpos
    have hneg : ¬ (n : ℚ) < 0 := not_lt.2 (le_of_lt hpos)
    -- the binade is at most 52
    have hbin : Double.binade (n : ℚ) ≤ 52 := by
      by_contra hcon
      have h53 : (53 : ℤ) ≤ Double.binade (n : ℚ) := by omega
      have hle := Double.binade_le (n : ℚ) hpos
      have hpow : (2 : ℚ) ^ (53 : ℤ) ≤ (2 : ℚ) ^ Double.binade (n : ℚ) :=
        zpow_le_zpow_right₀ (by norm_num) h53
      have hlt : (n : ℚ) < (2 : ℚ) ^ (53 : ℤ) := by
        have h1 : (n : ℚ) < ((2 ^ 53 : ℕ) : ℚ) := Nat.cast_lt.2 hn
        have h2 : ((2 ^ 53 : ℕ) : ℚ) = (2 : ℚ) ^ (53 : ℤ) := by norm_num
        rw [h2] at h1
        exact h1
      linarith
    -- so the number is a multiple of the spacing
    have hmag : Double.round_magnitude (n : ℚ) = (n : ℚ) := by
      unfold Double.round_magnitude
      simp only
      obtain ⟨j, hj⟩ : ∃ j : ℕ, max (Double.binade (n : ℚ)) (-1022) - 52 = -(j : ℤ) := by
        refine ⟨(52 - max (Double.binade (n : ℚ)) (-1022)).toNat, ?_⟩
        have : max (Double.binade (n : ℚ)) (-1022) ≤ 52 := max_le hbin (by norm_num)
        omega
      rw [hj]
      have hdiv : (n : ℚ) / (2 : ℚ) ^ (-(j : ℤ)) = ((n * 2 ^ j : ℕ) : ℚ) := by
        rw [zpow_neg, zpow_natCast]
        push_cast
        field_simp
      rw [hdiv]
      have hround : Double.round_half_even ((n * 2 ^ j : ℕ) : ℚ) = ((n * 2 ^ j : ℕ) : ℤ) := by
        unfold Double.round_half_even
        simp only
        have hfloor : ⌊((n * 2 ^ j : ℕ) : ℚ)⌋ = ((n * 2 ^ j : ℕ) : ℤ) := Int.floor_natCast _
        rw [hfloor]
        have : ((n * 2 ^ j : ℕ) : ℚ) - (((n * 2 ^ j : ℕ) : ℤ) : ℚ) = 0 := by
          push_cast
          ring
        rw [this]
        norm_num
      rw [hround, zpow_neg, zpow_natCast]
      push_cast
      field_simp
    unfold Double.round
    rw [if_neg hne]
    simp only
    rw [abs_of_pos hpos, hmag, if_neg hneg]
    have hmax : ¬ DBL_MAX < (n : ℚ) := by
      rw [not_lt]
      have : (n : ℚ) ≤ ((2 ^ 53 : ℕ) : ℚ) := by exact_mod_cast le_of_lt hn
      unfold DBL_MAX
      push_cast at this
      have h2 : (2 : ℚ) ^ 53 ≤ (2 ^ 53 - 1) * 2 ^ 971 := by norm_num
      linarith
    rw [if_neg hmax]

theorem one_le_one_add_unit_roundoff_pow (j : Nat) : (1 : ℚ) ≤ (1 + unit_roundoff) ^ j :=
  one_le_pow₀ (by linarith [unit_roundoff_pos])

theorem rounding_bound_mono (x y : ℚ) (a b j k : Nat) (hx : 0 ≤ x) (hxy : x ≤ y) (hab : a ≤ b)
    (hjk : j ≤ k) : rounding_bound x a j ≤ rounding_bound y b k := by
  unfold rounding_bound
  have he := underflow_unit_pos
  have hu := unit_roundoff_pos
  have hcast : (a : ℚ) ≤ (b : ℚ) := by exact_mod_cast hab
  have h1 : x + (a : ℚ) * underflow_unit ≤ y + (b : ℚ) * underflow_unit := by
    have := mul_le_mul_of_nonneg_right hcast (le_of_lt he)
    linarith
  have h2 : (1 + unit_roundoff) ^ j ≤ (1 + unit_roundoff) ^ k :=
    pow_le_pow_right₀ (by linarith) hjk
  have h3 : (0 : ℚ) ≤ x + (a : ℚ) * underflow_unit :=
    add_nonneg hx (mul_nonneg (Nat.cast_nonneg a) (le_of_lt he))
  have h5 : (0 : ℚ) ≤ (1 + unit_roundoff) ^ j := pow_nonneg (by linarith) j
  exact mul_le_mul h1 h2 h5 (le_trans h3 h1)

/-- One more rounded operation, before the rounding: a result within the bound is, with its
rounding error, within the next bound. -/
theorem rounding_bound_succ (q x : ℚ) (a j : Nat) (hbound : q ≤ rounding_bound x a j) :
    q * (1 + unit_roundoff) + underflow_unit ≤ rounding_bound x (a + 1) (j + 1) := by
  have hu := unit_roundoff_pos
  have he := underflow_unit_pos
  have hpow := one_le_one_add_unit_roundoff_pow (j + 1)
  unfold rounding_bound at hbound ⊢
  have h1 : q * (1 + unit_roundoff)
      ≤ (x + (a : ℚ) * underflow_unit) * (1 + unit_roundoff) ^ j * (1 + unit_roundoff) :=
    mul_le_mul_of_nonneg_right hbound (by linarith)
  have h2 : underflow_unit ≤ underflow_unit * (1 + unit_roundoff) ^ (j + 1) := by
    have := mul_le_mul_of_nonneg_left hpow (le_of_lt he)
    linarith
  have h3 : (x + ((a + 1 : ℕ) : ℚ) * underflow_unit) * (1 + unit_roundoff) ^ (j + 1)
      = (x + (a : ℚ) * underflow_unit) * (1 + unit_roundoff) ^ j * (1 + unit_roundoff)
        + underflow_unit * (1 + unit_roundoff) ^ (j + 1) := by
    push_cast
    ring
  rw [h3]
  linarith

/-- One more rounded operation: a non-negative exact result `q` within the bound rounds to a
`double` within the next bound. -/
theorem rounding_bound_step (q v x : ℚ) (a j : Nat) (hq : 0 ≤ q)
    (hbound : q ≤ rounding_bound x a j) (h : Double.round q = Double.finite v) :
    0 ≤ v ∧ v ≤ rounding_bound x (a + 1) (j + 1) := by
  obtain ⟨h0, hle, _⟩ := Double.round_nonneg_bounds q v hq h
  exact ⟨h0, le_trans hle (rounding_bound_succ q x a j hbound)⟩

/-- One more rounded operation, with a next bound of at most `DBL_MAX`: the result is finite. -/
theorem rounding_bound_step_finite (q x : ℚ) (a j : Nat) (hq : 0 ≤ q)
    (hbound : q ≤ rounding_bound x a j) (hmax : rounding_bound x (a + 1) (j + 1) ≤ DBL_MAX) :
    ∃ v, Double.round q = Double.finite v ∧ 0 ≤ v ∧ v ≤ rounding_bound x (a + 1) (j + 1) := by
  obtain ⟨v, hv⟩ := Double.round_finite_of_le q hq
    (le_trans (rounding_bound_succ q x a j hbound) hmax)
  exact ⟨v, hv, rounding_bound_step q v x a j hq hbound hv⟩

theorem inner_repetitions_succ {F : Type} (ar : Arithmetic F) (k : Nat) (avg : Nat → F) :
    inner_repetitions ar (k + 1) avg = ar.add (inner_repetitions ar k avg) (avg k) := by
  unfold inner_repetitions
  rw [forLoop_succ]

/-- A finite sum of `double`s has finite summands. -/
theorem Double.add_finite (x : Double) (b v : ℚ)
    (h : Double.add x (Double.finite b) = Double.finite v) :
    ∃ a, x = Double.finite a ∧ Double.round (a + b) = Double.finite v := by
  cases x with
  | finite a => exact ⟨a, rfl, h⟩
  | infinity s => exact Double.noConfusion h
  | nan => exact Double.noConfusion h

/-- The running sum of the inner loop in `double` arithmetic, for non-negative measured times:
when it is finite after `k` additions, it is non-negative and within the bound of `k` rounded
operations on the exact sum. -/
theorem inner_repetitions_double_bound (avg : Nat → Double) (t : Nat → ℚ) :
    ∀ k, (∀ i, i < k → avg i = Double.finite (t i) ∧ 0 ≤ t i) → ∀ s,
      inner_repetitions Double.arithmetic k avg = Double.finite s →
      0 ≤ s ∧ s ≤ rounding_bound (∑ i in Finset.range k, t i) k k := by
  intro k
  induction k with
  | zero =>
    intro _ s hs
    have h0 : inner_repetitions Double.arithmetic 0 avg = Double.finite 0 := by
      simp [inner_repetitions, forLoop_zero, Double.arithmetic]
    rw [h0] at hs
    injection hs with hs
    rw [← hs]
    simp [rounding_bound]
  | succ k ih =>
    intro ht s hs
    rw [inner_repetitions_succ] at hs
    obtain ⟨hk, hk0⟩ := ht k (by omega)
    rw [hk] at hs
    obtain ⟨a, ha, hround⟩ := Double.add_finite _ _ _ hs
    obtain ⟨ha0, hale⟩ := ih (fun i hi => ht i (by omega)) a ha
    have hsum0 : 0 ≤ ∑ i in Finset.range k, t i :=
      Finset.sum_nonneg (fun i hi => (ht i (by have := Finset.mem_range.1 hi; omega)).2)
    have hq : a + t k ≤ rounding_bound (∑ i in Finset.range (k + 1), t i) k k := by
      rw [Finset.sum_range_succ]
      have hpow := one_le_one_add_unit_roundoff_pow k
      unfold rounding_bound at hale ⊢
      have : t k ≤ t k * (1 + unit_roundoff) ^ k := by
        have := mul_le_mul_of_nonneg_left hpow hk0
        linarith
      have hexp : (∑ i in Finset.range k, t i + t k + (k : ℚ) * underflow_unit)
            * (1 + unit_roundoff) ^ k
          = (∑ i in Finset.range k, t i + (k : ℚ) * underflow_unit) * (1 + unit_roundoff) ^ k
            + t k * (1 + unit_roundoff) ^ k := by ring
      rw [hexp]
      linarith
    exact rounding_bound_step (a + t k) s _ k k (by linarith) hq hround

/-- A finite quotient of `double`s by a finite non-zero divisor has a finite dividend. -/
theorem Double.div_finite (x : Double) (b v : ℚ) (hb : b ≠ 0)
    (h : Double.div x (Double.finite b) = Double.finite v) :
    ∃ a, x = Double.finite a ∧ Double.round (a / b) = Double.finite v := by
  cases x with
  | finite a =>
    unfold Double.div at h
    simp only [if_neg hb] at h
    exact ⟨a, rfl, h⟩
  | infinity s => exact Double.noConfusion h
  | nan => exact Double.noConfusion h

/-- A finite product of `double`s with a finite non-zero factor has a finite other factor. -/
theorem Double.mul_finite (x : Double) (b v : ℚ) (hb : b ≠ 0)
    (h : Double.mul x (Double.finite b) = Double.finite v) :
    ∃ a, x = Double.finite a ∧ Double.round (a * b) = Double.finite v := by
  cases x with
  | finite a => exact ⟨a, rfl, h⟩
  | infinity s =>
    unfold Double.mul at h
    simp only [if_neg hb] at h
    exact Double.noConfusion h
  | nan => exact Double.noConfusion h

theorem rounding_bound_div (x : ℚ) (a j n : Nat) (s : ℚ) (hn : 1 ≤ n)
    (hs : s ≤ rounding_bound x a j) : s / (n : ℚ) ≤ rounding_bound (x / (n : ℚ)) a j := by
  have hn1 : (1 : ℚ) ≤ (n : ℚ) := by exact_mod_cast hn
  have hnpos : (0 : ℚ) < (n : ℚ) := by linarith
  have he := underflow_unit_pos
  have hpow : (0 : ℚ) ≤ (1 + unit_roundoff) ^ j := pow_nonneg (by linarith [unit_roundoff_pos]) j
  rw [div_le_iff₀ hnpos]
  refine le_trans hs ?_
  unfold rounding_bound
  have h1 : (a : ℚ) * underflow_unit ≤ (a : ℚ) * underflow_unit * (n : ℚ) := by
    have h0 : (0 : ℚ) ≤ (a : ℚ) * underflow_unit := mul_nonneg (Nat.cast_nonneg a) (le_of_lt he)
    have := mul_le_mul_of_nonneg_left hn1 h0
    linarith
  have h2 : x + (a : ℚ) * underflow_unit
      ≤ (x / (n : ℚ) + (a : ℚ) * underflow_unit) * (n : ℚ) := by
    have : x / (n : ℚ) * (n : ℚ) = x := div_mul_cancel₀ x (ne_of_gt hnpos)
    linarith
  calc (x + (a : ℚ) * underflow_unit) * (1 + unit_roundoff) ^ j
      ≤ (x / (n : ℚ) + (a : ℚ) * underflow_unit) * (n : ℚ) * (1 + unit_roundoff) ^ j :=
        mul_le_mul_of_nonneg_right h2 hpow
    _ = (x / (n : ℚ) + (a : ℚ) * underflow_unit) * (1 + unit_roundoff) ^ j * (n : ℚ) := by ring

theorem rounding_bound_mul (x : ℚ) (a j n : Nat) (s : ℚ) (hs : s ≤ rounding_bound x a j) :
    s * (n : ℚ) ≤ rounding_bound (x * (n : ℚ)) (a * n) j := by
  have h := mul_le_mul_of_nonneg_right hs (Nat.cast_nonneg n : (0 : ℚ) ≤ (n : ℚ))
  refine le_trans h (le_of_eq ?_)
  unfold rounding_bound
  push_cast
  ring

/-- The mean of one outer repetition in `double` arithmetic, for non-negative measured times:
when it is finite, it is non-negative and within the bound of `n_inner + 1` rounded operations
on the arithmetic mean. -/
theorem current_wall_time_double_bound (nI : Nat) (avg : Nat → Double) (t : Nat → ℚ) (m : ℚ)
    (hI : 1 ≤ nI) (hI2 : nI < 2 ^ 53)
    (ht : ∀ i, i < nI → avg i = Double.finite (t i) ∧ 0 ≤ t i)
    (hm : current_wall_time Double.arithmetic nI avg = Double.finite m) :
    0 ≤ m ∧ m ≤ rounding_bound ((∑ i in Finset.range nI, t i) / (nI : ℚ)) (nI + 1) (nI + 1) := by
  have hconv := Double.round_natCast nI hI2
  have hn0 : (nI : ℚ) ≠ 0 := by
    have : (0 : ℚ) < (nI : ℚ) := by exact_mod_cast hI
    exact ne_of_gt this
  have hm2 : Double.div (inner_repetitions Double.arithmetic nI avg) (Double.round (nI : ℚ))
      = Double.finite m := hm
  rw [hconv] at hm2
  obtain ⟨s, hs, hround⟩ := Double.div_finite _ _ _ hn0 hm2
  obtain ⟨hs0, hsle⟩ := inner_repetitions_double_bound avg t nI ht s hs
  exact rounding_bound_step (s / (nI : ℚ)) m _ nI nI (div_nonneg hs0 (Nat.cast_nonneg nI))
    (rounding_bound_div _ nI nI nI s hI hsle) hround

theorem DBL_MAX_one_le : (1 : ℚ) ≤ DBL_MAX := by
  unfold DBL_MAX
  norm_num

/-- Some outer repetition has at most the average of the row sums: `n_outer` times its sum is at
most the total. -/
theorem exists_row_mul_le_total (nI nO : Nat) (t : Nat → Nat → ℚ) (hO : 1 ≤ nO) :
    ∃ o, o < nO ∧ (∑ i in Finset.range nI, t o i) * (nO : ℚ)
      ≤ ∑ o in Finset.range nO, ∑ i in Finset.range nI, t o i := by
  have hpos : (0 : ℚ) < (nO : ℚ) := by exact_mod_cast hO
  have hsum : ∑ o in Finset.range nO, (∑ i in Finset.range nI, t o i)
      ≤ ∑ _o in Finset.range nO,
          (∑ o in Finset.range nO, ∑ i in Finset.range nI, t o i) / (nO : ℚ) := by
    rw [Finset.sum_const, Finset.card_range, nsmul_eq_mul, mul_div_cancel₀ _ (ne_of_gt hpos)]
  obtain ⟨o, ho, hle⟩ := Finset.exists_le_of_sum_le (range_nonempty_of_one_le hO) hsum
  refine ⟨o, Finset.mem_range.1 ho, ?_⟩
  rwa [le_div_iff₀ hpos] at hle

theorem unit_roundoff_lt_one : unit_roundoff < 1 := by
  unfold unit_roundoff
  norm_num

theorem one_sub_unit_roundoff_pow_le_one (j : Nat) : (1 - unit_roundoff) ^ j ≤ (1 : ℚ) :=
  pow_le_one₀ (by linarith [unit_roundoff_lt_one]) (by linarith [unit_roundoff_pos])

theorem one_sub_unit_roundoff_pow_nonneg (j : Nat) : (0 : ℚ) ≤ (1 - unit_roundoff) ^ j :=
  pow_nonneg (by linarith [unit_roundoff_lt_one]) j

/-- One more rounded operation, from below: a non-negative exact result `q` above the lower
bound rounds, if to a finite `double`, to one above the next lower bound. -/
theorem rounding_lower_bound_step (q v x : ℚ) (a j : Nat) (hq : 0 ≤ q)
    (hbound : rounding_lower_bound x a j ≤ q) (h : Double.round q = Double.finite v) :
    rounding_lower_bound x (a + 1) (j + 1) ≤ v := by
  obtain ⟨_, _, hge⟩ := Double.round_nonneg_bounds q v hq h
  refine le_trans ?_ hge
  have hu := unit_roundoff_pos
  have hu1 := unit_roundoff_lt_one
  have he := underflow_unit_pos
  unfold rounding_lower_bound at hbound ⊢
  have h1 : (x * (1 - unit_roundoff) ^ j - (a : ℚ) * underflow_unit) * (1 - unit_roundoff)
      ≤ q * (1 - unit_roundoff) := mul_le_mul_of_nonneg_right hbound (by linarith)
  have h2 : (0 : ℚ) ≤ (a : ℚ) * underflow_unit * unit_roundoff :=
    mul_nonneg (mul_nonneg (Nat.cast_nonneg a) (le_of_lt he)) (le_of_lt hu)
  have h3 : x * (1 - unit_roundoff) ^ (j + 1) - ((a + 1 : ℕ) : ℚ) * underflow_unit
      = (x * (1 - unit_roundoff) ^ j - (a : ℚ) * underflow_unit) * (1 - unit_roundoff)
        - (a : ℚ) * underflow_unit * unit_roundoff - underflow_unit := by
    push_cast
    ring
  rw [h3]
  linarith

theorem rounding_lower_bound_div (x : ℚ) (a j n : Nat) (s : ℚ) (hn : 1 ≤ n)
    (hs : rounding_lower_bound x a j ≤ s) :
    rounding_lower_bound (x / (n : ℚ)) a j ≤ s / (n : ℚ) := by
  have hn1 : (1 : ℚ) ≤ (n : ℚ) := by exact_mod_cast hn
  have hnpos : (0 : ℚ) < (n : ℚ) := by linarith
  have he := underflow_unit_pos
  rw [le_div_iff₀ hnpos]
  refine le_trans ?_ hs
  unfold rounding_lower_bound
  have h0 : (0 : ℚ) ≤ (a : ℚ) * underflow_unit := mul_nonneg (Nat.cast_nonneg a) (le_of_lt he)
  have h1 : (a : ℚ) * underflow_unit ≤ (a : ℚ) * underflow_unit * (n : ℚ) := by
    have := mul_le_mul_of_nonneg_left hn1 h0
    linarith
  have h2 : (x / (n : ℚ) * (1 - unit_roundoff) ^ j - (a : ℚ) * underflow_unit) * (n : ℚ)
      = x * (1 - unit_roundoff) ^ j - (a : ℚ) * underflow_unit * (n : ℚ) := by
    field_simp
    ring
  rw [h2]
  linarith

theorem rounding_lower_bound_mul (x : ℚ) (a j n : Nat) (s : ℚ)
    (hs : rounding_lower_bound x a j ≤ s) :
    rounding_lower_bound (x * (n : ℚ)) (a * n) j ≤ s * (n : ℚ) := by
  have h := mul_le_mul_of_nonneg_right hs (Nat.cast_nonneg n : (0 : ℚ) ≤ (n : ℚ))
  refine le_trans (le_of_eq ?_) h
  unfold rounding_lower_bound
  push_cast
  ring

/-- The running sum of the inner loop in `double` arithmetic from below. -/
theorem inner_repetitions_double_lower_bound (avg : Nat → Double) (t : Nat → ℚ) :
    ∀ k, (∀ i, i < k → avg i = Double.finite (t i) ∧ 0 ≤ t i) → ∀ s,
      inner_repetitions Double.arithmetic k avg = Double.finite s →
      rounding_lower_bound (∑ i in Finset.range k, t i) k k ≤ s := by
  intro k
  induction k with
  | zero =>
    intro _ s hs
    have h0 : inner_repetitions Double.arithmetic 0 avg = Double.finite 0 := by
      simp [inner_repetitions, forLoop_zero, Double.arithmetic]
    rw [h0] at hs
    injection hs with hs
    rw [← hs]
    simp [rounding_lower_bound]
  | succ k ih =>
    intro ht s hs
    rw [inner_repetitions_succ] at hs
    obtain ⟨hk, hk0⟩ := ht k (by omega)
    rw [hk] at hs
    obtain ⟨a, ha, hround⟩ := Double.add_finite _ _ _ hs
    have hale := ih (fun i hi => ht i (by omega)) a ha
    have ha0 := (inner_repetitions_double_bound avg t k (fun i hi => ht i (by omega)) a ha).1
    have hq : rounding_lower_bound (∑ i in Finset.range (k + 1), t i) k k ≤ a + t k := by
      rw [Finset.sum_range_succ]
      have hpow := one_sub_unit_roundoff_pow_le_one k
      unfold rounding_lower_bound at hale ⊢
      have : t k * (1 - unit_roundoff) ^ k ≤ t k := by
        have := mul_le_mul_of_nonneg_left hpow hk0
        linarith
      have hexp : (∑ i in Finset.range k, t i + t k) * (1 - unit_roundoff) ^ k
          = (∑ i in Finset.range k, t i) * (1 - unit_roundoff) ^ k
            + t k * (1 - unit_roundoff) ^ k := by ring
      rw [hexp]
      linarith
    exact rounding_lower_bound_step (a + t k) s _ k k (by linarith) hq hround

/-- The mean of one outer repetition in `double` arithmetic from below. -/
theorem current_wall_time_double_lower_bound (nI : Nat) (avg : Nat → Double) (t : Nat → ℚ)
    (m : ℚ) (hI : 1 ≤ nI) (hI2 : nI < 2 ^ 53)
    (ht : ∀ i, i < nI → avg i = Double.finite (t i) ∧ 0 ≤ t i)
    (hm : current_wall_time Double.arithmetic nI avg = Double.finite m) :
    rounding_lower_bound ((∑ i in Finset.range nI, t i) / (nI : ℚ)) (nI + 1) (nI + 1) ≤ m := by
  have hconv := Double.round_natCast nI hI2
  have hn0 : (nI : ℚ) ≠ 0 := by
    have : (0 : ℚ) < (nI : ℚ) := by exact_mod_cast hI
    exact ne_of_gt this
  have hm2 : Double.div (inner_repetitions Double.arithmetic nI avg) (Double.round (nI : ℚ))
      = Double.finite m := hm
  rw [hconv] at hm2
  obtain ⟨s, hs, hround⟩ := Double.div_finite _ _ _ hn0 hm2
  have hs0 := (inner_repetitions_double_bound avg t nI ht s hs).1
  have hsle := inner_repetitions_double_lower_bound avg t nI ht s hs
  exact rounding_lower_bound_step (s / (nI : ℚ)) m _ nI nI (div_nonneg hs0 (Nat.cast_nonneg nI))
    (rounding_lower_bound_div _ nI nI nI s hI hsle) hround

/-- A non-negative number rounds to a finite `double` or to `+inf`. -/
theorem Double.round_nonneg_cases (q : ℚ) (hq : 0 ≤ q) :
    (∃ v, Double.round q = Double.finite v) ∨ Double.round q = Double.infinity false := by
  unfold Double.round
  by_cases h0 : q = 0
  · exact Or.inl ⟨0, by rw [if_pos h0]⟩
  · rw [if_neg h0]
    simp only
    have hneg : ¬ q < 0 := not_lt.2 hq
    by_cases hv : DBL_MAX < Double.round_magnitude |q|
    · right
      rw [if_pos hv]
      simp [hneg]
    · left
      rw [if_neg hv]
      exact ⟨_, rfl⟩

theorem Double.lt_irrefl (x : Double) : Double.lt x x = false := by
  cases x with
  | finite a => simp [Double.lt]
  | infinity s => cases s <;> rfl
  | nan => rfl

theorem Double.lt_trans (x y z : Double) (hxy : Double.lt x y = true)
    (hyz : Double.lt y z = true) : Double.lt x z = true := by
  cases x with
  | finite a =>
    cases y with
    | finite b =>
      cases z with
      | finite c =>
        simp only [Double.lt, decide_eq_true_eq] at hxy hyz ⊢
        exact LT.lt.trans hxy hyz
      | infinity u => exact hyz
      | nan => exact absurd hyz (by simp [Double.lt])
    | infinity t =>
      cases z with
      | finite c =>
        cases t with
        | false => exact absurd hyz (by simp [Double.lt])
        | true => exact absurd hxy (by simp [Double.lt])
      | infinity u =>
        cases t with
        | false => exact absurd hyz (by simp [Double.lt])
        | true => exact absurd hxy (by simp [Double.lt])
      | nan => exact absurd hyz (by simp [Double.lt])
    | nan => exact absurd hxy (by simp [Double.lt])
  | infinity s =>
    cases y with
    | finite b =>
      cases z with
      | finite c => exact hxy
      | infinity u =>
        cases s with
        | false => exact absurd hxy (by simp [Double.lt])
        | true =>
          cases u with
          | false => rfl
          | true => exact absurd hyz (by simp [Double.lt])
      | nan => exact absurd hyz (by simp [Double.lt])
    | infinity t =>
      cases s with
      | false => exact absurd hxy (by simp [Double.lt])
      | true =>
        cases t with
        | false => exact absurd hyz (by cases z <;> simp [Double.lt])
        | true => exact absurd hxy (by simp [Double.lt])
    | nan => exact absurd hxy (by simp [Double.lt])
  | nan => exact absurd hxy (by cases y <;> simp [Double.lt])

/-- The timing loops in `double` arithmetic, for every table of measured times: no computed mean
is below `wall_time`, and `wall_time` is `DBL_MAX` or a computed mean below `DBL_MAX`. -/
theorem timing_loop_double_min (nI : Nat) (timer : Nat → Nat → Double) :
    ∀ nO,
      (∀ o, o < nO →
        Double.lt (current_wall_time Double.arithmetic nI (timer o))
          (timing_loop Double.arithmetic nI nO timer) = false)
      ∧ (timing_loop Double.arithmetic nI nO timer = Double.finite DBL_MAX
        ∨ ∃ o, o < nO
            ∧ timing_loop Double.arithmetic nI nO timer
              = current_wall_time Double.arithmetic nI (timer o)
            ∧ Double.lt (current_wall_time Double.arithmetic nI (timer o))
                (Double.finite DBL_MAX) = true) := by
  intro nO
  induction nO with
  | zero =>
    exact ⟨fun o ho => absurd ho (Nat.not_lt_zero o), Or.inl (timing_loop_zero _ _ _)⟩
  | succ k ih =>
    obtain ⟨hno, hatt⟩ := ih
    rw [timing_loop_succ]
    unfold Arithmetic.min
    by_cases hlt : Double.lt (current_wall_time Double.arithmetic nI (timer k))
        (timing_loop Double.arithmetic nI k timer) = true
    · have hif : (if Double.arithmetic.lt (current_wall_time Double.arithmetic nI (timer k))
            (timing_loop Double.arithmetic nI k timer) = true
          then current_wall_time Double.arithmetic nI (timer k)
          else timing_loop Double.arithmetic nI k timer)
          = current_wall_time Double.arithmetic nI (timer k) := if_pos hlt
      rw [hif]
      constructor
      · intro o ho
        rcases Nat.lt_succ_iff_lt_or_eq.1 ho with h | h
        · cases hcase : Double.lt (current_wall_time Double.arithmetic nI (timer o))
              (current_wall_time Double.arithmetic nI (timer k)) with
          | false => rfl
          | true =>
            have := Double.lt_trans _ _ _ hcase hlt
            rw [hno o h] at this
            exact Bool.noConfusion this
        · subst h
          exact Double.lt_irrefl _
      · right
        refine ⟨k, by omega, rfl, ?_⟩
        rcases hatt with hmax | ⟨o, _, heq, hbelow⟩
        · rw [hmax] at hlt
          exact hlt
        · rw [heq] at hlt
          exact Double.lt_trans _ _ _ hlt hbelow
    · have hfalse : Double.lt (current_wall_time Double.arithmetic nI (timer k))
          (timing_loop Double.arithmetic nI k timer) = false := by
        cases h : Double.lt (current_wall_time Double.arithmetic nI (timer k))
            (timing_loop Double.arithmetic nI k timer) with
        | false => rfl
        | true => exact absurd h hlt
      have hif : (if Double.arithmetic.lt (current_wall_time Double.arithmetic nI (timer k))
            (timing_loop Double.arithmetic nI k timer) = true
          then current_wall_time Double.arithmetic nI (timer k)
          else timing_loop Double.arithmetic nI k timer)
          = timing_loop Double.arithmetic nI k timer := if_neg hlt
      rw [hif]
      constructor
      · intro o ho
        rcases Nat.lt_succ_iff_lt_or_eq.1 ho with h | h
        · exact hno o h
        · subst h
          exact hfalse
      · rcases hatt with hmax | ⟨o, ho, heq, hbelow⟩
        · exact Or.inl hmax
        · exact Or.inr ⟨o, by omega, heq, hbelow⟩

/-- The running sum of the inner loop in `double` arithmetic, for non-negative measured times,
is finite or `+inf`. -/
theorem inner_repetitions_double_cases (avg : Nat → Double) (t : Nat → ℚ) :
    ∀ k, (∀ i, i < k → avg i = Double.finite (t i) ∧ 0 ≤ t i) →
      (∃ s, inner_repetitions Double.arithmetic k avg = Double.finite s)
        ∨ inner_repetitions Double.arithmetic k avg = Double.infinity false := by
  intro k
  induction k with
  | zero =>
    intro _
    exact Or.inl ⟨0, by simp [inner_repetitions, forLoop_zero, Double.arithmetic]⟩
  | succ k ih =>
    intro ht
    rw [inner_repetitions_succ, (ht k (by omega)).1]
    rcases ih (fun i hi => ht i (by omega)) with ⟨s, hs⟩ | hinf
    · rw [hs]
      have hs0 := (inner_repetitions_double_bound avg t k (fun i hi => ht i (by omega)) s hs).1
      exact Double.round_nonneg_cases (s + t k) (add_nonneg hs0 (ht k (by omega)).2)
    · rw [hinf]
      exact Or.inr rfl

/-- The mean of one outer repetition in `double` arithmetic, for non-negative measured times, is
finite or `+inf`. -/
theorem current_wall_time_double_cases (nI : Nat) (avg : Nat → Double) (t : Nat → ℚ)
    (hI : 1 ≤ nI) (hI2 : nI < 2 ^ 53)
    (ht : ∀ i, i < nI → avg i = Double.finite (t i) ∧ 0 ≤ t i) :
    (∃ m, current_wall_time Double.arithmetic nI avg = Double.finite m)
      ∨ current_wall_time Double.arithmetic nI avg = Double.infinity false := by
  have hconv := Double.round_natCast nI hI2
  have hnpos : (0 : ℚ) < (nI : ℚ) := by exact_mod_cast hI
  have hdef : current_wall_time Double.arithmetic nI avg
      = Double.div (inner_repetitions Double.arithmetic nI avg) (Double.round (nI : ℚ)) := rfl
  rw [hdef, hconv]
  rcases inner_repetitions_double_cases avg t nI ht with ⟨s, hs⟩ | hinf
  · rw [hs]
    have hs0 := (inner_repetitions_double_bound avg t nI ht s hs).1
    have hdiv : Double.div (Double.finite s) (Double.finite (nI : ℚ))
        = Double.round (s / (nI : ℚ)) := by
      simp [Double.div, ne_of_gt hnpos]
    rw [hdiv]
    exact Double.round_nonneg_cases _ (div_nonneg hs0 (le_of_lt hnpos))
  · rw [hinf]
    right
    simp [Double.div, not_lt.2 (le_of_lt hnpos)]

/-- The timing loops in `double` arithmetic, for non-negative measured times: `wall_time` is a
non-negative number `w`, at most every finite computed mean, and `w` is `DBL_MAX` or one of the
finite computed means. -/
theorem wall_time_double_cases (nI nO : Nat) (timer : Nat → Nat → Double) (t : Nat → Nat → ℚ)
    (hI : 1 ≤ nI) (hI2 : nI < 2 ^ 53)
    (ht : ∀ o i, o < nO → i < nI → timer o i = Double.finite (t o i) ∧ 0 ≤ t o i) :
    ∃ w, timing_loop Double.arithmetic nI nO timer = Double.finite w ∧ 0 ≤ w
      ∧ (∀ o m, o < nO →
          current_wall_time Double.arithmetic nI (timer o) = Double.finite m → w ≤ m)
      ∧ (w = DBL_MAX
        ∨ ∃ o, o < nO ∧ current_wall_time Double.arithmetic nI (timer o) = Double.finite w) := by
  obtain ⟨hno, hatt⟩ := timing_loop_double_min nI timer nO
  have hle : ∀ w, timing_loop Double.arithmetic nI nO timer = Double.finite w →
      ∀ o m, o < nO →
        current_wall_time Double.arithmetic nI (timer o) = Double.finite m → w ≤ m := by
    intro w hw o m ho hm
    have h := hno o ho
    rw [hw, hm] at h
    simp only [Double.lt, decide_eq_false_iff_not, not_lt] at h
    exact h
  rcases hatt with hmax | ⟨o, ho, heq, hbelow⟩
  · exact ⟨DBL_MAX, hmax, le_of_lt DBL_MAX_pos, hle DBL_MAX hmax, Or.inl rfl⟩
  · rcases current_wall_time_double_cases nI (timer o) (t o) hI hI2
        (fun i hi => ht o i ho hi) with ⟨m, hm⟩ | hinf
    · have hm0 := (current_wall_time_double_bound nI (timer o) (t o) m hI hI2
        (fun i hi => ht o i ho hi) hm).1
      rw [hm] at heq
      exact ⟨m, heq, hm0, hle m heq, Or.inr ⟨o, ho, hm⟩⟩
    · rw [hinf] at hbelow
      exact absurd hbelow (by simp [Double.lt])

theorem rounding_bound_add (a x tk : ℚ) (k j : Nat) (htk : 0 ≤ tk)
    (ha : a ≤ rounding_bound x k j) : a + tk ≤ rounding_bound (x + tk) k j := by
  have hpow := one_le_one_add_unit_roundoff_pow j
  unfold rounding_bound at ha ⊢
  have : tk ≤ tk * (1 + unit_roundoff) ^ j := by
    have := mul_le_mul_of_nonneg_left hpow htk
    linarith
  have hexp : (x + tk + (k : ℚ) * underflow_unit) * (1 + unit_roundoff) ^ j
      = (x + (k : ℚ) * underflow_unit) * (1 + unit_roundoff) ^ j
        + tk * (1 + unit_roundoff) ^ j := by ring
  rw [hexp]
  linarith

/-- The running sum of the inner loop in `double` arithmetic, for non-negative measured times, is
finite when the bound of its rounded operations on the exact sum is at most `DBL_MAX`. -/
theorem inner_repetitions_double_finite (avg : Nat → Double) (t : Nat → ℚ) :
    ∀ k, (∀ i, i < k → avg i = Double.finite (t i) ∧ 0 ≤ t i) →
      rounding_bound (∑ i in Finset.range k, t i) k k ≤ DBL_MAX →
      ∃ s, inner_repetitions Double.arithmetic k avg = Double.finite s := by
  intro k
  induction k with
  | zero =>
    intro _ _
    exact ⟨0, by simp [inner_repetitions, forLoop_zero, Double.arithmetic]⟩
  | succ k ih =>
    intro ht hb
    have hsum0 : 0 ≤ ∑ i in Finset.range k, t i :=
      Finset.sum_nonneg (fun i hi => (ht i (by have := Finset.mem_range.1 hi; omega)).2)
    obtain ⟨hk, hk0⟩ := ht k (by omega)
    have hle : ∑ i in Finset.range k, t i ≤ ∑ i in Finset.range (k + 1), t i := by
      rw [Finset.sum_range_succ]
      linarith
    obtain ⟨a, ha⟩ := ih (fun i hi => ht i (by omega))
      (le_trans (rounding_bound_mono _ _ k (k + 1) k (k + 1) hsum0 hle (by omega) (by omega)) hb)
    obtain ⟨ha0, hale⟩ := inner_repetitions_double_bound avg t k (fun i hi => ht i (by omega)) a ha
    have hq : a + t k ≤ rounding_bound (∑ i in Finset.range (k + 1), t i) k k := by
      rw [Finset.sum_range_succ]
      exact rounding_bound_add a _ (t k) k k hk0 hale
    obtain ⟨s, hs, _⟩ := rounding_bound_step_finite (a + t k) _ k k (by linarith) hq hb
    refine ⟨s, ?_⟩
    rw [inner_repetitions_succ, ha, hk]
    exact hs

/-- The mean of one outer repetition in `double` arithmetic, for non-negative measured times, is
finite when the bound of `n_inner + 1` rounded operations on the sum of the measured times is at
most `DBL_MAX`. -/
theorem current_wall_time_double_finite (nI : Nat) (avg : Nat → Double) (t : Nat → ℚ)
    (hI : 1 ≤ nI) (hI2 : nI < 2 ^ 53)
    (ht : ∀ i, i < nI → avg i = Double.finite (t i) ∧ 0 ≤ t i)
    (hb : rounding_bound (∑ i in Finset.range nI, t i) (nI + 1) (nI + 1) ≤ DBL_MAX) :
    ∃ m, current_wall_time Double.arithmetic nI avg = Double.finite m := by
  have hconv := Double.round_natCast nI hI2
  have hn1 : (1 : ℚ) ≤ (nI : ℚ) := by exact_mod_cast hI
  have hnpos : (0 : ℚ) < (nI : ℚ) := by linarith
  have hsum0 : 0 ≤ ∑ i in Finset.range nI, t i :=
    Finset.sum_nonneg (fun i hi => (ht i (Finset.mem_range.1 hi)).2)
  obtain ⟨s, hs⟩ := inner_repetitions_double_finite avg t nI ht
    (le_trans (rounding_bound_mono _ _ nI (nI + 1) nI (nI + 1) hsum0 (le_refl _) (by omega)
      (by omega)) hb)
  obtain ⟨hs0, hsle⟩ := inner_repetitions_double_bound avg t nI ht s hs
  have hdivle : (∑ i in Finset.range nI, t i) / (nI : ℚ) ≤ ∑ i in Finset.range nI, t i :=
    div_le_self hsum0 hn1
  obtain ⟨m, hm, _⟩ := rounding_bound_step_finite (s / (nI : ℚ)) _ nI nI
    (div_nonneg hs0 (le_of_lt hnpos)) (rounding_bound_div _ nI nI nI s hI hsle)
    (le_trans (rounding_bound_mono _ _ (nI + 1) (nI + 1) (nI + 1) (nI + 1)
      (div_nonneg hsum0 (le_of_lt hnpos)) hdivle (le_refl _) (le_refl _)) hb)
  refine ⟨m, ?_⟩
  have hdef : current_wall_time Double.arithmetic nI avg
      = Double.div (inner_repetitions Double.arithmetic nI avg) (Double.round (nI : ℚ)) := rfl
  rw [hdef, hconv, hs]
  have hdiv : Double.div (Double.finite s) (Double.finite (nI : ℚ))
      = Double.round (s / (nI : ℚ)) := by
    simp [Double.div, ne_of_gt hnpos]
  rw [hdiv]
  exact hm

/-- The first product `wall_time * n_inner` of the warning test in `double` arithmetic, for
non-negative measured times: `wall_time` is a non-negative number `w`, it is `DBL_MAX` or one of
the finite computed means, and `w * n_inner` is, for every outer repetition with a finite computed
mean, within the bound of `n_inner + 1` rounded operations on the sum of its measured times. -/
theorem wall_time_double_bound (nI nO : Nat) (timer : Nat → Nat → Double) (t : Nat → Nat → ℚ)
    (hI : 1 ≤ nI) (hI2 : nI < 2 ^ 53)
    (ht : ∀ o i, o < nO → i < nI → timer o i = Double.finite (t o i) ∧ 0 ≤ t o i) :
    ∃ w, timing_loop Double.arithmetic nI nO timer = Double.finite w ∧ 0 ≤ w
      ∧ (∀ o m, o < nO →
          current_wall_time Double.arithmetic nI (timer o) = Double.finite m →
          w * (nI : ℚ) ≤ rounding_bound (∑ i in Finset.range nI, t o i) ((nI + 1) * nI) (nI + 1))
      ∧ (w = DBL_MAX
        ∨ ∃ o, o < nO ∧ current_wall_time Double.arithmetic nI (timer o) = Double.finite w) := by
  obtain ⟨w, hw, hw0, hle, hatt⟩ := wall_time_double_cases nI nO timer t hI hI2 ht
  have hnpos : (0 : ℚ) < (nI : ℚ) := by exact_mod_cast hI
  refine ⟨w, hw, hw0, ?_, hatt⟩
  intro o m ho hmo
  have hm := (current_wall_time_double_bound nI (timer o) (t o) m hI hI2
    (fun i hi => ht o i ho hi) hmo).2
  have h1 := rounding_bound_mul _ (nI + 1) (nI + 1) nI w (le_trans (hle o m ho hmo) hm)
  have hx : (∑ i in Finset.range nI, t o i) / (nI : ℚ) * (nI : ℚ)
      = ∑ i in Finset.range nI, t o i := div_mul_cancel₀ _ (ne_of_gt hnpos)
  rw [hx] at h1
  exact h1

theorem rounding_bound_row_le (nI nO : Nat) (x : ℚ) (hI : 1 ≤ nI) (hO : 1 ≤ nO) (hx : 0 ≤ x) :
    rounding_bound x ((nI + 1) * nI + 1) (nI + 1 + 1)
      ≤ rounding_bound (x * (nO : ℚ)) (((nI + 1) * nI + 1) * nO + 1) (nI + 3)
    ∧ rounding_bound x (nI + 1) (nI + 1)
      ≤ rounding_bound (x * (nO : ℚ)) (((nI + 1) * nI + 1) * nO + 1) (nI + 3) := by
  have hnO1 : (1 : ℚ) ≤ (nO : ℚ) := by exact_mod_cast hO
  have hxle : x ≤ x * (nO : ℚ) := by
    have := mul_le_mul_of_nonneg_left hnO1 hx
    linarith
  have h1 : (nI + 1) * nI + 1 ≤ ((nI + 1) * nI + 1) * nO := Nat.le_mul_of_pos_right _ hO
  have h2 : nI + 1 ≤ (nI + 1) * nI := Nat.le_mul_of_pos_right _ hI
  constructor
  · exact rounding_bound_mono _ _ _ _ _ _ hx hxle (by omega) (by omega)
  · exact rounding_bound_mono _ _ _ _ _ _ hx hxle (by omega) (by omega)

/-- The quantity `wall_time * n_inner * n_outer` of the warning test in `double` arithmetic, for
non-negative measured times and repetition counts below `2^53`: when it is finite, it is
non-negative and, for every outer repetition, within the bound of `n_inner + 3` rounded
operations on `n_outer` times the sum of its measured times. -/
theorem tested_quantity_double_bound (nI nO : Nat) (timer : Nat → Nat → Double)
    (t : Nat → Nat → ℚ) (hI : 1 ≤ nI) (hI2 : nI < 2 ^ 53) (hO : 1 ≤ nO)
    (hO2 : nO < 2 ^ 53)
    (ht : ∀ o i, o < nO → i < nI → timer o i = Double.finite (t o i) ∧ 0 ≤ t o i)
    (T : ℚ)
    (hT : Double.mul
        (Double.mul (timing_loop Double.arithmetic nI nO timer) (Double.round (nI : ℚ)))
        (Double.round (nO : ℚ)) = Double.finite T) :
    0 ≤ T ∧ ∀ o, o < nO →
      T ≤ rounding_bound ((∑ i in Finset.range nI, t o i) * (nO : ℚ))
            (((nI + 1) * nI + 1) * nO + 1) (nI + 3) := by
  obtain ⟨w, hw, hw0, hwle, _⟩ := wall_time_double_bound nI nO timer t hI hI2 ht
  have hnO0 : (nO : ℚ) ≠ 0 := by
    have : (0 : ℚ) < (nO : ℚ) := by exact_mod_cast hO
    exact ne_of_gt this
  rw [hw, Double.round_natCast nI hI2, Double.round_natCast nO hO2] at hT
  obtain ⟨p, hp, hroundT⟩ := Double.mul_finite _ _ _ hnO0 hT
  have hp1 : Double.round (w * (nI : ℚ)) = Double.finite p := hp
  have hq1 : 0 ≤ w * (nI : ℚ) := mul_nonneg hw0 (Nat.cast_nonneg nI)
  have hp0 : 0 ≤ p := (Double.round_nonneg_bounds _ p hq1 hp1).1
  have hq2 : 0 ≤ p * (nO : ℚ) := mul_nonneg hp0 (Nat.cast_nonneg nO)
  refine ⟨(Double.round_nonneg_bounds _ T hq2 hroundT).1, ?_⟩
  intro o ho
  have hrow0 : 0 ≤ ∑ i in Finset.range nI, t o i :=
    Finset.sum_nonneg (fun i hi => (ht o i ho (Finset.mem_range.1 hi)).2)
  by_cases hfin : rounding_bound (∑ i in Finset.range nI, t o i) (nI + 1) (nI + 1) ≤ DBL_MAX
  · obtain ⟨m, hm⟩ := current_wall_time_double_finite nI (timer o) (t o) hI hI2
      (fun i hi => ht o i ho hi) hfin
    have hpb := (rounding_bound_step _ p _ _ _ hq1 (hwle o m ho hm) hp1).2
    have hqb := rounding_bound_mul _ ((nI + 1) * nI + 1) (nI + 1 + 1) nO p hpb
    exact (rounding_bound_step _ T _ _ _ hq2 hqb hroundT).2
  · have hTmax : T ≤ DBL_MAX := Double.round_finite_le _ T hroundT
    have := (rounding_bound_row_le nI nO _ hI hO hrow0).2
    linarith [not_le.1 hfin]

/-- The warning in `double` arithmetic, for non-negative measured times and repetition counts
below `2^53`: it is emitted when, for some outer repetition, the bound of `n_inner + 3` rounded
operations on `n_outer` times the sum of its measured times is below one. -/
theorem warning_double_of_bound (nI nO : Nat) (timer : Nat → Nat → Double)
    (t : Nat → Nat → ℚ) (hI : 1 ≤ nI) (hI2 : nI < 2 ^ 53) (hO : 1 ≤ nO)
    (hO2 : nO < 2 ^ 53)
    (ht : ∀ o i, o < nO → i < nI → timer o i = Double.finite (t o i) ∧ 0 ≤ t o i)
    (o : Nat) (ho : o < nO)
    (hbound : rounding_bound ((∑ i in Finset.range nI, t o i) * (nO : ℚ))
      (((nI + 1) * nI + 1) * nO + 1) (nI + 3) < 1) :
    Double.lt
      (Double.mul
        (Double.mul (timing_loop Double.arithmetic nI nO timer) (Double.round (nI : ℚ)))
        (Double.round (nO : ℚ)))
      (Double.finite 1) = true := by
  obtain ⟨w, hw, hw0, hwle, _⟩ := wall_time_double_bound nI nO timer t hI hI2 ht
  have hrow0 : 0 ≤ ∑ i in Finset.range nI, t o i :=
    Finset.sum_nonneg (fun i hi => (ht o i ho (Finset.mem_range.1 hi)).2)
  have hq1 : 0 ≤ w * (nI : ℚ) := mul_nonneg hw0 (Nat.cast_nonneg nI)
  have hmax := DBL_MAX_one_le
  obtain ⟨hmono1, hmono0⟩ := rounding_bound_row_le nI nO _ hI hO hrow0
  -- the computed mean of this outer repetition is finite
  obtain ⟨m, hm⟩ := current_wall_time_double_finite nI (timer o) (t o) hI hI2
    (fun i hi => ht o i ho hi) (by linarith)
  -- the first product is finite
  obtain ⟨p, hp, hp0, hpb⟩ := rounding_bound_step_finite _ _ _ _ hq1 (hwle o m ho hm)
    (by linarith)
  -- the second product is finite and below one
  have hq2 : 0 ≤ p * (nO : ℚ) := mul_nonneg hp0 (Nat.cast_nonneg nO)
  have hqb := rounding_bound_mul _ ((nI + 1) * nI + 1) (nI + 1 + 1) nO p hpb
  obtain ⟨T, hT, _, hTb⟩ := rounding_bound_step_finite _ _ _ _ hq2 hqb (by linarith)
  rw [hw, Double.round_natCast nI hI2, Double.round_natCast nO hO2]
  have h1 : Double.mul (Double.finite w) (Double.finite (nI : ℚ)) = Double.finite p := hp
  rw [h1]
  have h2 : Double.mul (Double.finite p) (Double.finite (nO : ℚ)) = Double.finite T := hT
  rw [h2]
  exact decide_eq_true (lt_of_le_of_lt hTb hbound)

/-- The two products of the warning test in `double` arithmetic from below: with a non-negative
`wall_time` whose exact first product is above a lower bound, the tested quantity is not below
one when the lower bound of two more rounded operations is at least one. -/
theorem no_warning_double_of_product (nI nO : Nat) (w x : ℚ) (a j : Nat) (hO : 1 ≤ nO)
    (hw0 : 0 ≤ w) (hl1 : rounding_lower_bound x a j ≤ w * (nI : ℚ))
    (h1 : 1 ≤ rounding_lower_bound (x * (nO : ℚ)) ((a + 1) * nO + 1) (j + 1 + 1)) :
    Double.lt
      (Double.mul (Double.mul (Double.finite w) (Double.finite (nI : ℚ)))
        (Double.finite (nO : ℚ)))
      (Double.finite 1) = false := by
  have hnO0 : (nO : ℚ) ≠ 0 := by
    have : (0 : ℚ) < (nO : ℚ) := by exact_mod_cast hO
    exact ne_of_gt this
  have hq1 : 0 ≤ w * (nI : ℚ) := mul_nonneg hw0 (Nat.cast_nonneg nI)
  have hmul1 : Double.mul (Double.finite w) (Double.finite (nI : ℚ))
      = Double.round (w * (nI : ℚ)) := rfl
  rw [hmul1]
  rcases Double.round_nonneg_cases (w * (nI : ℚ)) hq1 with ⟨p, hp⟩ | hinf
  · rw [hp]
    have hp0 := (Double.round_nonneg_bounds _ p hq1 hp).1
    have hpl := rounding_lower_bound_step _ p _ _ _ hq1 hl1 hp
    have hq2 : 0 ≤ p * (nO : ℚ) := mul_nonneg hp0 (Nat.cast_nonneg nO)
    have hl2 := rounding_lower_bound_mul _ (a + 1) (j + 1) nO p hpl
    have hmul2 : Double.mul (Double.finite p) (Double.finite (nO : ℚ))
        = Double.round (p * (nO : ℚ)) := rfl
    rw [hmul2]
    rcases Double.round_nonneg_cases (p * (nO : ℚ)) hq2 with ⟨T, hT⟩ | hinf2
    · rw [hT]
      have hTl := rounding_lower_bound_step _ T _ _ _ hq2 hl2 hT
      exact decide_eq_false (not_lt.2 (le_trans h1 hTl))
    · rw [hinf2]
      rfl
  · rw [hinf]
    simp [Double.mul, hnO0, Double.lt]

/-- The warning in `double` arithmetic, for non-negative measured times and repetition counts
below `2^53`: it is not emitted when, for every outer repetition, the lower bound of
`n_inner + 3` rounded operations on `n_outer` times the sum of its measured times is at least
one. -/
theorem no_warning_double_of_lower_bound (nI nO : Nat) (timer : Nat → Nat → Double)
    (t : Nat → Nat → ℚ) (hI : 1 ≤ nI) (hI2 : nI < 2 ^ 53) (hO : 1 ≤ nO)
    (hO2 : nO < 2 ^ 53)
    (ht : ∀ o i, o < nO → i < nI → timer o i = Double.finite (t o i) ∧ 0 ≤ t o i)
    (hbound : ∀ o, o < nO →
      1 ≤ rounding_lower_bound ((∑ i in Finset.range nI, t o i) * (nO : ℚ))
        (((nI + 1) * nI + 1) * nO + 1) (nI + 3)) :
    Double.lt
      (Double.mul
        (Double.mul (timing_loop Double.arithmetic nI nO timer) (Double.round (nI : ℚ)))
        (Double.round (nO : ℚ)))
      (Double.finite 1) = false := by
  obtain ⟨w, hw, hw0, _, hatt⟩ := wall_time_double_cases nI nO timer t hI hI2 ht
  have hn1 : (1 : ℚ) ≤ (nI : ℚ) := by exact_mod_cast hI
  have hnpos : (0 : ℚ) < (nI : ℚ) := by linarith
  have hnO1 : (1 : ℚ) ≤ (nO : ℚ) := by exact_mod_cast hO
  rw [hw, Double.round_natCast nI hI2, Double.round_natCast nO hO2]
  rcases hatt with hmax | ⟨o, ho, hm⟩
  · -- every computed mean is at least `DBL_MAX` or infinite
    have hu : unit_roundoff = 1 / 2 ^ 53 := rfl
    have he : underflow_unit = 1 / 2 ^ 1075 := rfl
    have hD : (4 : ℚ) ≤ DBL_MAX := by
      unfold DBL_MAX
      norm_num
    apply no_warning_double_of_product nI nO w 4 0 0 hO hw0
    · have h4 : rounding_lower_bound 4 0 0 = 4 := by simp [rounding_lower_bound]
      rw [h4, hmax]
      have := mul_le_mul_of_nonneg_left hn1 (le_trans (by norm_num) hD : (0 : ℚ) ≤ DBL_MAX)
      linarith
    · unfold rounding_lower_bound
      rw [hu, he]
      push_cast
      have hsq : (3 : ℚ) ≤ 4 * (1 - 1 / 2 ^ 53) ^ (0 + 1 + 1) := by norm_num
      have hη : (1 / 2 ^ 1075 : ℚ) ≤ 1 / 2 := by norm_num
      have hη0 : (0 : ℚ) ≤ 1 / 2 ^ 1075 := by norm_num
      have h1 : 3 * (nO : ℚ) ≤ 4 * (nO : ℚ) * (1 - 1 / 2 ^ 53) ^ (0 + 1 + 1) := by
        have := mul_le_mul_of_nonneg_right hsq (le_trans zero_le_one hnO1)
        linarith
      have h2 : ((0 + 1) * (nO : ℚ) + 1) * (1 / 2 ^ 1075) ≤ ((nO : ℚ) + 1) * (1 / 2) := by
        have := mul_le_mul_of_nonneg_left hη (by linarith : (0 : ℚ) ≤ (nO : ℚ) + 1)
        linarith
      linarith
  · have hml := current_wall_time_double_lower_bound nI (timer o) (t o) w hI hI2
      (fun i hi => ht o i ho hi) hm
    have hl1 := rounding_lower_bound_mul _ (nI + 1) (nI + 1) nI w hml
    have hx : (∑ i in Finset.range nI, t o i) / (nI : ℚ) * (nI : ℚ)
        = ∑ i in Finset.range nI, t o i := div_mul_cancel₀ _ (ne_of_gt hnpos)
    rw [hx] at hl1
    exact no_warning_double_of_product nI nO w _ ((nI + 1) * nI) (nI + 1) hO hw0 hl1
      (hbound o ho)

theorem two_pow_32_lt_two_pow_53 {n : Nat} (h : n < 2 ^ 32) : n < 2 ^ 53 :=
  lt_trans h (by norm_num)

/-! ### Claims on `Problem::apply_operator` -/

/-- C1, as stated, fails. With the configured 100 inner and 1 outer repetitions and every
measured time the `double` `0x1.47ae147ae147ap-7`, `wall_time` is `0x1.47ae147ae147fp-7`, not
the arithmetic mean `0x1.47ae147ae147ap-7` of the measured times: the running sum is rounded at
every addition. With every measured time the `double` `2^1023` the running sum is infinite from
the second addition on and `wall_time` keeps its initial value `DBL_MAX`, while the arithmetic
mean is `2^1023`. -/
theorem apply_operator_wall_time_not_exact_mean :
    Double.round sample_wall_time = Double.finite sample_wall_time
      ∧ (apply_operator Double.arithmetic N_REPETITIONS_INNER N_REPETITIONS_OUTER
          (fun _ _ => Double.finite sample_wall_time) 100 4 3 []).wall_time
        = Double.finite (0x147ae147ae147f / 2 ^ 59)
      ∧ (apply_operator Double.arithmetic N_REPETITIONS_INNER N_REPETITIONS_OUTER
          (fun _ _ => Double.finite sample_wall_time) 100 4 3 []).wall_time
        ≠ Double.finite ((Finset.range N_REPETITIONS_OUTER).inf'
            (range_nonempty_of_one_le (le_refl 1))
            (fun _ => inner_mean N_REPETITIONS_INNER (fun _ => sample_wall_time)))
      ∧ Double.round (2 ^ 1023) = Double.finite (2 ^ 1023)
      ∧ (apply_operator Double.arithmetic N_REPETITIONS_INNER N_REPETITIONS_OUTER
          (fun _ _ => Double.finite (2 ^ 1023)) 100 4 3 []).wall_time
        = Double.finite DBL_MAX
      ∧ (apply_operator Double.arithmetic N_REPETITIONS_INNER N_REPETITIONS_OUTER
          (fun _ _ => Double.finite (2 ^ 1023)) 100 4 3 []).wall_time
        ≠ Double.finite ((Finset.range N_REPETITIONS_OUTER).inf'
            (range_nonempty_of_one_le (le_refl 1))
            (fun _ => inner_mean N_REPETITIONS_INNER (fun _ => (2 : ℚ) ^ 1023))) := by
  have h1 : (apply_operator Double.arithmetic N_REPETITIONS_INNER N_REPETITIONS_OUTER
        (fun _ _ => Double.finite sample_wall_time) 100 4 3 []).wall_time
        = Double.finite (0x147ae147ae147f / 2 ^ 59) := by decide!
  have h2 : (apply_operator Double.arithmetic N_REPETITIONS_INNER N_REPETITIONS_OUTER
          (fun _ _ => Double.finite (2 ^ 1023)) 100 4 3 []).wall_time
        = Double.finite DBL_MAX := by decide!
  refine ⟨by decide!, h1, ?_, by decide!, h2, ?_⟩
  · rw [h1, Finset.inf'_const]
    intro h
    injection h with h
    norm_num [inner_mean, N_REPETITIONS_INNER, sample_wall_time] at h
  · rw [h2, Finset.inf'_const]
    intro h
    injection h with h
    norm_num [inner_mean, N_REPETITIONS_INNER, DBL_MAX] at h

/-- C1, amended: for `n_inner >= 1`, `n_outer >= 1` (`n_inner` an `unsigned int`) and every
table of non-negative measured wall times, `wall_time` is the minimum, in the order `<` of
`double`, of `DBL_MAX` and the means as `double` arithmetic computes them (the running sum
started at `0.0`, rounded at every addition, then divided by `(double)n_inner` and rounded): no
computed mean is below `wall_time`, and `wall_time` is `DBL_MAX` or one of the computed means; a
mean that overflowed to `+inf` is never taken. Every finite computed mean is the arithmetic mean
`(sum over i of t[o][i]) / n_inner` up to rounding, between the lower and the upper bound of
`n_inner + 1` rounded operations on it. When all computed means are finite, `wall_time` is their
minimum. In exact arithmetic, with measured times of at most `DBL_MAX`, `wall_time` is the
minimum over the outer repetitions of the arithmetic mean. -/
theorem apply_operator_wall_time_min_of_means (n_inner n_outer : Nat)
    (timer : Nat → Nat → Double) (t : Nat → Nat → ℚ) (mean : Nat → ℚ)
    (dofs N_mpi_processes degree : Nat) (wall_times : List (Nat × Double))
    (exact_wall_times : List (Nat × ℚ))
    (hI : 1 ≤ n_inner) (hO : 1 ≤ n_outer) (hI2 : n_inner < 2 ^ 32)
    (ht : ∀ o i, o < n_outer → i < n_inner → timer o i = Double.finite (t o i) ∧ 0 ≤ t o i)
    (hmax : ∀ o i, o < n_outer → i < n_inner → t o i ≤ DBL_MAX) :
    (∀ o, o < n_outer →
        Double.lt (current_wall_time Double.arithmetic n_inner (timer o))
          (apply_operator Double.arithmetic n_inner n_outer timer dofs N_mpi_processes degree
            wall_times).wall_time = false)
      ∧ ((apply_operator Double.arithmetic n_inner n_outer timer dofs N_mpi_processes degree
            wall_times).wall_time = Double.finite DBL_MAX
        ∨ ∃ o, o < n_outer
            ∧ (apply_operator Double.arithmetic n_inner n_outer timer dofs N_mpi_processes degree
                wall_times).wall_time = current_wall_time Double.arithmetic n_inner (timer o))
      ∧ (∃ w, (apply_operator Double.arithmetic n_inner n_outer timer dofs N_mpi_processes degree
            wall_times).wall_time = Double.finite w ∧ 0 ≤ w ∧ w ≤ DBL_MAX)
      ∧ (∀ o m, o < n_outer →
          current_wall_time Double.arithmetic n_inner (timer o) = Double.finite m →
          rounding_lower_bound ((∑ i in Finset.range n_inner, t o i) / (n_inner : ℚ))
              (n_inner + 1) (n_inner + 1) ≤ m
            ∧ m ≤ rounding_bound ((∑ i in Finset.range n_inner, t o i) / (n_inner : ℚ))
                (n_inner + 1) (n_inner + 1))
      ∧ ((∀ o, o < n_outer →
            current_wall_time Double.arithmetic n_inner (timer o) = Double.finite (mean o)) →
          (apply_operator Double.arithmetic n_inner n_outer timer dofs N_mpi_processes degree
            wall_times).wall_time
            = Double.finite ((Finset.range n_outer).inf' (range_nonempty_of_one_le hO) mean))
      ∧ (apply_operator exact_arithmetic n_inner n_outer t dofs N_mpi_processes degree
          exact_wall_times).wall_time
        = (Finset.range n_outer).inf' (range_nonempty_of_one_le hO)
            (fun o => (∑ i in Finset.range n_inner, t o i) / (n_inner : ℚ)) := by
  have hI53 := two_pow_32_lt_two_pow_53 hI2
  obtain ⟨hno, hatt⟩ := timing_loop_double_min n_inner timer n_outer
  obtain ⟨w, hw, hw0, _, hcases⟩ := wall_time_double_cases n_inner n_outer timer t hI hI53 ht
  refine ⟨hno, ?_, ⟨w, hw, hw0, ?_⟩, ?_, ?_, timing_loop_eq_inf n_inner n_outer t hI hO hmax⟩
  · rcases hatt with h | ⟨o, ho, heq, _⟩
    · exact Or.inl h
    · exact Or.inr ⟨o, ho, heq⟩
  · rcases hcases with h | ⟨o, ho, hm⟩
    · exact le_of_eq h
    · have hm2 : Double.div (inner_repetitions Double.arithmetic n_inner (timer o))
          (Double.round (n_inner : ℚ)) = Double.finite w := hm
      exact Double.div_finite_le _ _ _ hm2
  · intro o m ho hm
    exact ⟨current_wall_time_double_lower_bound n_inner (timer o) (t o) m hI hI53
        (fun i hi => ht o i ho hi) hm,
      (current_wall_time_double_bound n_inner (timer o) (t o) m hI hI53
        (fun i hi => ht o i ho hi) hm).2⟩
  · intro hmean
    exact timing_loop_double_eq_inf n_inner n_outer timer mean hO hmean

/-- Witness of the amended C1: two outer repetitions of two inner repetitions with the measured
times `1, 2` and `2, 3`, all of them `double`s; the computed means `3/2` and `5/2` are the
arithmetic means, and `wall_time` is `3/2`. -/
theorem apply_operator_wall_time_min_of_means_witness :
    (apply_operator Double.arithmetic 2 2 (fun o i => Double.finite ((o : ℚ) + (i : ℚ) + 1))
          100 4 3 []).wall_time
        = Double.finite ((Finset.range 2).inf' (range_nonempty_of_one_le (by decide))
            (fun o => (o : ℚ) + 3 / 2))
      ∧ (apply_operator exact_arithmetic 2 2 (fun o i => (o : ℚ) + (i : ℚ) + 1) 100 4 3
          []).wall_time
        = (Finset.range 2).inf' (range_nonempty_of_one_le (by decide))
            (fun o => (∑ i in Finset.range 2, ((o : ℚ) + (i : ℚ) + 1)) / ((2 : Nat) : ℚ))
      ∧ (apply_operator Double.arithmetic 2 2 (fun o i => Double.finite ((o : ℚ) + (i : ℚ) + 1))
          100 4 3 []).wall_time = Double.finite (3 / 2) := by
  have h := apply_operator_wall_time_min_of_means 2 2
    (fun o i => Double.finite ((o : ℚ) + (i : ℚ) + 1)) (fun o i => (o : ℚ) + (i : ℚ) + 1)
    (fun o => (o : ℚ) + 3 / 2) 100 4 3 [] []
    (by decide) (by decide) (by norm_num)
    (by
      intro o i _ _
      exact ⟨rfl, by positivity⟩)
    (by
      intro o i ho hi
      interval_cases o <;> interval_cases i <;> norm_num [DBL_MAX])
  refine ⟨h.2.2.2.2.1 ?_, h.2.2.2.2.2, by decide!⟩
  intro o ho
  interval_cases o
  · decide!
  · decide!

/-- C2, as stated, fails. With the configured 100 inner and 1 outer repetitions and every
measured time the `double` `0x1.47ae147ae147ap-7` (non-negative), the total measured wall time
is under one second, but the tested product is `0x1.0000000000003p+0`, above `1.0`, and the
warning is not emitted. -/
theorem apply_operator_warning_not_iff_total :
    Double.round sample_wall_time = Double.finite sample_wall_time
      ∧ (0 : ℚ) ≤ sample_wall_time
      ∧ (∑ _o in Finset.range N_REPETITIONS_OUTER, ∑ _i in Finset.range N_REPETITIONS_INNER,
          sample_wall_time) < 1
      ∧ (apply_operator Double.arithmetic N_REPETITIONS_INNER N_REPETITIONS_OUTER
          (fun _ _ => Double.finite sample_wall_time) 100 4 3 []).warning = false := by
  refine ⟨by decide!, ?_, ?_, by decide!⟩
  · norm_num [sample_wall_time]
  · norm_num [N_REPETITIONS_OUTER, N_REPETITIONS_INNER, sample_wall_time]

/-- C2, amended: for `n_inner >= 1`, `n_outer >= 1` (both `unsigned int`) and every table of
non-negative measured wall times, the warning is emitted exactly when the `double` product
`wall_time * n_inner * n_outer` is below `1.0`. This is the total measured wall time being under
one second up to rounding and, for `n_outer > 1`, up to the difference between the smallest
outer repetition and the others: the warning is emitted when, for some outer repetition, the
bound of
`n_inner + 3` rounded operations on `n_outer` times the sum of its measured times is below one,
and it is not emitted when, for every outer repetition, the lower bound of `n_inner + 3` rounded
operations on `n_outer` times the sum of its measured times is at least one; with the configured
counts 100 and 1 it is emitted when the total is at most `1 - 2^-46` seconds and not emitted
when the total is at least `1 + 2^-46` seconds. In exact arithmetic, with measured times of at
most `DBL_MAX`, it is emitted exactly when `n_outer` times the smallest per-outer-repetition sum
is under one second, hence whenever the total is under one second, and for `n_outer = 1` exactly
then. -/
theorem apply_operator_warning_iff (n_inner n_outer : Nat)
    (timer : Nat → Nat → Double) (t : Nat → Nat → ℚ)
    (dofs N_mpi_processes degree : Nat) (wall_times : List (Nat × Double))
    (exact_wall_times : List (Nat × ℚ))
    (hI : 1 ≤ n_inner) (hO : 1 ≤ n_outer) (hI2 : n_inner < 2 ^ 32) (hO2 : n_outer < 2 ^ 32)
    (ht : ∀ o i, o < n_outer → i < n_inner → timer o i = Double.finite (t o i) ∧ 0 ≤ t o i)
    (hmax : ∀ o i, o < n_outer → i < n_inner → t o i ≤ DBL_MAX) :
    ((apply_operator Double.arithmetic n_inner n_outer timer dofs N_mpi_processes degree
          wall_times).warning = true
        ↔ Double.lt
            (Double.mul
              (Double.mul
                (apply_operator Double.arithmetic n_inner n_outer timer dofs N_mpi_processes
                  degree wall_times).wall_time
                (Double.round (n_inner : ℚ)))
              (Double.round (n_outer : ℚ)))
            (Double.finite 1) = true)
      ∧ ((∃ o, o < n_outer ∧
            rounding_bound ((∑ i in Finset.range n_inner, t o i) * (n_outer : ℚ))
              (((n_inner + 1) * n_inner + 1) * n_outer + 1) (n_inner + 3) < 1) →
          (apply_operator Double.arithmetic n_inner n_outer timer dofs N_mpi_processes degree
            wall_times).warning = true)
      ∧ ((∀ o, o < n_outer →
            1 ≤ rounding_lower_bound ((∑ i in Finset.range n_inner, t o i) * (n_outer : ℚ))
              (((n_inner + 1) * n_inner + 1) * n_outer + 1) (n_inner + 3)) →
          (apply_operator Double.arithmetic n_inner n_outer timer dofs N_mpi_processes degree
            wall_times).warning = false)
      ∧ (n_inner = 100 → n_outer = 1 →
          ((∑ o in Finset.range n_outer, ∑ i in Finset.range n_inner, t o i) ≤ 1 - 1 / 2 ^ 46 →
            (apply_operator Double.arithmetic n_inner n_outer timer dofs N_mpi_processes degree
              wall_times).warning = true)
          ∧ (1 + 1 / 2 ^ 46 ≤ (∑ o in Finset.range n_outer, ∑ i in Finset.range n_inner, t o i) →
            (apply_operator Double.arithmetic n_inner n_outer timer dofs N_mpi_processes degree
              wall_times).warning = false))
      ∧ ((apply_operator exact_arithmetic n_inner n_outer t dofs N_mpi_processes degree
            exact_wall_times).warning = true
        ↔ (n_outer : ℚ) * (Finset.range n_outer).inf' (range_nonempty_of_one_le hO)
            (fun o => ∑ i in Finset.range n_inner, t o i) < 1)
      ∧ ((∑ o in Finset.range n_outer, ∑ i in Finset.range n_inner, t o i) < 1 →
          (apply_operator exact_arithmetic n_inner n_outer t dofs N_mpi_processes
            degree exact_wall_times).warning = true)
      ∧ (n_outer = 1 →
          ((apply_operator exact_arithmetic n_inner n_outer t dofs N_mpi_processes
              degree exact_wall_times).warning = true
            ↔ (∑ o in Finset.range n_outer, ∑ i in Finset.range n_inner, t o i) < 1)) := by
  have hd : (apply_operator Double.arithmetic n_inner n_outer timer dofs N_mpi_processes degree
        wall_times).warning
      = Double.lt
          (Double.mul
            (Double.mul (timing_loop Double.arithmetic n_inner n_outer timer)
              (Double.round (n_inner : ℚ)))
            (Double.round (n_outer : ℚ)))
          (Double.finite 1) := rfl
  have hw : (apply_operator exact_arithmetic n_inner n_outer t dofs N_mpi_processes
        degree exact_wall_times).warning
      = decide (timing_loop exact_arithmetic n_inner n_outer t * (n_inner : ℚ)
          * (n_outer : ℚ) < 1) := rfl
  have hI53 := two_pow_32_lt_two_pow_53 hI2
  have hO53 := two_pow_32_lt_two_pow_53 hO2
  have hpos : (0 : ℚ) < (n_inner : ℚ) := by exact_mod_cast hI
  -- in exact arithmetic the tested quantity is `n_outer` times the smallest row sum
  have hq : timing_loop exact_arithmetic n_inner n_outer t * (n_inner : ℚ)
      = (Finset.range n_outer).inf' (range_nonempty_of_one_le hO)
          (fun o => ∑ i in Finset.range n_inner, t o i) := by
    apply le_antisymm
    · refine (Finset.le_inf'_iff _ _).2 (fun o ho => ?_)
      have h1 := timing_loop_le n_inner n_outer t o (Finset.mem_range.1 ho)
      have h2 := mul_le_mul_of_nonneg_right h1 (le_of_lt hpos)
      rwa [inner_mean_mul n_inner hI] at h2
    · obtain ⟨o, ho, heq⟩ := timing_loop_attained n_inner n_outer t hI hO hmax
      rw [heq, inner_mean_mul n_inner hI]
      exact Finset.inf'_le _ (Finset.mem_range.2 ho)
  have hiff : (apply_operator exact_arithmetic n_inner n_outer t dofs N_mpi_processes
        degree exact_wall_times).warning = true
      ↔ (n_outer : ℚ) * (Finset.range n_outer).inf' (range_nonempty_of_one_le hO)
          (fun o => ∑ i in Finset.range n_inner, t o i) < 1 := by
    rw [hw, decide_eq_true_iff, hq, mul_comm]
  have hle := inf_mul_card_le_sum n_outer hO (fun o => ∑ i in Finset.range n_inner, t o i)
  have hupper : (∃ o, o < n_outer ∧
      rounding_bound ((∑ i in Finset.range n_inner, t o i) * (n_outer : ℚ))
        (((n_inner + 1) * n_inner + 1) * n_outer + 1) (n_inner + 3) < 1) →
      (apply_operator Double.arithmetic n_inner n_outer timer dofs N_mpi_processes degree
        wall_times).warning = true := by
    rintro ⟨o, ho, hb⟩
    rw [hd]
    exact warning_double_of_bound n_inner n_outer timer t hI hI53 hO hO53 ht o ho hb
  have hlower : (∀ o, o < n_outer →
      1 ≤ rounding_lower_bound ((∑ i in Finset.range n_inner, t o i) * (n_outer : ℚ))
        (((n_inner + 1) * n_inner + 1) * n_outer + 1) (n_inner + 3)) →
      (apply_operator Double.arithmetic n_inner n_outer timer dofs N_mpi_processes degree
        wall_times).warning = false := by
    intro hb
    rw [hd]
    exact no_warning_double_of_lower_bound n_inner n_outer timer t hI hI53 hO hO53 ht hb
  refine ⟨?_, hupper, hlower, ?_, hiff, ?_, ?_⟩
  · rw [hd]
    rfl
  · intro h100 h1
    subst h100
    subst h1
    have hu : unit_roundoff = 1 / 2 ^ 53 := rfl
    have he : underflow_unit = 1 / 2 ^ 1075 := rfl
    constructor
    · intro htot
      apply hupper
      refine ⟨0, by omega, ?_⟩
      rw [Finset.sum_range_one] at htot
      unfold rounding_bound
      rw [hu, he]
      have hK : (0 : ℚ) < (1 + 1 / 2 ^ 53) ^ (100 + 3) := by positivity
      have hnum : ((1 : ℚ) - 1 / 2 ^ 46
          + (((((100 + 1) * 100 + 1) * 1 + 1 : ℕ)) : ℚ) * (1 / 2 ^ 1075))
          * (1 + 1 / 2 ^ 53) ^ (100 + 3) < 1 := by norm_num
      refine lt_of_le_of_lt (mul_le_mul_of_nonneg_right ?_ (le_of_lt hK)) hnum
      push_cast
      linarith
    · intro htot
      apply hlower
      intro o ho
      have ho0 : o = 0 := by omega
      subst ho0
      rw [Finset.sum_range_one] at htot
      unfold rounding_lower_bound
      rw [hu, he]
      have hK : (0 : ℚ) ≤ (1 - 1 / 2 ^ 53) ^ (100 + 3) := by norm_num
      have hnum : (1 : ℚ) ≤ (1 + 1 / 2 ^ 46) * (1 - 1 / 2 ^ 53) ^ (100 + 3)
          - (((((100 + 1) * 100 + 1) * 1 + 1 : ℕ)) : ℚ) * (1 / 2 ^ 1075) := by norm_num
      refine le_trans hnum ?_
      have hx : (1 + 1 / 2 ^ 46 : ℚ) ≤ (∑ i in Finset.range 100, t 0 i) * ((1 : ℕ) : ℚ) := by
        push_cast
        linarith
      have := mul_le_mul_of_nonneg_right hx hK
      linarith
  · intro htot
    rw [hiff, mul_comm]
    exact lt_of_le_of_lt hle htot
  · intro h1
    subst h1
    rw [hiff]
    simp [Finset.inf'_singleton]

/-- Witness of the amended C2: one outer repetition of two inner repetitions with the measured
times `1/4` and `1/2`, both `double`s: the warning is emitted in `double` and in exact
arithmetic, and the total `3/4` is under one second. -/
theorem apply_operator_warning_iff_witness :
    (apply_operator Double.arithmetic 2 1 (fun _ i => Double.finite (((i : ℚ) + 1) / 4)) 100 4 3
        []).warning = true
      ∧ (apply_operator exact_arithmetic 2 1 (fun _ i => ((i : ℚ) + 1) / 4) 100 4 3 []).warning
        = true
      ∧ (∑ o in Finset.range 1, ∑ i in Finset.range 2, ((fun _ i => ((i : ℚ) + 1) / 4) o i : ℚ))
          < 1 := by
  have h := apply_operator_warning_iff 2 1 (fun _ i => Double.finite (((i : ℚ) + 1) / 4))
    (fun _ i => ((i : ℚ) + 1) / 4) 100 4 3 [] []
    (by decide) (by decide) (by norm_num) (by norm_num)
    (by
      intro o i _ _
      exact ⟨rfl, by positivity⟩)
    (by
      intro o i _ hi
      interval_cases i <;> norm_num [DBL_MAX])
  have htot : (∑ o in Finset.range 1, ∑ i in Finset.range 2,
      ((fun _ i => ((i : ℚ) + 1) / 4) o i : ℚ)) < 1 := by
    norm_num [Finset.sum_range_succ]
  exact ⟨h.1.2 (by decide!), h.2.2.2.2.2.1 htot, htot⟩

/-- C3, as stated, fails in its parenthesis. With the configured 100 inner and 1 outer
repetitions, every measured time 7 seconds (so `wall_time` is 7, positive), 11 DoFs and 3
processes, the overall throughput is the `double` `11.0 / 7.0` and the per-process throughput is
that divided by `3.0`, but the per-process throughput times 3 is `0x1.924924924924ap+0`, not the
overall throughput `0x1.9249249249249p+0`: the division by `N` is rounded. -/
theorem apply_operator_per_process_times_N_not_overall :
    (apply_operator Double.arithmetic N_REPETITIONS_INNER N_REPETITIONS_OUTER
        (fun _ _ => Double.finite 7) 11 3 3 []).wall_time = Double.finite 7
      ∧ (apply_operator Double.arithmetic N_REPETITIONS_INNER N_REPETITIONS_OUTER
          (fun _ _ => Double.finite 7) 11 3 3 []).dofs_per_walltime
        = Double.finite (0x19249249249249 / 2 ^ 52)
      ∧ Double.mul
          (apply_operator Double.arithmetic N_REPETITIONS_INNER N_REPETITIONS_OUTER
            (fun _ _ => Double.finite 7) 11 3 3 []).dofs_per_walltime_per_core
          (Double.round 3)
        = Double.finite (0x1924924924924a / 2 ^ 52)
      ∧ Double.mul
          (apply_operator Double.arithmetic N_REPETITIONS_INNER N_REPETITIONS_OUTER
            (fun _ _ => Double.finite 7) 11 3 3 []).dofs_per_walltime_per_core
          (Double.round 3)
        ≠ (apply_operator Double.arithmetic N_REPETITIONS_INNER N_REPETITIONS_OUTER
            (fun _ _ => Double.finite 7) 11 3 3 []).dofs_per_walltime := by
  refine ⟨?_, ?_, ?_, ?_⟩ <;> decide!

/-- C3, amended: for every DoF count, every positive (finite) `wall_time` and every process
count `N >= 1` (an `unsigned int`), the reported overall throughput is the `double` quotient
`(double)dofs / wall_time` (for `dofs < 2^53` the correctly rounded `dofs / wall_time`), the
reported per-process throughput is the overall throughput divided by `(double)N`, and the value
appended to `wall_times` is the overall throughput paired with `param.degree`. The per-process
throughput times `N` is the overall throughput up to the rounding of that division: when both
are finite they differ by at most `2^-53` times the overall throughput plus `N * 2^-1075`; in
exact arithmetic they are equal. -/
theorem apply_operator_throughput (n_inner n_outer : Nat)
    (timer : Nat → Nat → Double) (w : ℚ) (exact_timer : Nat → Nat → ℚ)
    (dofs N_mpi_processes degree : Nat) (wall_times : List (Nat × Double))
    (exact_wall_times : List (Nat × ℚ))
    (hN : 1 ≤ N_mpi_processes) (hN2 : N_mpi_processes < 2 ^ 32)
    (hw : (apply_operator Double.arithmetic n_inner n_outer timer dofs N_mpi_processes degree
        wall_times).wall_time = Double.finite w)
    (hpos : 0 < w) :
    (apply_operator Double.arithmetic n_inner n_outer timer dofs N_mpi_processes degree
        wall_times).dofs_per_walltime
        = Double.div (Double.round (dofs : ℚ)) (Double.finite w)
      ∧ (dofs < 2 ^ 53 →
          (apply_operator Double.arithmetic n_inner n_outer timer dofs N_mpi_processes degree
            wall_times).dofs_per_walltime = Double.round ((dofs : ℚ) / w))
      ∧ (apply_operator Double.arithmetic n_inner n_outer timer dofs N_mpi_processes degree
            wall_times).dofs_per_walltime_per_core
          = Double.div (Double.div (Double.round (dofs : ℚ)) (Double.finite w))
              (Double.round (N_mpi_processes : ℚ))
      ∧ (apply_operator Double.arithmetic n_inner n_outer timer dofs N_mpi_processes degree
            wall_times).wall_times
          = wall_times ++ [(degree, Double.div (Double.round (dofs : ℚ)) (Double.finite w))]
      ∧ (∀ overall per_process,
          (apply_operator Double.arithmetic n_inner n_outer timer dofs N_mpi_processes degree
            wall_times).dofs_per_walltime = Double.finite overall →
          (apply_operator Double.arithmetic n_inner n_outer timer dofs N_mpi_processes degree
            wall_times).dofs_per_walltime_per_core = Double.finite per_process →
          |per_process * (N_mpi_processes : ℚ) - overall|
            ≤ unit_roundoff * overall + (N_mpi_processes : ℚ) * underflow_unit)
      ∧ (apply_operator exact_arithmetic n_inner n_outer exact_timer dofs N_mpi_processes degree
            exact_wall_times).dofs_per_walltime_per_core * (N_mpi_processes : ℚ)
          = (apply_operator exact_arithmetic n_inner n_outer exact_timer dofs N_mpi_processes
              degree exact_wall_times).dofs_per_walltime := by
  have hwt : timing_loop Double.arithmetic n_inner n_outer timer = Double.finite w := hw
  have hN0 : (N_mpi_processes : ℚ) ≠ 0 := by
    have : (0 : ℚ) < (N_mpi_processes : ℚ) := by exact_mod_cast hN
    exact ne_of_gt this
  have hNpos : (0 : ℚ) < (N_mpi_processes : ℚ) := by exact_mod_cast hN
  have hov : (apply_operator Double.arithmetic n_inner n_outer timer dofs N_mpi_processes degree
        wall_times).dofs_per_walltime
      = Double.div (Double.round (dofs : ℚ)) (Double.finite w) := by
    show Double.div (Double.round (dofs : ℚ))
      (timing_loop Double.arithmetic n_inner n_outer timer) = _
    rw [hwt]
  have hpc : (apply_operator Double.arithmetic n_inner n_outer timer dofs N_mpi_processes degree
        wall_times).dofs_per_walltime_per_core
      = Double.div
          (apply_operator Double.arithmetic n_inner n_outer timer dofs N_mpi_processes degree
            wall_times).dofs_per_walltime
          (Double.round (N_mpi_processes : ℚ)) := rfl
  refine ⟨hov, ?_, ?_, ?_, ?_, ?_⟩
  · intro hdofs
    rw [hov, Double.round_natCast dofs hdofs]
    simp [Double.div, ne_of_gt hpos]
  · rw [hpc, hov]
  · show wall_times ++ [(degree,
        Double.div (Double.round (dofs : ℚ))
          (timing_loop Double.arithmetic n_inner n_outer timer))] = _
    rw [hwt]
  · intro overall per_process hoverall hper
    -- the overall throughput is non-negative
    have hov0 : 0 ≤ overall := by
      rw [hov] at hoverall
      rcases Double.round_nonneg_cases (dofs : ℚ) (Nat.cast_nonneg dofs) with ⟨d, hd⟩ | hinf
      · rw [hd] at hoverall
        have hd0 := (Double.round_nonneg_bounds _ d (Nat.cast_nonneg dofs) hd).1
        obtain ⟨a, ha, hround⟩ := Double.div_finite _ _ _ (ne_of_gt hpos) hoverall
        injection ha with ha
        rw [← ha] at hround
        exact (Double.round_nonneg_bounds _ overall (div_nonneg hd0 (le_of_lt hpos)) hround).1
      · rw [hinf] at hoverall
        exact Double.noConfusion hoverall
    rw [hpc, hoverall, Double.round_natCast _ (two_pow_32_lt_two_pow_53 hN2)] at hper
    obtain ⟨a, ha, hround⟩ := Double.div_finite _ _ _ hN0 hper
    injection ha with ha
    rw [← ha] at hround
    obtain ⟨_, hle, hge⟩ := Double.round_nonneg_bounds _ per_process
      (div_nonneg hov0 (le_of_lt hNpos)) hround
    have h1 := mul_le_mul_of_nonneg_right hle (le_of_lt hNpos)
    have h2 := mul_le_mul_of_nonneg_right hge (le_of_lt hNpos)
    have hcancel : overall / (N_mpi_processes : ℚ) * (N_mpi_processes : ℚ) = overall :=
      div_mul_cancel₀ _ hN0
    have e1 : (overall / (N_mpi_processes : ℚ) * (1 + unit_roundoff) + underflow_unit)
          * (N_mpi_processes : ℚ)
        = overall / (N_mpi_processes : ℚ) * (N_mpi_processes : ℚ) * (1 + unit_roundoff)
          + underflow_unit * (N_mpi_processes : ℚ) := by ring
    have e2 : (overall / (N_mpi_processes : ℚ) * (1 - unit_roundoff) - underflow_unit)
          * (N_mpi_processes : ℚ)
        = overall / (N_mpi_processes : ℚ) * (N_mpi_processes : ℚ) * (1 - unit_roundoff)
          - underflow_unit * (N_mpi_processes : ℚ) := by ring
    rw [e1, hcancel] at h1
    rw [e2, hcancel] at h2
    rw [abs_le]
    constructor <;> linarith
  · show (dofs : ℚ) / timing_loop exact_arithmetic n_inner n_outer exact_timer
        / (N_mpi_processes : ℚ) * (N_mpi_processes : ℚ)
      = (dofs : ℚ) / timing_loop exact_arithmetic n_inner n_outer exact_timer
    exact div_mul_cancel₀ _ hN0

/-- Witness of the amended C3: 100 DoFs, one repetition measured at 2 seconds, 4 processes: 50
DoFs per second overall, 25/2 per process, and `(3, 50)` is appended to `wall_times`. -/
theorem apply_operator_throughput_witness :
    (apply_operator Double.arithmetic 1 1 (fun _ _ => Double.finite 2) 100 4 3
        [(2, Double.finite 7)]).dofs_per_walltime = Double.finite 50
      ∧ (apply_operator Double.arithmetic 1 1 (fun _ _ => Double.finite 2) 100 4 3
          [(2, Double.finite 7)]).dofs_per_walltime_per_core = Double.finite (25 / 2)
      ∧ (apply_operator Double.arithmetic 1 1 (fun _ _ => Double.finite 2) 100 4 3
          [(2, Double.finite 7)]).wall_times = [(2, Double.finite 7), (3, Double.finite 50)] := by
  have h := apply_operator_throughput 1 1 (fun _ _ => Double.finite 2) 2
    (fun _ _ => 2) 100 4 3 [(2, Double.finite 7)] [] (by decide) (by norm_num)
    (by decide!) (by norm_num)
  obtain ⟨h1, _, h2, h3, _⟩ := h
  refine ⟨?_, ?_, ?_⟩
  · rw [h1]; decide!
  · rw [h2]; decide!
  · rw [h3]; decide!

/-! ### Helper lemmas on `DriverOversetGrids::solve` -/

theorem solve_body_iter {W V : Type} (ops : Collaborators W V) (s : SolveState W V) :
    (DriverOversetGrids.solve_body ops s).iter = (s.iter + 1) % 2 ^ 32 := rfl

theorem solve_body_converged {W V : Type} (ops : Collaborators W V) (s : SolveState W V) :
    (DriverOversetGrids.solve_body ops s).converged
      = if (s.iter + 1) % 2 ^ 32 > 10 then true else s.converged := rfl

/-- The trace of one pass through the loop of `solve`: the eight calls the recording
collaborators append, with the vectors that flow between them. -/
theorem solve_body_trace {W V : Type} (ops : Collaborators W V)
    (s : SolveState (W × List (Call V)) V) :
    (DriverOversetGrids.solve_body ops.recording s).driver.world.2
      = s.driver.world.2 ++
          [ Call.rhs Domain.first (DriverOversetGrids.solve_body ops.recording s).rhs_1,
            Call.solve Domain.first (DriverOversetGrids.solve_body ops.recording s).rhs_1
              (DriverOversetGrids.solve_body ops.recording s).sol_1,
            Call.update_data Coupling.first_to_second
              (DriverOversetGrids.solve_body ops.recording s).sol_1,
            Call.rhs Domain.second (DriverOversetGrids.solve_body ops.recording s).rhs_2,
            Call.solve Domain.second (DriverOversetGrids.solve_body ops.recording s).rhs_2
              (DriverOversetGrids.solve_body ops.recording s).sol_2,
            Call.update_data Coupling.second_to_first
              (DriverOversetGrids.solve_body ops.recording s).sol_2,
            Call.do_postprocessing Domain.first
              (DriverOversetGrids.solve_body ops.recording s).sol_1,
            Call.do_postprocessing Domain.second
              (DriverOversetGrids.solve_body ops.recording s).sol_2 ] := by
  simp [DriverOversetGrids.solve_body, Collaborators.recording]

theorem solve_body_trace_erase {W V : Type} (ops : Collaborators W V)
    (s : SolveState (W × List (Call V)) V) :
    ((DriverOversetGrids.solve_body ops.recording s).driver.world.2).map Call.erase
      = s.driver.world.2.map Call.erase ++ iteration_order := by
  rw [solve_body_trace, List.map_append]
  rfl

/-- After `k <= 11` passes the counter is `k`, and `converged` holds exactly when `k > 10`. -/
theorem solve_passes_iter {W V : Type} (ops : Collaborators W V) (d : Driver W V) :
    ∀ k, k ≤ 11 →
      ((DriverOversetGrids.solve_body ops)^[k] (DriverOversetGrids.solve_init ops d)).iter = k
        ∧ ((DriverOversetGrids.solve_body ops)^[k]
            (DriverOversetGrids.solve_init ops d)).converged = decide (10 < k) := by
  intro k
  induction k with
  | zero => intro _; exact ⟨rfl, rfl⟩
  | succ j ih =>
    intro hj
    obtain ⟨hi, hc⟩ := ih (by omega)
    have hmod : (j + 1) % 2 ^ 32 = j + 1 := Nat.mod_eq_of_lt (by omega)
    rw [Function.iterate_succ_apply', solve_body_iter, solve_body_converged, hi, hc, hmod]
    refine ⟨rfl, ?_⟩
    by_cases h : 10 < j + 1
    · simp [h]
    · have h2 : ¬ 10 < j := by omega
      simp [h, h2]

theorem solve_loop_converged {W V : Type} (ops : Collaborators W V) (s : SolveState W V)
    (h : s.converged = true) (fuel : Nat) : DriverOversetGrids.solve_loop ops fuel s = some s := by
  cases fuel with
  | zero => simp [DriverOversetGrids.solve_loop, h]
  | succ f => simp [DriverOversetGrids.solve_loop, h]

theorem solve_loop_step {W V : Type} (ops : Collaborators W V) (s : SolveState W V)
    (h : s.converged = false) (fuel : Nat) :
    DriverOversetGrids.solve_loop ops (fuel + 1) s
      = DriverOversetGrids.solve_loop ops fuel (DriverOversetGrids.solve_body ops s) := by
  simp [DriverOversetGrids.solve_loop, h]

theorem solve_loop_out_of_fuel {W V : Type} (ops : Collaborators W V) (s : SolveState W V)
    (h : s.converged = false) : DriverOversetGrids.solve_loop ops 0 s = none := by
  simp [DriverOversetGrids.solve_loop, h]

theorem solve_passes_not_converged {W V : Type} (ops : Collaborators W V) (d : Driver W V)
    (k : Nat) (hk : k ≤ 10) :
    ((DriverOversetGrids.solve_body ops)^[k] (DriverOversetGrids.solve_init ops d)).converged
      = false := by
  rw [(solve_passes_iter ops d k (by omega)).2]
  exact decide_eq_false (by omega)

theorem solve_passes_converged {W V : Type} (ops : Collaborators W V) (d : Driver W V) :
    ((DriverOversetGrids.solve_body ops)^[11] (DriverOversetGrids.solve_init ops d)).converged
      = true := by
  rw [(solve_passes_iter ops d 11 (le_refl _)).2]
  exact decide_eq_true (by omega)

/-- From the state after `11 - j` passes, `fuel >= j` further passes are enough, and the loop
stops in the state after 11 passes. -/
theorem solve_loop_from {W V : Type} (ops : Collaborators W V) (d : Driver W V) :
    ∀ j, j ≤ 11 → ∀ fuel, j ≤ fuel →
      DriverOversetGrids.solve_loop ops fuel
          ((DriverOversetGrids.solve_body ops)^[11 - j] (DriverOversetGrids.solve_init ops d))
        = some ((DriverOversetGrids.solve_body ops)^[11] (DriverOversetGrids.solve_init ops d)) := by
  intro j
  induction j with
  | zero =>
    intro _ fuel _
    exact solve_loop_converged ops _ (solve_passes_converged ops d) fuel
  | succ i ih =>
    intro hi fuel hf
    have hfalse := solve_passes_not_converged ops d (11 - (i + 1)) (by omega)
    cases fuel with
    | zero => omega
    | succ f =>
      have hstep : 11 - i = (11 - (i + 1)) + 1 := by omega
      have hnext := ih (by omega) f (by omega)
      rw [hstep, Function.iterate_succ_apply'] at hnext
      rw [solve_loop_step ops _ hfalse]
      exact hnext

/-- With fewer than `j` passes allowed, the loop does not stop from the state after `11 - j`
passes. -/
theorem solve_loop_short {W V : Type} (ops : Collaborators W V) (d : Driver W V) :
    ∀ j, j ≤ 11 → ∀ fuel, fuel < j →
      DriverOversetGrids.solve_loop ops fuel
          ((DriverOversetGrids.solve_body ops)^[11 - j] (DriverOversetGrids.solve_init ops d))
        = none := by
  intro j
  induction j with
  | zero => intro _ fuel hf; omega
  | succ i ih =>
    intro hi fuel hf
    have hfalse := solve_passes_not_converged ops d (11 - (i + 1)) (by omega)
    cases fuel with
    | zero => exact solve_loop_out_of_fuel ops _ hfalse
    | succ f =>
      have hstep : 11 - i = (11 - (i + 1)) + 1 := by omega
      have hnext := ih (by omega) f (by omega)
      rw [hstep, Function.iterate_succ_apply'] at hnext
      rw [solve_loop_step ops _ hfalse]
      exact hnext

theorem solve_passes_trace_erase {W V : Type} (ops : Collaborators W V)
    (s : SolveState (W × List (Call V)) V) :
    ∀ k, (((DriverOversetGrids.solve_body ops.recording)^[k] s).driver.world.2).map Call.erase
      = s.driver.world.2.map Call.erase ++ (List.replicate k iteration_order).flatten := by
  intro k
  induction k with
  | zero => simp
  | succ j ih =>
    rw [Function.iterate_succ_apply', solve_body_trace_erase, ih, List.replicate_succ',
      List.flatten_append, List.append_assoc]
    simp

theorem solve_init_trace_erase {W V : Type} (ops : Collaborators W V)
    (d : Driver (W × List (Call V)) V) :
    ((DriverOversetGrids.solve_init ops.recording d).driver.world.2).map Call.erase
      = d.world.2.map Call.erase ++ initial_order := by
  simp [DriverOversetGrids.solve_init, Collaborators.recording, initial_order, Call.erase]

/-- The trace of `setup`: the seven calls the recording collaborators append. -/
theorem setup_trace {W V : Type} (ops : Collaborators W V) (w : W) (trace : List (Call V)) :
    (DriverOversetGrids.setup ops.recording (w, trace)).world.2
      = trace ++
        [ Call.application_setup,
          Call.poisson_setup Domain.first,
          Call.poisson_setup Domain.second,
          Call.make_shared Coupling.first_to_second,
          Call.interface_coupling_setup Coupling.first_to_second
            { interface_data_dst := Domain.second
              dof_handler_src := Domain.first
              mapping_src := Domain.first
              marked_vertices := []
              tolerance := Double.round (1 / 10 ^ 8) },
          Call.make_shared Coupling.second_to_first,
          Call.interface_coupling_setup Coupling.second_to_first
            { interface_data_dst := Domain.first
              dof_handler_src := Domain.second
              mapping_src := Domain.second
              marked_vertices := []
              tolerance := Double.round (1 / 10 ^ 8) } ] := by
  simp [DriverOversetGrids.setup, Collaborators.recording]

/-- The `InterfaceCoupling::setup` calls in the trace of `setup`. -/
theorem setup_trace_coupling_setup {W V : Type} (ops : Collaborators W V) (w : W) (c : Coupling)
    (a : InterfaceCoupling)
    (hmem : Call.interface_coupling_setup c a
      ∈ (DriverOversetGrids.setup ops.recording (w, ([] : List (Call V)))).world.2) :
    (c = Coupling.first_to_second
        ∧ a = { interface_data_dst := Domain.second
                dof_handler_src := Domain.first
                mapping_src := Domain.first
                marked_vertices := []
                tolerance := Double.round (1 / 10 ^ 8) })
      ∨ (c = Coupling.second_to_first
        ∧ a = { interface_data_dst := Domain.first
                dof_handler_src := Domain.second
                mapping_src := Domain.second
                marked_vertices := []
                tolerance := Double.round (1 / 10 ^ 8) }) := by
  rw [setup_trace] at hmem
  simp only [List.nil_append, List.mem_cons, List.mem_singleton, List.not_mem_nil,
    Call.interface_coupling_setup.injEq, or_false, false_or, reduceCtorEq] at hmem
  exact hmem

/-- With at least 11 passes allowed, `solve` on the recording collaborators returns, and its
trace is the calls before the loop followed by eleven blocks in the order of a pass. -/
theorem solve_trace_erase {W V : Type} (ops : Collaborators W V)
    (d : Driver (W × List (Call V)) V) (fuel : Nat) (h : 11 ≤ fuel) :
    ∃ s, DriverOversetGrids.solve ops.recording fuel d = some s
      ∧ s.driver.world.2.map Call.erase
          = d.world.2.map Call.erase ++ initial_order
              ++ (List.replicate 11 iteration_order).flatten := by
  refine ⟨_, solve_loop_from ops.recording d 11 (le_refl _) fuel h, ?_⟩
  rw [solve_passes_trace_erase, solve_init_trace_erase]

/-! ### Claims on `DriverOversetGrids` -/

/-- C4: `solve` terminates for every input after exactly 11 passes through its loop: with at
least 11 passes allowed it returns the state after 11 passes, in which `iter = 11` and
`converged` holds; after every smaller number `k` of passes `iter = k` and `converged` does not
hold, and `k` passes are not enough for `solve` to return. This is so for all collaborators,
hence for all solution vectors they return. -/
theorem solve_terminates_after_eleven_iterations {W V : Type} (ops : Collaborators W V)
    (d : Driver W V) (fuel : Nat) (h : 11 ≤ fuel) :
    DriverOversetGrids.solve ops fuel d
        = some ((DriverOversetGrids.solve_body ops)^[11] (DriverOversetGrids.solve_init ops d))
      ∧ ((DriverOversetGrids.solve_body ops)^[11] (DriverOversetGrids.solve_init ops d)).iter = 11
      ∧ ((DriverOversetGrids.solve_body ops)^[11]
          (DriverOversetGrids.solve_init ops d)).converged = true
      ∧ ∀ k, k < 11 →
          ((DriverOversetGrids.solve_body ops)^[k] (DriverOversetGrids.solve_init ops d)).iter = k
          ∧ ((DriverOversetGrids.solve_body ops)^[k]
              (DriverOversetGrids.solve_init ops d)).converged = false
          ∧ DriverOversetGrids.solve ops k d = none := by
  refine ⟨?_, (solve_passes_iter ops d 11 (le_refl _)).1, solve_passes_converged ops d, ?_⟩
  · exact solve_loop_from ops d 11 (le_refl _) fuel h
  · intro k hk
    exact ⟨(solve_passes_iter ops d k (by omega)).1,
      solve_passes_not_converged ops d k (by omega),
      solve_loop_short ops d 11 (le_refl _) k hk⟩

/-- Witness of C4: on the sample collaborators with 11 passes allowed, `solve` returns with
`iter = 11`. -/
theorem solve_terminates_after_eleven_iterations_witness :
    (11 ≤ 11)
      ∧ (DriverOversetGrids.solve sample_collaborators 11
          (DriverOversetGrids.setup sample_collaborators 0)).map (fun s => s.iter) = some 11 := by
  have h := solve_terminates_after_eleven_iterations sample_collaborators
    (DriverOversetGrids.setup sample_collaborators 0) 11 (le_refl _)
  refine ⟨le_refl _, ?_⟩
  rw [h.1, Option.map_some', h.2.1]

/-- C5: in every pass through the loop of `solve` the collaborators are called in this order:
`rhs` and `solve` on domain 1, `first_to_second->update_data`, `rhs` and `solve` on domain 2,
`second_to_first->update_data`, postprocessing of domain 1 and of domain 2; each of the two
`update_data` transfers is called exactly once in a pass; and `solve`, with at least 11 passes
allowed, returns after the calls before its loop and eleven such blocks. The calls are those the
collaborators record when the driver runs on them. -/
theorem solve_iteration_order {W V : Type} (ops : Collaborators W V)
    (s : SolveState (W × List (Call V)) V) (d : Driver (W × List (Call V)) V) (fuel : Nat)
    (h : 11 ≤ fuel) :
    ((DriverOversetGrids.solve_body ops.recording s).driver.world.2).map Call.erase
        = s.driver.world.2.map Call.erase ++
          [ Call.rhs Domain.first (),
            Call.solve Domain.first () (),
            Call.update_data Coupling.first_to_second (),
            Call.rhs Domain.second (),
            Call.solve Domain.second () (),
            Call.update_data Coupling.second_to_first (),
            Call.do_postprocessing Domain.first (),
            Call.do_postprocessing Domain.second () ]
      ∧ (DriverOversetGrids.solve_body ops.recording s).driver.world.2.countP
            (Call.is_update_data Coupling.first_to_second)
          = s.driver.world.2.countP (Call.is_update_data Coupling.first_to_second) + 1
      ∧ (DriverOversetGrids.solve_body ops.recording s).driver.world.2.countP
            (Call.is_update_data Coupling.second_to_first)
          = s.driver.world.2.countP (Call.is_update_data Coupling.second_to_first) + 1
      ∧ ∃ final, DriverOversetGrids.solve ops.recording fuel d = some final
          ∧ final.driver.world.2.map Call.erase
              = d.world.2.map Call.erase ++ initial_order
                  ++ (List.replicate 11 iteration_order).flatten := by
  refine ⟨solve_body_trace_erase ops s, ?_, ?_, solve_trace_erase ops d fuel h⟩
  · rw [solve_body_trace, List.countP_append]
    simp [List.countP_cons, Call.is_update_data]
  · rw [solve_body_trace, List.countP_append]
    simp [List.countP_cons, Call.is_update_data]

/-- Witness of C5: on the sample collaborators, started with an empty trace and 11 passes
allowed, `solve` returns and its trace is the calls before the loop and eleven blocks in the
order of a pass. -/
theorem solve_iteration_order_witness :
    (11 ≤ 11)
      ∧ ∃ final, DriverOversetGrids.solve sample_collaborators.recording 11 { world := (0, []) }
            = some final
          ∧ final.driver.world.2.map Call.erase
              = initial_order ++ (List.replicate 11 iteration_order).flatten := by
  have h := solve_iteration_order sample_collaborators
    (DriverOversetGrids.solve_init sample_collaborators.recording { world := (0, []) })
    { world := (0, []) } 11 (le_refl _)
  obtain ⟨final, hfinal, htrace⟩ := h.2.2.2
  exact ⟨le_refl _, final, hfinal, by rw [htrace]; rfl⟩

/-- C6: the couplings are paired consistently. In the trace of `setup`, the
`InterfaceCoupling::setup` call on `first_to_second` receives domain 2's interface data as
destination and domain 1's DoF handler and mapping as source, the one on `second_to_first`
domain 1's interface data and domain 2's DoF handler and mapping, and both calls occur. In the
trace of every pass of `solve`, `first_to_second->update_data` receives the vector the domain-1
`solve` has just returned and `second_to_first->update_data` the vector the domain-2 `solve` has
just returned. -/
theorem couplings_paired_consistently {W V : Type} (ops : Collaborators W V) (w : W)
    (s : SolveState (W × List (Call V)) V) :
    (∀ c a, Call.interface_coupling_setup c a
          ∈ (DriverOversetGrids.setup ops.recording (w, ([] : List (Call V)))).world.2 →
        (c = Coupling.first_to_second ∧ a.interface_data_dst = Domain.second
            ∧ a.dof_handler_src = Domain.first ∧ a.mapping_src = Domain.first)
          ∨ (c = Coupling.second_to_first ∧ a.interface_data_dst = Domain.first
            ∧ a.dof_handler_src = Domain.second ∧ a.mapping_src = Domain.second))
      ∧ (∃ a, Call.interface_coupling_setup Coupling.first_to_second a
          ∈ (DriverOversetGrids.setup ops.recording (w, ([] : List (Call V)))).world.2)
      ∧ (∃ a, Call.interface_coupling_setup Coupling.second_to_first a
          ∈ (DriverOversetGrids.setup ops.recording (w, ([] : List (Call V)))).world.2)
      ∧ (let p1 := ops.rhs Domain.first s.driver.world.1 s.rhs_1
         let q1 := ops.solve Domain.first p1.1 s.sol_1 p1.2
         let w1 := ops.update_data Coupling.first_to_second q1.1 q1.2
         let p2 := ops.rhs Domain.second w1 s.rhs_2
         let q2 := ops.solve Domain.second p2.1 s.sol_2 p2.2
         (DriverOversetGrids.solve_body ops.recording s).driver.world.2
            = s.driver.world.2 ++
              [ Call.rhs Domain.first p1.2,
                Call.solve Domain.first p1.2 q1.2,
                Call.update_data Coupling.first_to_second q1.2,
                Call.rhs Domain.second p2.2,
                Call.solve Domain.second p2.2 q2.2,
                Call.update_data Coupling.second_to_first q2.2,
                Call.do_postprocessing Domain.first q1.2,
                Call.do_postprocessing Domain.second q2.2 ]) := by
  refine ⟨?_, ?_, ?_, ?_⟩
  · intro c a hmem
    rcases setup_trace_coupling_setup ops w c a hmem with ⟨hc, ha⟩ | ⟨hc, ha⟩
    · exact Or.inl ⟨hc, by rw [ha], by rw [ha], by rw [ha]⟩
    · exact Or.inr ⟨hc, by rw [ha], by rw [ha], by rw [ha]⟩
  · rw [setup_trace]
    exact ⟨⟨Domain.second, Domain.first, Domain.first, [], Double.round (1 / 10 ^ 8)⟩, by simp⟩
  · rw [setup_trace]
    exact ⟨⟨Domain.first, Domain.second, Domain.second, [], Double.round (1 / 10 ^ 8)⟩, by simp⟩
  · simp [DriverOversetGrids.solve_body, Collaborators.recording]

/-- C7: `setup` builds both interface couplings with the geometric tolerance `1.e-8` and with an
empty set of marked vertices: every `InterfaceCoupling::setup` call in the trace of `setup`
receives the `double` of the literal `1.e-8` as tolerance and no marked vertices, and there is
such a call on `first_to_second` and one on `second_to_first`. -/
theorem setup_tolerance_and_marked_vertices {W V : Type} (ops : Collaborators W V) (w : W) :
    (∀ c a, Call.interface_coupling_setup c a
          ∈ (DriverOversetGrids.setup ops.recording (w, ([] : List (Call V)))).world.2 →
        a.tolerance = Double.round (1 / 10 ^ 8) ∧ a.marked_vertices = [])
      ∧ (∃ a, Call.interface_coupling_setup Coupling.first_to_second a
          ∈ (DriverOversetGrids.setup ops.recording (w, ([] : List (Call V)))).world.2)
      ∧ (∃ a, Call.interface_coupling_setup Coupling.second_to_first a
          ∈ (DriverOversetGrids.setup ops.recording (w, ([] : List (Call V)))).world.2) := by
  refine ⟨?_, ?_, ?_⟩
  · intro c a hmem
    rcases setup_trace_coupling_setup ops w c a hmem with ⟨_, ha⟩ | ⟨_, ha⟩
    · rw [ha]; exact ⟨rfl, rfl⟩
    · rw [ha]; exact ⟨rfl, rfl⟩
  · rw [setup_trace]
    exact ⟨⟨Domain.second, Domain.first, Domain.first, [], Double.round (1 / 10 ^ 8)⟩, by simp⟩
  · rw [setup_trace]
    exact ⟨⟨Domain.first, Domain.second, Domain.second, [], Double.round (1 / 10 ^ 8)⟩, by simp⟩

/-- C8: the interface map is built once and not rebuilt: the trace of `setup` has exactly one
`InterfaceCoupling::setup` call for each of the two coupling objects, and after any number of
passes of `solve` the calls made since its start contain no `InterfaceCoupling::setup` and no
assignment of a new object to `first_to_second` or `second_to_first`. -/
theorem interface_map_built_once {W V : Type} (ops : Collaborators W V) (w : W)
    (d : Driver (W × List (Call V)) V) (k : Nat) :
    (DriverOversetGrids.setup ops.recording (w, ([] : List (Call V)))).world.2.countP
        (Call.is_coupling_setup Coupling.first_to_second) = 1
      ∧ (DriverOversetGrids.setup ops.recording (w, ([] : List (Call V)))).world.2.countP
        (Call.is_coupling_setup Coupling.second_to_first) = 1
      ∧ ∃ added : List (Call Unit),
          (((DriverOversetGrids.solve_body ops.recording)^[k]
            (DriverOversetGrids.solve_init ops.recording d)).driver.world.2).map Call.erase
              = d.world.2.map Call.erase ++ added
          ∧ ∀ x, x ∈ added →
              Call.is_coupling_setup Coupling.first_to_second x = false
              ∧ Call.is_coupling_setup Coupling.second_to_first x = false
              ∧ Call.is_make_shared x = false := by
  refine ⟨?_, ?_, ?_⟩
  · rw [setup_trace]
    simp [List.countP_cons, Call.is_coupling_setup]
  · rw [setup_trace]
    simp [List.countP_cons, Call.is_coupling_setup]
  · refine ⟨initial_order ++ (List.replicate k iteration_order).flatten, ?_, ?_⟩
    · rw [solve_passes_trace_erase, solve_init_trace_erase, List.append_assoc]
    · intro x hx
      rw [List.mem_append] at hx
      rcases hx with hx | hx
      · simp [initial_order] at hx
        rcases hx with rfl | rfl | rfl | rfl | rfl | rfl <;> exact ⟨rfl, rfl, rfl⟩
      · rw [List.mem_flatten] at hx
        obtain ⟨l, hl, hxl⟩ := hx
        have hl2 := List.eq_of_mem_replicate hl
        subst hl2
        simp [iteration_order] at hxl
        rcases hxl with rfl | rfl | rfl | rfl | rfl | rfl | rfl | rfl <;>
          exact ⟨rfl, rfl, rfl⟩

/-! ### Helper lemmas on `RHSOperator` -/

theorem forLoop_induction {σ : Type} (P : σ → Prop) (n : Nat) (body : Nat → σ → σ) (init : σ)
    (h0 : P init) (hstep : ∀ i s, P s → P (body i s)) : P (forLoop n body init) := by
  induction n with
  | zero => rw [forLoop_zero]; exact h0
  | succ k ih => rw [forLoop_succ]; exact hstep k _ ih

theorem foldl_induction {σ β : Type} (P : σ → Prop) (f : σ → β → σ) (l : List β) :
    ∀ init, P init → (∀ s x, P s → P (f s x)) → P (l.foldl f init) := by
  induction l with
  | nil => intro init h0 _; exact h0
  | cons x xs ih => intro init h0 hstep; exact ih (f init x) (hstep init x h0) hstep

theorem add_at_length {α : Type} [Add α] (dst : List α) (i : Nat) (v : α) :
    (add_at dst i v).length = dst.length := by
  unfold add_at
  split
  · exact List.length_set _ _ _
  · rfl

theorem distribute_local_to_global_length {α : Type} [Add α] (mf : MatrixFree α)
    (integrator : IntegratorCell α) (dst : List α) :
    (integrator.distribute_local_to_global mf dst).length = dst.length := by
  unfold IntegratorCell.distribute_local_to_global
  exact foldl_induction (fun l => l.length = dst.length) _ _ dst rfl
    (fun s (x : Nat × α) hs => (add_at_length s x.1 x.2).trans hs)

theorem cell_loop_length {α : Type} [Zero α] [Add α] (op : RHSOperator α) (dst : List α)
    (cell_range : Nat × Nat) : (op.cell_loop dst cell_range).length = dst.length := by
  unfold RHSOperator.cell_loop
  exact forLoop_induction (fun (state : IntegratorCell α × List α) => state.2.length = dst.length)
    _ _ _ rfl
    (fun i s hs => (distribute_local_to_global_length op.matrix_free _ s.2).trans hs)

theorem evaluate_add_length {α : Type} [Zero α] [Add α] (op : RHSOperator α) (dst : List α)
    (t : ℚ) : (op.evaluate_add dst t).2.length = dst.length := by
  unfold RHSOperator.evaluate_add
  exact foldl_induction (fun l => l.length = dst.length) _ _ dst rfl
    (fun s x hs => (cell_loop_length _ s x).trans hs)

theorem evaluate_eq_evaluate_add_zero {α : Type} [Zero α] [Add α] (op : RHSOperator α)
    (dst : List α) (t : ℚ) :
    op.evaluate dst t = op.evaluate_add (List.replicate dst.length 0) t := by
  unfold RHSOperator.evaluate
  have h : dst.map (fun _ => (0 : α)) = List.replicate dst.length 0 := by
    induction dst with
    | nil => rfl
    | cons x xs ih => simp [List.replicate_succ, ih]
  simp only [h]

/-- `evaluate_add` overwrites `time` before using it, so the old `time` has no effect. -/
theorem evaluate_add_time {α : Type} [Zero α] [Add α] (op : RHSOperator α) (dst : List α)
    (t : ℚ) : (op.evaluate_add dst t).1.evaluate_add dst t = op.evaluate_add dst t := rfl

theorem evaluate_add_time_any {α : Type} [Zero α] [Add α] (op : RHSOperator α)
    (dst dst2 : List α) (t : ℚ) :
    (op.evaluate_add dst t).1.evaluate_add dst2 t = op.evaluate_add dst2 t := rfl

/-- Running `evaluate` on what `evaluate` left behind changes nothing. -/
theorem evaluate_idempotent {α : Type} [Zero α] [Add α] (op : RHSOperator α) (dst : List α)
    (t : ℚ) : (op.evaluate dst t).1.evaluate (op.evaluate dst t).2 t = op.evaluate dst t := by
  rw [evaluate_eq_evaluate_add_zero (op.evaluate dst t).1]
  have hlen : (op.evaluate dst t).2.length = dst.length := by
    rw [evaluate_eq_evaluate_add_zero]
    exact (evaluate_add_length op _ t).trans (List.length_replicate _ _)
  rw [hlen]
  rw [evaluate_eq_evaluate_add_zero op dst t]
  exact evaluate_add_time_any op _ _ t

theorem evaluate_repeated {α : Type} [Zero α] [Add α] (op : RHSOperator α) (dst : List α)
    (t : ℚ) (n : Nat) :
    (fun (p : RHSOperator α × List α) => p.1.evaluate p.2 t)^[n + 1] (op, dst)
      = op.evaluate dst t := by
  induction n with
  | zero => rfl
  | succ k ih =>
    rw [Function.iterate_succ_apply', ih]
    exact evaluate_idempotent op dst t

/-! ### Claim on `RHSOperator::evaluate` -/

/-- C9: `evaluate` is a non-accumulating operator: for every time `t` and every two initial
contents of `dst` (of one size) it leaves the same vector in `dst`, namely what `evaluate_add`
leaves when applied to the zero vector; and `evaluate(dst, t)` repeated any number `n + 1` of
times on the same operator and vector leaves what the first call left. -/
theorem evaluate_non_accumulating {α : Type} [Zero α] [Add α] (op : RHSOperator α)
    (dst dst2 : List α) (t : ℚ) (n : Nat) (hlen : dst.length = dst2.length) :
    (op.evaluate dst t).2 = (op.evaluate dst2 t).2
      ∧ (op.evaluate dst t).2 = (op.evaluate_add (List.replicate dst.length 0) t).2
      ∧ ((fun (p : RHSOperator α × List α) => p.1.evaluate p.2 t)^[n + 1] (op, dst)).2
          = (op.evaluate dst t).2 := by
  refine ⟨?_, ?_, ?_⟩
  · rw [evaluate_eq_evaluate_add_zero op dst, evaluate_eq_evaluate_add_zero op dst2, hlen]
  · rw [evaluate_eq_evaluate_add_zero op dst]
  · rw [evaluate_repeated]

/-- Witness of C9: on the sample operator at time 3, `evaluate` leaves `[3, 4, 4, 5]` in `dst`
whether `dst` held `[5, 5, 5, 5]` or `[1, 2, 3, 4]`, and still after three calls. -/
theorem evaluate_non_accumulating_witness :
    (sample_rhs_operator.evaluate [5, 5, 5, 5] 3).2 = [3, 4, 4, 5]
      ∧ (sample_rhs_operator.evaluate [1, 2, 3, 4] 3).2 = [3, 4, 4, 5]
      ∧ ((fun (p : RHSOperator Int × List Int) => p.1.evaluate p.2 3)^[2 + 1]
          (sample_rhs_operator, [5, 5, 5, 5])).2 = [3, 4, 4, 5] := by
  have h := evaluate_non_accumulating sample_rhs_operator [5, 5, 5, 5] [1, 2, 3, 4] 3 2 rfl
  have h0 : (sample_rhs_operator.evaluate [5, 5, 5, 5] 3).2 = [3, 4, 4, 5] := by decide
  exact ⟨h0, h.1.symm.trans h0, h.2.2.trans h0⟩

/-! ### Claim on the quadrature for the convective term -/

theorem quadratures_eq (fe_degree fe_degree_p n_q_points_1d_xwall : Int) :
    quadratures fe_degree fe_degree_p n_q_points_1d_xwall
      = [fe_degree + 1, fe_degree_p + 1, fe_degree + Int.tdiv (fe_degree + 2) 2,
          n_q_points_1d_xwall] := rfl

/-- C11, as stated, fails: for `fe_degree = 1` the `velocity_nonlinear` rule has
`1 + (1+2)/2 = 2` points, as many as the `velocity` rule with `1 + 1 = 2`, not more. -/
theorem velocity_nonlinear_not_more_points_at_degree_one :
    (1 : Int) ≥ 1
      ∧ (quadratures 1 1 1)[QuadratureSelector.velocity_nonlinear.underlying]? = some 2
      ∧ (quadratures 1 1 1)[QuadratureSelector.velocity.underlying]? = some 2
      ∧ ¬ ((1 : Int) + Int.tdiv (1 + 2) 2 > 1 + 1) := by
  decide

/-- C11, amended: for every `fe_degree >= 0` the `velocity_nonlinear` rule registered in
`setup` has `fe_degree + (fe_degree+2)/2` points and the `velocity` rule `fe_degree + 1`; the
first is never less than the second, and it is strictly more exactly when `fe_degree >= 2`. -/
theorem velocity_nonlinear_more_points (fe_degree fe_degree_p n_q_points_1d_xwall : Int)
    (h : 0 ≤ fe_degree) :
    (quadratures fe_degree fe_degree_p
        n_q_points_1d_xwall)[QuadratureSelector.velocity_nonlinear.underlying]?
        = some (fe_degree + Int.tdiv (fe_degree + 2) 2)
      ∧ (quadratures fe_degree fe_degree_p
          n_q_points_1d_xwall)[QuadratureSelector.velocity.underlying]? = some (fe_degree + 1)
      ∧ fe_degree + Int.tdiv (fe_degree + 2) 2 ≥ fe_degree + 1
      ∧ (fe_degree + Int.tdiv (fe_degree + 2) 2 > fe_degree + 1 ↔ 2 ≤ fe_degree) := by
  have hdiv : Int.tdiv (fe_degree + 2) 2 = (fe_degree + 2) / 2 :=
    Int.tdiv_eq_ediv (by omega) (by omega)
  refine ⟨rfl, rfl, ?_, ?_⟩
  · rw [hdiv]; omega
  · rw [hdiv]; omega

/-- Witness of the amended C11: for `fe_degree = 2` the rules have 4 and 3 points. -/
theorem velocity_nonlinear_more_points_witness :
    (quadratures 2 1 1)[QuadratureSelector.velocity_nonlinear.underlying]? = some 4
      ∧ (quadratures 2 1 1)[QuadratureSelector.velocity.underlying]? = some 3
      ∧ ((2 : Int) + Int.tdiv (2 + 2) 2 > 2 + 1) := by
  have h := velocity_nonlinear_more_points 2 1 1 (by decide)
  exact ⟨h.1, h.2.1, h.2.2.2.2 (le_refl _)⟩

/-! ### Claims on the operator dispatch and on `enum_to_string` -/

theorem apply_operator_calls_of_dispatch (n_inner n_outer : Nat) (OPERATOR : Operator)
    (c : EngineCall) (h : operator_dispatch OPERATOR = Except.ok c) :
    apply_operator_calls n_inner n_outer OPERATOR
      = Except.ok (List.replicate (n_outer * n_inner) c) := by
  have hinner : ∀ (k : Nat) (l : List EngineCall),
      forLoop k
        (fun _ (calls : Except String (List EngineCall)) =>
          match calls with
          | Except.error e => Except.error e
          | Except.ok l =>
            match operator_dispatch OPERATOR with
            | Except.error e => Except.error e
            | Except.ok c => Except.ok (l ++ [c]))
        (Except.ok l) = Except.ok (l ++ List.replicate k c) := by
    intro k
    induction k with
    | zero => intro l; simp [forLoop_zero]
    | succ j ih =>
      intro l
      rw [forLoop_succ, ih, h]
      simp [List.replicate_succ', List.append_assoc]
  unfold apply_operator_calls
  induction n_outer with
  | zero => simp [forLoop_zero]
  | succ j ih =>
    rw [forLoop_succ, ih, hinner, ← List.replicate_add, Nat.succ_mul]

/-- C14: the operator dispatch of `apply_operator` is total: each of the seven values of
`Operator` selects one operation (the one listed), so the two nested loops apply it
`n_outer * n_inner` times and the `Specified operator type not implemented` exception is never
thrown; and `dst.sadd(2.0, 1.0, src)` is `dst = 2*dst + src`. -/
theorem operator_dispatch_total (OPERATOR : Operator) (n_inner n_outer : Nat)
    (dst src : List ℚ) :
    operator_dispatch Operator.ConvectiveTerm
        = Except.ok (EngineCall.evaluate_convective Buffer.dst Buffer.src 0)
      ∧ operator_dispatch Operator.ViscousTerm
        = Except.ok (EngineCall.evaluate_viscous Buffer.dst Buffer.src 0)
      ∧ operator_dispatch Operator.ViscousAndConvectiveTerms
        = Except.ok (EngineCall.evaluate_convective_and_viscous Buffer.dst Buffer.src 0)
      ∧ operator_dispatch Operator.InverseMassMatrix
        = Except.ok (EngineCall.apply_inverse_mass Buffer.dst Buffer.src)
      ∧ operator_dispatch Operator.InverseMassMatrixDstDst
        = Except.ok (EngineCall.apply_inverse_mass Buffer.dst Buffer.dst)
      ∧ operator_dispatch Operator.VectorUpdate
        = Except.ok (EngineCall.sadd Buffer.dst 2 1 Buffer.src)
      ∧ operator_dispatch Operator.EvaluateOperatorExplicit
        = Except.ok (EngineCall.evaluate Buffer.dst Buffer.src 0)
      ∧ (∃ c, operator_dispatch OPERATOR = Except.ok c
          ∧ apply_operator_calls n_inner n_outer OPERATOR
            = Except.ok (List.replicate (n_outer * n_inner) c))
      ∧ sadd 2 1 dst src = List.zipWith (fun d s => 2 * d + s) dst src := by
  refine ⟨rfl, rfl, rfl, rfl, rfl, rfl, rfl, ?_, ?_⟩
  · cases OPERATOR
    all_goals exact ⟨_, rfl, apply_operator_calls_of_dispatch n_inner n_outer _ _ rfl⟩
  · unfold sadd
    congr 1
    funext d s
    ring

/-- C15: every `enum_to_string` overload returns the identifier of each declared enumerator, so
never throws `Not implemented.` for one, and maps different enumerators to different strings. -/
theorem enum_to_string_names_injective :
    (CFLConditionType.VelocityNorm.enum_to_string = Except.ok "VelocityNorm"
      ∧ CFLConditionType.VelocityComponents.enum_to_string = Except.ok "VelocityComponents")
    ∧ (GenAlphaType.Newmark.enum_to_string = Except.ok "Newmark"
      ∧ GenAlphaType.GenAlpha.enum_to_string = Except.ok "GenAlpha"
      ∧ GenAlphaType.HHTAlpha.enum_to_string = Except.ok "HHTAlpha"
      ∧ GenAlphaType.BossakAlpha.enum_to_string = Except.ok "BossakAlpha")
    ∧ (Operator.ConvectiveTerm.enum_to_string = Except.ok "ConvectiveTerm"
      ∧ Operator.ViscousTerm.enum_to_string = Except.ok "ViscousTerm"
      ∧ Operator.ViscousAndConvectiveTerms.enum_to_string
        = Except.ok "ViscousAndConvectiveTerms"
      ∧ Operator.InverseMassMatrix.enum_to_string = Except.ok "InverseMassMatrix"
      ∧ Operator.InverseMassMatrixDstDst.enum_to_string = Except.ok "InverseMassMatrixDstDst"
      ∧ Operator.VectorUpdate.enum_to_string = Except.ok "VectorUpdate"
      ∧ Operator.EvaluateOperatorExplicit.enum_to_string
        = Except.ok "EvaluateOperatorExplicit")
    ∧ (∀ a b : CFLConditionType, a.enum_to_string = b.enum_to_string → a = b)
    ∧ (∀ a b : GenAlphaType, a.enum_to_string = b.enum_to_string → a = b)
    ∧ (∀ a b : Operator, a.enum_to_string = b.enum_to_string → a = b) := by
  refine ⟨⟨rfl, rfl⟩, ⟨rfl, rfl, rfl, rfl⟩, ⟨rfl, rfl, rfl, rfl, rfl, rfl, rfl⟩, ?_, ?_, ?_⟩
  · intro a b h
    cases a <;> cases b <;> first | rfl | (simp [CFLConditionType.enum_to_string] at h)
  · intro a b h
    cases a <;> cases b <;> first | rfl | (simp [GenAlphaType.enum_to_string] at h)
  · intro a b h
    cases a <;> cases b <;> first | rfl | (simp [Operator.enum_to_string] at h)

/-! ### Helper lemmas on tables -/

theorem Table.reinit_fill_length {T : Type} (table : Table T) (n_rows n_cols : Nat)
    (value c : T) : ((table.reinit n_rows n_cols value).fill c).length = n_rows := by
  simp [Table.reinit, Table.fill]

theorem Table.reinit_fill_row_length {T : Type} (table : Table T) (n_rows n_cols : Nat)
    (value c : T) (row : List T) (h : row ∈ (table.reinit n_rows n_cols value).fill c) :
    row.length = n_cols := by
  simp only [Table.reinit, Table.fill, List.map_replicate, List.mem_replicate] at h
  rw [h.2]
  simp

theorem Table.reinit_fill_get {T : Type} (table : Table T) (n_rows n_cols : Nat)
    (value c : T) (i j : Nat) (hi : i < n_rows) (hj : j < n_cols) :
    ((table.reinit n_rows n_cols value).fill c).get i j = some c := by
  simp [Table.reinit, Table.fill, Table.get, List.getElem?_replicate, hi, hj]

theorem getElem?_some_lt {T : Type} (l : List T) (n : Nat) (x : T) (h : l[n]? = some x) :
    n < l.length := by
  obtain ⟨hlt, _⟩ := List.getElem?_eq_some.1 h
  exact hlt

theorem Table.get_set_same {T : Type} (table : Table T) (i j : Nat) (value : T)
    (h : (table.get i j).isSome = true) : (table.set i j value).get i j = some value := by
  unfold Table.get at h
  unfold Table.set Table.get
  cases hrow : table[i]? with
  | none => rw [hrow] at h; exact absurd h (by simp)
  | some row =>
    rw [hrow] at h
    have hi : i < table.length := getElem?_some_lt table i row hrow
    have hj : j < row.length := by
      cases hx : row[j]? with
      | none =>
        have h2 : (row[j]?).isSome = true := h
        rw [hx] at h2
        exact absurd h2 (by simp)
      | some x => exact getElem?_some_lt row j x hx
    simp [List.getElem?_set, hi, hj]

theorem Table.get_set_other {T : Type} (table : Table T) (i j i2 j2 : Nat) (value : T)
    (h : i2 ≠ i ∨ j2 ≠ j) : (table.set i j value).get i2 j2 = table.get i2 j2 := by
  unfold Table.set Table.get
  cases hrow : table[i]? with
  | none => rfl
  | some row =>
    by_cases hi : i2 = i
    · subst hi
      have hj : j2 ≠ j := by
        rcases h with h | h
        · exact absurd rfl h
        · exact h
      have hlen : i2 < table.length := getElem?_some_lt table i2 row hrow
      simp [List.getElem?_set, hlen, hrow, Ne.symm hj]
    · simp [List.getElem?_set, Ne.symm hi]

theorem pow_unsigned_eq (degree dim : Nat) (h : (degree + 1) ^ dim < 2 ^ 32) (hdim : 1 ≤ dim) :
    pow_unsigned ((degree + 1) % 2 ^ 32) dim = (degree + 1) ^ dim
      ∧ pow_unsigned ((degree + 1) % 2 ^ 32) (dim - 1) = (degree + 1) ^ (dim - 1) := by
  have hbase : degree + 1 < 2 ^ 32 := by
    calc degree + 1 = (degree + 1) ^ 1 := (pow_one _).symm
      _ ≤ (degree + 1) ^ dim := Nat.pow_le_pow_right (by omega) hdim
      _ < 2 ^ 32 := h
  have hface : (degree + 1) ^ (dim - 1) < 2 ^ 32 :=
    lt_of_le_of_lt (Nat.pow_le_pow_right (by omega) (Nat.sub_le _ _)) h
  unfold pow_unsigned
  rw [Nat.mod_eq_of_lt hbase, Nat.mod_eq_of_lt h, Nat.mod_eq_of_lt hface]
  exact ⟨rfl, rfl⟩

/-! ### Claims on `VariableCoefficients` -/

/-- C16: after `VariableCoefficients::initialize(matrix_free, degree, c)` (with `dim >= 1` and
sizes that fit an `unsigned int`) the cell table has `n_cell_batches` rows of `(degree+1)^dim`
entries, the face table `n_inner_face_batches + n_boundary_face_batches` rows and the neighbor
table `n_inner_face_batches` rows of `(degree+1)^(dim-1)` entries, and every in-range getter
returns `c` in every lane, whatever the tables held before; the same holds for the cell table of
`VariableCoefficientsCells`. -/
theorem initialize_fills_tables {Number : Type} [Zero Number] (vc : VariableCoefficients Number)
    (vcc : VariableCoefficientsCells Number) (dim n_lanes : Nat) (matrix_free : BatchCounts)
    (degree : Nat) (c : Number) (hdim : 1 ≤ dim) (hpow : (degree + 1) ^ dim < 2 ^ 32)
    (hfaces : matrix_free.n_inner_face_batches + matrix_free.n_boundary_face_batches < 2 ^ 32) :
    (( vc.initialize dim n_lanes matrix_free degree c).coefficients_cell.length
          = matrix_free.n_cell_batches
        ∧ ∀ row, row ∈ ( vc.initialize dim n_lanes matrix_free degree c).coefficients_cell →
            row.length = (degree + 1) ^ dim)
      ∧ (( vc.initialize dim n_lanes matrix_free degree c).coefficients_face.length
          = matrix_free.n_inner_face_batches + matrix_free.n_boundary_face_batches
        ∧ ∀ row, row ∈ ( vc.initialize dim n_lanes matrix_free degree c).coefficients_face →
            row.length = (degree + 1) ^ (dim - 1))
      ∧ (( vc.initialize dim n_lanes matrix_free degree c).coefficients_face_neighbor.length
          = matrix_free.n_inner_face_batches
        ∧ ∀ row,
            row ∈ ( vc.initialize dim n_lanes matrix_free degree c).coefficients_face_neighbor →
            row.length = (degree + 1) ^ (dim - 1))
      ∧ (∀ cell q, cell < matrix_free.n_cell_batches → q < (degree + 1) ^ dim →
          ( vc.initialize dim n_lanes matrix_free degree c).get_coefficient_cell cell q
            = some (List.replicate n_lanes c))
      ∧ (∀ face q,
          face < matrix_free.n_inner_face_batches + matrix_free.n_boundary_face_batches →
          q < (degree + 1) ^ (dim - 1) →
          ( vc.initialize dim n_lanes matrix_free degree c).get_coefficient_face face q
            = some (List.replicate n_lanes c))
      ∧ (∀ face q, face < matrix_free.n_inner_face_batches → q < (degree + 1) ^ (dim - 1) →
          ( vc.initialize dim n_lanes matrix_free degree c).get_coefficient_face_neighbor face q
            = some (List.replicate n_lanes c))
      ∧ (( vcc.initialize dim n_lanes matrix_free degree c).coefficients_cell.length
          = matrix_free.n_cell_batches
        ∧ (∀ row, row ∈ ( vcc.initialize dim n_lanes matrix_free degree c).coefficients_cell →
            row.length = (degree + 1) ^ dim)
        ∧ ∀ cell q, cell < matrix_free.n_cell_batches → q < (degree + 1) ^ dim →
          ( vcc.initialize dim n_lanes matrix_free degree c).get_coefficient cell q
            = some (List.replicate n_lanes c)) := by
  obtain ⟨hcell, hface⟩ := pow_unsigned_eq degree dim hpow hdim
  have hsum := Nat.mod_eq_of_lt hfaces
  unfold VariableCoefficients.get_coefficient_cell VariableCoefficients.get_coefficient_face
    VariableCoefficients.get_coefficient_face_neighbor VariableCoefficientsCells.get_coefficient
    VariableCoefficients.initialize VariableCoefficientsCells.initialize make_vectorized_array
  simp only [hcell, hface, hsum]
  refine ⟨⟨?_, ?_⟩, ⟨?_, ?_⟩, ⟨?_, ?_⟩, ?_, ?_, ?_, ?_, ?_, ?_⟩
  · exact Table.reinit_fill_length _ _ _ _ _
  · exact fun row h => Table.reinit_fill_row_length _ _ _ _ _ row h
  · exact Table.reinit_fill_length _ _ _ _ _
  · exact fun row h => Table.reinit_fill_row_length _ _ _ _ _ row h
  · exact Table.reinit_fill_length _ _ _ _ _
  · exact fun row h => Table.reinit_fill_row_length _ _ _ _ _ row h
  · exact fun i j hi hj => Table.reinit_fill_get _ _ _ _ _ i j hi hj
  · exact fun i j hi hj => Table.reinit_fill_get _ _ _ _ _ i j hi hj
  · exact fun i j hi hj => Table.reinit_fill_get _ _ _ _ _ i j hi hj
  · exact Table.reinit_fill_length _ _ _ _ _
  · exact fun row h => Table.reinit_fill_row_length _ _ _ _ _ row h
  · exact fun i j hi hj => Table.reinit_fill_get _ _ _ _ _ i j hi hj

/-- Witness of C16: `dim = 2`, `degree = 1`, two lanes, 2 cell batches, 1 inner and 1 boundary
face batch, `c = 7`, on the sample tables: the cell table becomes 2 rows of 4 entries `[7, 7]`,
the face table 2 rows of 2 entries, the neighbor table 1 row of 2 entries. -/
theorem initialize_fills_tables_witness :
    ( sample_variable_coefficients.initialize 2 2 ⟨2, 1, 1⟩ 1 7).coefficients_cell
        = [[[7, 7], [7, 7], [7, 7], [7, 7]], [[7, 7], [7, 7], [7, 7], [7, 7]]]
      ∧ ( sample_variable_coefficients.initialize 2 2 ⟨2, 1, 1⟩ 1 7).coefficients_face
        = [[[7, 7], [7, 7]], [[7, 7], [7, 7]]]
      ∧ ( sample_variable_coefficients.initialize 2 2 ⟨2, 1, 1⟩ 1 7).coefficients_face_neighbor
        = [[[7, 7], [7, 7]]]
      ∧ ( sample_variable_coefficients.initialize 2 2 ⟨2, 1, 1⟩ 1 7).get_coefficient_cell 1 3
        = some [7, 7] := by
  have h := initialize_fills_tables sample_variable_coefficients ⟨[]⟩ 2 2 ⟨2, 1, 1⟩ 1 7
    (by decide) (by decide) (by decide)
  exact ⟨by decide, by decide, by decide, h.2.2.2.1 1 3 (by decide) (by decide)⟩

/-- C17: each setter of `VariableCoefficients` changes exactly the addressed entry of its own
table. For every `(i, q)` that is in range for the cell table and every value `v`, after
`set_coefficient_cell(i, q, v)` the getter returns `v` at `(i, q)`, every other cell entry is as
before and the face and neighbor tables are as before; the same holds for `set_coefficient_face`
with every `(i, q)` in range for the face table, for `set_coefficient_face_neighbor` with every
`(i, q)` in range for the neighbor table, and for `VariableCoefficientsCells::set_coefficient`.
Each setter needs only its own table to hold the entry. -/
theorem setters_change_one_entry {Number : Type} (vc : VariableCoefficients Number)
    (vcc : VariableCoefficientsCells Number) (i q : Nat) (v : List Number) :
    ((vc.get_coefficient_cell i q).isSome = true →
        (vc.set_coefficient_cell i q v).get_coefficient_cell i q = some v
          ∧ (∀ i2 q2, i2 ≠ i ∨ q2 ≠ q →
              (vc.set_coefficient_cell i q v).get_coefficient_cell i2 q2
                = vc.get_coefficient_cell i2 q2)
          ∧ (vc.set_coefficient_cell i q v).coefficients_face = vc.coefficients_face
          ∧ (vc.set_coefficient_cell i q v).coefficients_face_neighbor
              = vc.coefficients_face_neighbor)
      ∧ ((vc.get_coefficient_face i q).isSome = true →
        (vc.set_coefficient_face i q v).get_coefficient_face i q = some v
          ∧ (∀ i2 q2, i2 ≠ i ∨ q2 ≠ q →
              (vc.set_coefficient_face i q v).get_coefficient_face i2 q2
                = vc.get_coefficient_face i2 q2)
          ∧ (vc.set_coefficient_face i q v).coefficients_cell = vc.coefficients_cell
          ∧ (vc.set_coefficient_face i q v).coefficients_face_neighbor
              = vc.coefficients_face_neighbor)
      ∧ ((vc.get_coefficient_face_neighbor i q).isSome = true →
        (vc.set_coefficient_face_neighbor i q v).get_coefficient_face_neighbor i q = some v
          ∧ (∀ i2 q2, i2 ≠ i ∨ q2 ≠ q →
              (vc.set_coefficient_face_neighbor i q v).get_coefficient_face_neighbor i2 q2
                = vc.get_coefficient_face_neighbor i2 q2)
          ∧ (vc.set_coefficient_face_neighbor i q v).coefficients_cell = vc.coefficients_cell
          ∧ (vc.set_coefficient_face_neighbor i q v).coefficients_face
              = vc.coefficients_face)
      ∧ ((vcc.get_coefficient i q).isSome = true →
        (vcc.set_coefficient i q v).get_coefficient i q = some v
          ∧ ∀ i2 q2, i2 ≠ i ∨ q2 ≠ q →
              (vcc.set_coefficient i q v).get_coefficient i2 q2 = vcc.get_coefficient i2 q2) :=
  ⟨fun h => ⟨Table.get_set_same _ _ _ _ h, fun i2 q2 h2 => Table.get_set_other _ _ _ i2 q2 _ h2,
      rfl, rfl⟩,
    fun h => ⟨Table.get_set_same _ _ _ _ h, fun i2 q2 h2 => Table.get_set_other _ _ _ i2 q2 _ h2,
      rfl, rfl⟩,
    fun h => ⟨Table.get_set_same _ _ _ _ h, fun i2 q2 h2 => Table.get_set_other _ _ _ i2 q2 _ h2,
      rfl, rfl⟩,
    fun h => ⟨Table.get_set_same _ _ _ _ h, fun i2 q2 h2 => Table.get_set_other _ _ _ i2 q2 _ h2⟩⟩

/-- Witness of C17: on the sample tables, whose face and neighbor tables have the one row 0,
the cell entry `(1, 0)` is in range for the cell table only: setting it to `[0, 0]` makes the
getter return `[0, 0]` there, leaves the entry `(1, 1)` at `[7, 8]` and the face and neighbor
tables as they are; and setting the face entry `(0, 0)` to `[0, 0]` on tables whose neighbor
table is empty changes that face entry and nothing else. -/
theorem setters_change_one_entry_witness :
    (sample_variable_coefficients.get_coefficient_face 1 0).isSome = false
      ∧ (sample_variable_coefficients.set_coefficient_cell 1 0 [0, 0]).get_coefficient_cell 1 0
        = some [0, 0]
      ∧ (sample_variable_coefficients.set_coefficient_cell 1 0 [0, 0]).get_coefficient_cell 1 1
        = some [7, 8]
      ∧ (sample_variable_coefficients.set_coefficient_cell 1 0 [0, 0]).coefficients_cell
        = [[[1, 2], [3, 4]], [[0, 0], [7, 8]]]
      ∧ (sample_variable_coefficients.set_coefficient_cell 1 0 [0, 0]).coefficients_face
        = [[[9, 10]]]
      ∧ (({ coefficients_cell := [], coefficients_face := [[[9, 10]]],
            coefficients_face_neighbor := [] } : VariableCoefficients Int).set_coefficient_face
            0 0 [0, 0]).get_coefficient_face 0 0 = some [0, 0] := by
  have h := setters_change_one_entry sample_variable_coefficients
    ⟨sample_variable_coefficients.coefficients_cell⟩ 1 0 [0, 0]
  have h2 := setters_change_one_entry
    ({ coefficients_cell := [], coefficients_face := [[[9, 10]]],
       coefficients_face_neighbor := [] } : VariableCoefficients Int)
    ⟨[]⟩ 0 0 [0, 0]
  obtain ⟨hv, hother, hface, _⟩ := h.1 (by decide)
  exact ⟨by decide, hv, (hother 1 1 (Or.inr (by decide))).trans (by decide), by decide,
    hface.trans (by decide), (h2.2.1 (by decide)).1⟩

/-! ### Claim on `element_volume` -/

theorem forLoop_induction_indexed {σ : Type} (P : Nat → σ → Prop) (n : Nat)
    (body : Nat → σ → σ) (init : σ) (h0 : P 0 init)
    (hstep : ∀ i s, i < n → P i s → P (i + 1) (body i s)) : P n (forLoop n body init) := by
  induction n with
  | zero => rw [forLoop_zero]; exact h0
  | succ k ih =>
    rw [forLoop_succ]
    exact hstep k _ (Nat.lt_succ_self k)
      (ih (fun i s hi hs => hstep i s (Nat.lt_succ_of_lt hi) hs))

/-- The loop `for q: submit_value(f(q), q)` leaves `f(q)` at every quadrature point, and the
cell and the DoF values read as they are. -/
theorem submit_loop_values {α : Type} (n : Nat) (f : Nat → List α → Nat → List α)
    (velocity : FEEvalVelocity α) (hlen : velocity.values_quad.length = n) :
    (forLoop n
        (fun q (v : FEEvalVelocity α) => v.submit_value (f v.cell v.values_dofs q) q)
        velocity).cell = velocity.cell
      ∧ (forLoop n
          (fun q (v : FEEvalVelocity α) => v.submit_value (f v.cell v.values_dofs q) q)
          velocity).values_dofs = velocity.values_dofs
      ∧ ∀ q, q < n →
          (forLoop n
            (fun q (v : FEEvalVelocity α) => v.submit_value (f v.cell v.values_dofs q) q)
            velocity).values_quad[q]?
            = some (f velocity.cell velocity.values_dofs q) := by
  have h := forLoop_induction_indexed
    (fun k (v : FEEvalVelocity α) => v.cell = velocity.cell
      ∧ v.values_dofs = velocity.values_dofs ∧ v.values_quad.length = n
      ∧ ∀ q, q < k → v.values_quad[q]? = some (f velocity.cell velocity.values_dofs q))
    n
    (fun q (v : FEEvalVelocity α) => v.submit_value (f v.cell v.values_dofs q) q)
    velocity
    ⟨rfl, rfl, hlen, fun q hq => absurd hq (Nat.not_lt_zero q)⟩
    (by
      intro k v hk hv
      obtain ⟨hc, hd, hl, hq⟩ := hv
      refine ⟨hc, hd, ?_, ?_⟩
      · simp [FEEvalVelocity.submit_value, hl]
      · intro q hqk
        simp only [FEEvalVelocity.submit_value, List.getElem?_set, hc, hd]
        by_cases hkq : k = q
        · subst hkq
          simp [hl, hk]
        · rw [if_neg hkq]
          exact hq q (by omega))
  exact ⟨h.1, h.2.1, fun q hq => h.2.2.2 q hq⟩

/-- C19: the tensor submitted at every quadrature point of `local_compute_vorticity` is the curl
embedded in a `dim`-component vector: for `dim = 3` it is `omega` itself, for `dim = 2` it is
`(omega, 0)`; in `local_compute_divergence` it has the divergence in component 0 and zero in
every other component. -/
theorem submitted_vorticity_and_divergence {α : Type} [Zero α] (dim : Nat)
    (data : VelocityMatrixFree α) (velocity : FEEvalVelocity α) (w0 w1 w2 divergence : α)
    (hdim : 1 ≤ dim) (hlen : velocity.values_quad.length = data.n_q_points) :
    omega_vector 3 [w0, w1, w2] = [w0, w1, w2]
      ∧ omega_vector 2 [w0] = [w0, 0]
      ∧ (div_vector dim divergence)[0]? = some divergence
      ∧ (∀ i, 0 < i → i < dim → (div_vector dim divergence)[i]? = some 0)
      ∧ (div_vector dim divergence).length = dim
      ∧ (∀ q, q < data.n_q_points →
          (vorticity_quadrature_loop dim data velocity).values_quad[q]?
            = some (omega_vector dim (data.get_curl velocity.cell velocity.values_dofs q)))
      ∧ (∀ q, q < data.n_q_points →
          (divergence_quadrature_loop dim data velocity).values_quad[q]?
            = some (div_vector dim
                (data.get_divergence velocity.cell velocity.values_dofs q))) := by
  refine ⟨?_, ?_, ?_, ?_, ?_, ?_, ?_⟩
  · simp [omega_vector, number_vorticity_components, forLoop, List.range_succ]
  · simp [omega_vector, number_vorticity_components, forLoop, List.range_succ]
  · simp only [div_vector, List.getElem?_set, List.length_replicate]
    simp
    omega
  · intro i hi hid
    simp only [div_vector, List.getElem?_set]
    rw [if_neg (by omega)]
    simp [List.getElem?_replicate, hid]
  · simp [div_vector]
  · exact (submit_loop_values data.n_q_points
      (fun cell dofs q => omega_vector dim (data.get_curl cell dofs q)) velocity hlen).2.2
  · exact (submit_loop_values data.n_q_points
      (fun cell dofs q => div_vector dim (data.get_divergence cell dofs q)) velocity hlen).2.2

/-- Witness of C19: in two dimensions on the sample evaluator with DoF values `[1, 3]`, the
tensor submitted for the vorticity is `[2, 0]`, the one for the divergence `[4, 0]`. -/
theorem submitted_vorticity_and_divergence_witness :
    (vorticity_quadrature_loop 2 sample_velocity_matrix_free
        ⟨0, [1, 3], [[0, 0]]⟩).values_quad[0]? = some [2, 0]
      ∧ (divergence_quadrature_loop 2 sample_velocity_matrix_free
        ⟨0, [1, 3], [[0, 0]]⟩).values_quad[0]? = some [4, 0] := by
  have h := submitted_vorticity_and_divergence 2 sample_velocity_matrix_free
    ⟨0, [1, 3], [[0, 0]]⟩ 0 0 0 0 (by decide) rfl
  exact ⟨(h.2.2.2.2.2.1 0 (by decide)).trans (by decide),
    (h.2.2.2.2.2.2 0 (by decide)).trans (by decide)⟩

theorem map_zero_eq_replicate {α : Type} [Zero α] (dst : List α) :
    dst.map (fun _ => (0 : α)) = List.replicate dst.length 0 := by
  induction dst with
  | nil => rfl
  | cons x xs ih => simp [List.replicate_succ, ih]

/-- C20: `compute_vorticity` and `compute_divergence` overwrite `dst`: for every `src` and every
two initial contents of `dst` (of one size) they leave the same vector, the inverse mass operator
applied in place to the cell-loop integral accumulated into a zeroed `dst`. -/
theorem compute_vorticity_divergence_overwrite {α : Type} [Zero α] [Add α] (dim : Nat)
    (data : VelocityMatrixFree α) (inverse_mass_matrix_operator : InverseMassMatrixOperator α)
    (dst dst2 src : List α) (hlen : dst.length = dst2.length) :
    compute_vorticity dim data inverse_mass_matrix_operator dst src
        = compute_vorticity dim data inverse_mass_matrix_operator dst2 src
      ∧ compute_vorticity dim data inverse_mass_matrix_operator dst src
        = (inverse_mass_matrix_operator.apply_inverse_mass_matrix
            (fun _ =>
              data.cell_ranges.foldl
                (fun dst cell_range => local_compute_vorticity dim data dst src cell_range)
                (List.replicate dst.length 0))
            0 0) 0
      ∧ compute_divergence dim data inverse_mass_matrix_operator dst src
        = compute_divergence dim data inverse_mass_matrix_operator dst2 src
      ∧ compute_divergence dim data inverse_mass_matrix_operator dst src
        = (inverse_mass_matrix_operator.apply_inverse_mass_matrix
            (fun _ =>
              data.cell_ranges.foldl
                (fun dst cell_range => local_compute_divergence dim data dst src cell_range)
                (List.replicate dst.length 0))
            0 0) 0 := by
  unfold compute_vorticity compute_divergence
  refine ⟨?_, ?_, ?_, ?_⟩
  all_goals simp only [map_zero_eq_replicate, hlen]

/-- Witness of C20: on the sample evaluator and inverse mass operator with `src = [1, 3, 10, 20]`,
`compute_vorticity` leaves `[0, 4, 0, 20]` and `compute_divergence` leaves `[0, 8, 0, 60]`,
whether `dst` held `[9, 9, 9, 9]` or `[1, 2, 3, 4]`. -/
theorem compute_vorticity_divergence_overwrite_witness :
    compute_vorticity 2 sample_velocity_matrix_free sample_inverse_mass_matrix_operator
        [9, 9, 9, 9] [1, 3, 10, 20] = [0, 4, 0, 20]
      ∧ compute_vorticity 2 sample_velocity_matrix_free sample_inverse_mass_matrix_operator
        [1, 2, 3, 4] [1, 3, 10, 20] = [0, 4, 0, 20]
      ∧ compute_divergence 2 sample_velocity_matrix_free sample_inverse_mass_matrix_operator
        [9, 9, 9, 9] [1, 3, 10, 20] = [0, 8, 0, 60]
      ∧ compute_divergence 2 sample_velocity_matrix_free sample_inverse_mass_matrix_operator
        [1, 2, 3, 4] [1, 3, 10, 20] = [0, 8, 0, 60] := by
  have h := compute_vorticity_divergence_overwrite 2 sample_velocity_matrix_free
    sample_inverse_mass_matrix_operator [9, 9, 9, 9] [1, 2, 3, 4] [1, 3, 10, 20] rfl
  have hv : compute_vorticity 2 sample_velocity_matrix_free sample_inverse_mass_matrix_operator
      [9, 9, 9, 9] [1, 3, 10, 20] = [0, 4, 0, 20] := by decide
  have hd : compute_divergence 2 sample_velocity_matrix_free sample_inverse_mass_matrix_operator
      [9, 9, 9, 9] [1, 3, 10, 20] = [0, 8, 0, 60] := by decide
  exact ⟨hv, h.1.symm.trans hv, hd, h.2.2.1.symm.trans hd⟩

/-! ### Claim on the inverse mass operator applied in place -/

theorem foldl_set_length {α : Type} (ps : List (Nat × α)) :
    ∀ d : List α, (ps.foldl (fun dst iv => dst.set iv.1 iv.2) d).length = d.length := by
  induction ps with
  | nil => intro d; rfl
  | cons p ps ih => intro d; rw [List.foldl_cons, ih]; exact List.length_set _ _ _

/-- Two vectors of one length that get the same writes agree afterwards at every index where
they agreed before or that was written. -/
theorem foldl_set_agree {α : Type} (ps : List (Nat × α)) (i : Nat) :
    ∀ d1 d2 : List α, d1.length = d2.length →
      (d1[i]? = d2[i]? ∨ i ∈ ps.map Prod.fst) →
      (ps.foldl (fun dst iv => dst.set iv.1 iv.2) d1)[i]?
        = (ps.foldl (fun dst iv => dst.set iv.1 iv.2) d2)[i]? := by
  induction ps with
  | nil =>
    intro d1 d2 _ h
    rcases h with h | h
    · exact h
    · exact absurd h (List.not_mem_nil i)
  | cons p ps ih =>
    intro d1 d2 hlen h
    rw [List.foldl_cons, List.foldl_cons]
    apply ih (d1.set p.1 p.2) (d2.set p.1 p.2)
    · rw [List.length_set, List.length_set, hlen]
    · by_cases hp : p.1 = i
      · left
        rw [List.getElem?_set, List.getElem?_set, if_pos hp, if_pos hp, hlen]
      · rcases h with h | h
        · left
          rw [List.getElem?_set, List.getElem?_set, if_neg hp, if_neg hp, h]
        · right
          rw [List.map_cons, List.mem_cons] at h
          rcases h with h | h
          · exact absurd h.symm hp
          · exact h

theorem foldl_set_not_mem {α : Type} (ps : List (Nat × α)) (i : Nat) :
    ∀ d : List α, i ∉ ps.map Prod.fst →
      (ps.foldl (fun dst iv => dst.set iv.1 iv.2) d)[i]? = d[i]? := by
  induction ps with
  | nil => intro d _; rfl
  | cons p ps ih =>
    intro d h
    rw [List.map_cons, List.mem_cons, not_or] at h
    rw [List.foldl_cons, ih _ h.2, List.getElem?_set, if_neg (fun hp => h.1 hp.symm)]

/-- The state of the memory after `k` cells, for the in-place call on the vector named `a` and
for the call from `a` to another vector `b`: the source is untouched by the second call, the
destinations agree on the DoFs of the cells done, and the in-place vector still holds the source
values on the DoFs of the cells to come. -/
theorem apply_inverse_mass_matrix_cells {α : Type} [Zero α] (op : InverseMassMatrixOperator α)
    (memory : Nat → List α) (a b : Nat) (hab : a ≠ b)
    (hlen : (memory b).length = (memory a).length)
    (hdisjoint : ∀ c1, c1 < op.n_cells → ∀ c2, c2 < op.n_cells → c1 ≠ c2 →
      ∀ i, i ∈ op.dof_indices c1 → i ∉ op.dof_indices c2)
    (hblock : ∀ c values, (op.inverse_mass_cell c values).length = values.length) :
    ∀ k, k ≤ op.n_cells →
      (forLoop k
          (fun cell (memory : Nat → List α) =>
            Function.update memory b
              (set_dof_values (memory b) (op.dof_indices cell)
                (op.inverse_mass_cell cell
                  ((op.dof_indices cell).map (fun i => (memory a).getD i 0)))))
          memory) a = memory a
      ∧ ((forLoop k
          (fun cell (memory : Nat → List α) =>
            Function.update memory a
              (set_dof_values (memory a) (op.dof_indices cell)
                (op.inverse_mass_cell cell
                  ((op.dof_indices cell).map (fun i => (memory a).getD i 0)))))
          memory) a).length = (memory a).length
      ∧ ((forLoop k
          (fun cell (memory : Nat → List α) =>
            Function.update memory b
              (set_dof_values (memory b) (op.dof_indices cell)
                (op.inverse_mass_cell cell
                  ((op.dof_indices cell).map (fun i => (memory a).getD i 0)))))
          memory) b).length = (memory a).length
      ∧ ∀ i,
          ((∃ c, c < k ∧ i ∈ op.dof_indices c) →
            ((forLoop k
              (fun cell (memory : Nat → List α) =>
                Function.update memory a
                  (set_dof_values (memory a) (op.dof_indices cell)
                    (op.inverse_mass_cell cell
                      ((op.dof_indices cell).map (fun i => (memory a).getD i 0)))))
              memory) a)[i]?
            = ((forLoop k
              (fun cell (memory : Nat → List α) =>
                Function.update memory b
                  (set_dof_values (memory b) (op.dof_indices cell)
                    (op.inverse_mass_cell cell
                      ((op.dof_indices cell).map (fun i => (memory a).getD i 0)))))
              memory) b)[i]?)
          ∧ ((∀ c, c < k → i ∉ op.dof_indices c) →
            ((forLoop k
              (fun cell (memory : Nat → List α) =>
                Function.update memory a
                  (set_dof_values (memory a) (op.dof_indices cell)
                    (op.inverse_mass_cell cell
                      ((op.dof_indices cell).map (fun i => (memory a).getD i 0)))))
              memory) a)[i]? = (memory a)[i]?) := by
  intro k
  induction k with
  | zero =>
    intro _
    rw [forLoop_zero, forLoop_zero]
    refine ⟨rfl, rfl, hlen, fun i => ⟨?_, fun _ => rfl⟩⟩
    rintro ⟨c, hc, _⟩
    exact absurd hc (Nat.not_lt_zero c)
  | succ k ih =>
    intro hk
    obtain ⟨hsrc, hlenA, hlenF, hagree⟩ := ih (by omega)
    simp only [forLoop_succ]
    generalize forLoop k
      (fun cell (memory : Nat → List α) =>
        Function.update memory a
          (set_dof_values (memory a) (op.dof_indices cell)
            (op.inverse_mass_cell cell
              ((op.dof_indices cell).map (fun i => (memory a).getD i 0)))))
      memory = A at hlenA hagree ⊢
    generalize forLoop k
      (fun cell (memory : Nat → List α) =>
        Function.update memory b
          (set_dof_values (memory b) (op.dof_indices cell)
            (op.inverse_mass_cell cell
              ((op.dof_indices cell).map (fun i => (memory a).getD i 0)))))
      memory = F at hsrc hlenF hagree ⊢
    -- both calls read the same values for cell k
    have hread : (op.dof_indices k).map (fun i => (A a).getD i 0)
        = (op.dof_indices k).map (fun i => (F a).getD i 0) := by
      apply List.map_congr_left
      intro i hi
      have hnot : ∀ c, c < k → i ∉ op.dof_indices c := by
        intro c hc hmem
        exact hdisjoint c (by omega) k (by omega) (by omega) i hmem hi
      rw [List.getD_eq_getElem?_getD, List.getD_eq_getElem?_getD, (hagree i).2 hnot, hsrc]
    have hwritten : ((op.dof_indices k).zip
        (op.inverse_mass_cell k ((op.dof_indices k).map (fun i => (F a).getD i 0)))).map Prod.fst
        = op.dof_indices k := by
      apply List.map_fst_zip
      rw [hblock, List.length_map]
    rw [Function.update_same, Function.update_same, Function.update_noteq hab, hread]
    refine ⟨hsrc, ?_, ?_, ?_⟩
    · unfold set_dof_values
      rw [foldl_set_length]
      exact hlenA
    · unfold set_dof_values
      rw [foldl_set_length]
      exact hlenF
    · intro i
      constructor
      · rintro ⟨c, hc, hmem⟩
        unfold set_dof_values
        apply foldl_set_agree _ i (A a) (F b) (hlenA.trans hlenF.symm)
        rcases Nat.lt_succ_iff_lt_or_eq.1 hc with hlt | heq
        · exact Or.inl ((hagree i).1 ⟨c, hlt, hmem⟩)
        · subst heq
          right
          rw [hwritten]
          exact hmem
      · intro hnot
        unfold set_dof_values
        rw [foldl_set_not_mem _ i (A a) (by rw [hwritten]; exact hnot k (Nat.lt_succ_self k))]
        exact (hagree i).2 (fun c hc => hnot c (Nat.lt_succ_of_lt hc))

/-- C12: applying the inverse mass operator in place gives what applying it out of place gives:
with the cells' DoF sets pairwise disjoint and covering the vector (block-diagonal operator) and
blocks that return as many values as they get, `apply_inverse_mass_matrix(a, a)` leaves in the
vector `a` exactly what `apply_inverse_mass_matrix(b, a)` leaves in another vector `b` of the
same size, whatever `b` held. -/
theorem apply_inverse_mass_matrix_in_place {α : Type} [Zero α]
    (op : InverseMassMatrixOperator α) (memory : Nat → List α) (a b : Nat) (hab : a ≠ b)
    (hlen : (memory b).length = (memory a).length)
    (hdisjoint : ∀ c1, c1 < op.n_cells → ∀ c2, c2 < op.n_cells → c1 ≠ c2 →
      ∀ i, i ∈ op.dof_indices c1 → i ∉ op.dof_indices c2)
    (hcover : ∀ i, i < (memory a).length → ∃ c, c < op.n_cells ∧ i ∈ op.dof_indices c)
    (hblock : ∀ c values, (op.inverse_mass_cell c values).length = values.length) :
    (op.apply_inverse_mass_matrix memory a a) a = (op.apply_inverse_mass_matrix memory b a) b := by
  obtain ⟨_, hlenA, hlenF, hagree⟩ :=
    apply_inverse_mass_matrix_cells op memory a b hab hlen hdisjoint hblock op.n_cells
      (le_refl _)
  unfold InverseMassMatrixOperator.apply_inverse_mass_matrix
  apply List.ext_getElem?
  intro i
  by_cases hi : i < (memory a).length
  · exact (hagree i).1 (hcover i hi)
  · have hA := fun h => hi (Nat.lt_of_lt_of_eq h hlenA)
    have hF := fun h => hi (Nat.lt_of_lt_of_eq h hlenF)
    exact (List.getElem?_eq_none (Nat.le_of_not_lt hA)).trans
      (List.getElem?_eq_none (Nat.le_of_not_lt hF)).symm

/-- Witness of C12: on the sample operator (blocks swap and double) with `[1, 2, 3, 4]` in
vector 0 and `[9, 9, 9, 9]` in vector 1, both the in-place call on vector 0 and the call from
vector 0 to vector 1 leave `[4, 2, 8, 6]`. -/
theorem apply_inverse_mass_matrix_in_place_witness :
    (sample_inverse_mass_matrix_operator.apply_inverse_mass_matrix
        (fun n => if n = 0 then [1, 2, 3, 4] else [9, 9, 9, 9]) 0 0) 0 = [4, 2, 8, 6]
      ∧ (sample_inverse_mass_matrix_operator.apply_inverse_mass_matrix
        (fun n => if n = 0 then [1, 2, 3, 4] else [9, 9, 9, 9]) 1 0) 1 = [4, 2, 8, 6] := by
  have h := apply_inverse_mass_matrix_in_place sample_inverse_mass_matrix_operator
    (fun n => if n = 0 then [1, 2, 3, 4] else [9, 9, 9, 9]) 0 1 (by decide) rfl
    (by
      intro c1 h1 c2 h2 hne i hi
      simp only [sample_inverse_mass_matrix_operator, List.mem_cons, List.mem_singleton,
        List.not_mem_nil, or_false] at h1 h2 hi ⊢
      omega)
    (by
      intro i hi
      simp only [sample_inverse_mass_matrix_operator, List.mem_cons, List.mem_singleton,
        List.not_mem_nil, or_false]
      have hi4 : i < 4 := hi
      exact ⟨i / 2, by omega, by omega⟩)
    (by intro c values; simp [sample_inverse_mass_matrix_operator])
  have h0 : (sample_inverse_mass_matrix_operator.apply_inverse_mass_matrix
      (fun n => if n = 0 then [1, 2, 3, 4] else [9, 9, 9, 9]) 0 0) 0 = [4, 2, 8, 6] := by
    decide
  exact ⟨h0, h.symm.trans h0⟩

/-! ### Claim on the rejection of unsupported configurations -/

theorem REFINE_LEVELS_lookup (degree : Nat) (h1 : 1 ≤ degree) (h15 : degree ≤ 15) :
    ∃ l, refine_level degree = some l := by
  unfold refine_level
  rw [if_neg (by omega)]
  have hlt : degree - 1 < REFINE_LEVELS.length := by
    have : REFINE_LEVELS.length = 15 := rfl
    omega
  exact ⟨REFINE_LEVELS[degree - 1], List.getElem?_eq_getElem hlt⟩

theorem main_degree_body_unsupported (check_input_parameters : InputParameters → Option String)
    (param : InputParameters) (degree : Nat) (calls : List AppCall)
    (hdim : param.dim ≠ 2 ∧ param.dim ≠ 3) (l : Int) (hl : refine_level degree = some l) :
    main_degree_body check_input_parameters param degree calls
      = some ({ param with degree := degree, h_refinements := l },
          { calls := calls, thrown := some "Only dim=2 and dim=3 implemented." }) := by
  unfold main_degree_body
  rw [hl]
  exact if_neg (by rintro (h | h); exact hdim.1 h; exact hdim.2 h)

theorem main_degree_loop_unsupported (check_input_parameters : InputParameters → Option String)
    (param : InputParameters) (degree : Nat) (degrees : List Nat) (calls : List AppCall)
    (hdim : param.dim ≠ 2 ∧ param.dim ≠ 3) (l : Int) (hl : refine_level degree = some l) :
    main_degree_loop check_input_parameters (degree :: degrees) param calls
      = some { calls := calls, thrown := some "Only dim=2 and dim=3 implemented." } := by
  rw [main_degree_loop, main_degree_body_unsupported check_input_parameters param degree calls
    hdim l hl]

/-- C13: unsupported configurations are rejected before any operator is set up or applied. For
`param.dim` other than 2 and 3 (and a degree loop that starts at a degree `1 <= DEGREE_MIN <= 15`
of the table, `DEGREE_MIN <= DEGREE_MAX`), `main` throws `Only dim=2 and dim=3 implemented.`
before a `Problem` is constructed, set up or applied, and returns 1. For a `triangulation_type`
other than `Distributed` and `FullyDistributed`, `Problem::setup` throws before the grid is
created and the operator constructed, and the message is
`Invalid parameter triangulation_type.` when `check_input_parameters` returns. -/
theorem unsupported_configurations_rejected
    (check_input_parameters : InputParameters → Option String) (param : InputParameters)
    (DEGREE_MIN DEGREE_MAX : Nat)
    (hdim : param.dim ≠ 2 ∧ param.dim ≠ 3)
    (hdegrees : 1 ≤ DEGREE_MIN ∧ DEGREE_MIN ≤ 15 ∧ DEGREE_MIN ≤ DEGREE_MAX)
    (setup_param : InputParameters)
    (htype : setup_param.triangulation_type ≠ TriangulationType.Distributed
      ∧ setup_param.triangulation_type ≠ TriangulationType.FullyDistributed) :
    main check_input_parameters param DEGREE_MIN DEGREE_MAX
        = some ([AppCall.MPI_InitFinalize, AppCall.set_input_parameters,
            AppCall.report_exception "Only dim=2 and dim=3 implemented."], 1)
      ∧ (Problem.setup check_input_parameters setup_param).thrown.isSome = true
      ∧ AppCall.create_grid_and_set_boundary_ids
          ∉ (Problem.setup check_input_parameters setup_param).calls
      ∧ AppCall.construct_operator ∉ (Problem.setup check_input_parameters setup_param).calls
      ∧ (check_input_parameters setup_param = none →
          (Problem.setup check_input_parameters setup_param).thrown
              = some "Invalid parameter triangulation_type."
            ∧ (Problem.setup check_input_parameters setup_param).calls
              = [AppCall.print_header, AppCall.print_dealii_info, AppCall.print_MPI_info,
                  AppCall.check_input_parameters, AppCall.print_parameters]) := by
  obtain ⟨h1, h15, hle⟩ := hdegrees
  have hsetup : ∀ o : Option String, check_input_parameters setup_param = o →
      (Problem.setup check_input_parameters setup_param).thrown.isSome = true
      ∧ AppCall.create_grid_and_set_boundary_ids
          ∉ (Problem.setup check_input_parameters setup_param).calls
      ∧ AppCall.construct_operator ∉ (Problem.setup check_input_parameters setup_param).calls
      ∧ (o = none →
          (Problem.setup check_input_parameters setup_param).thrown
              = some "Invalid parameter triangulation_type."
            ∧ (Problem.setup check_input_parameters setup_param).calls
              = [AppCall.print_header, AppCall.print_dealii_info, AppCall.print_MPI_info,
                  AppCall.check_input_parameters, AppCall.print_parameters]) := by
    intro o ho
    unfold Problem.setup
    cases o with
    | some what =>
      simp only [ho]
      refine ⟨rfl, by decide, by decide, fun h => Option.noConfusion h⟩
    | none =>
      simp only [ho]
      rw [if_neg (by rintro (h | h); exact htype.1 h; exact htype.2 h)]
      exact ⟨rfl, by decide, by decide, fun _ => ⟨rfl, rfl⟩⟩
  refine ⟨?_, ?_⟩
  · obtain ⟨l, hl⟩ := REFINE_LEVELS_lookup DEGREE_MIN h1 h15
    have hrange : List.range' DEGREE_MIN (DEGREE_MAX + 1 - DEGREE_MIN)
        = DEGREE_MIN :: List.range' (DEGREE_MIN + 1) (DEGREE_MAX - DEGREE_MIN) := by
      have hcount : DEGREE_MAX + 1 - DEGREE_MIN = (DEGREE_MAX - DEGREE_MIN) + 1 := by omega
      rw [hcount, List.range'_succ]
    have hloop := main_degree_loop_unsupported check_input_parameters param DEGREE_MIN
      (List.range' (DEGREE_MIN + 1) (DEGREE_MAX - DEGREE_MIN))
      [AppCall.MPI_InitFinalize, AppCall.set_input_parameters] hdim l hl
    unfold main
    simp only [hrange, hloop]
    rfl
  · obtain ⟨ha, hb, hc, hd⟩ := hsetup (check_input_parameters setup_param) rfl
    exact ⟨ha, hb, hc, hd⟩

/-- Witness of C13: with `dim = 1` and the degrees 3 to 4, `main` reports the exception and
returns 1 without constructing a `Problem`; with a triangulation type that is neither of the
two and a check that returns, `Problem::setup` stops after printing the parameters. -/
theorem unsupported_configurations_rejected_witness :
    main (fun _ => none) ⟨1, 0, 0, TriangulationType.Distributed⟩ 3 4
        = some ([AppCall.MPI_InitFinalize, AppCall.set_input_parameters,
            AppCall.report_exception "Only dim=2 and dim=3 implemented."], 1)
      ∧ (Problem.setup (fun _ => none) ⟨3, 3, 6, TriangulationType.other 0⟩).thrown
        = some "Invalid parameter triangulation_type." := by
  have h := unsupported_configurations_rejected (fun _ => none)
    ⟨1, 0, 0, TriangulationType.Distributed⟩ 3 4 (by decide) (by decide)
    ⟨3, 3, 6, TriangulationType.other 0⟩ (by decide)
  exact ⟨h.1, (h.2.2.2.2 rfl).1⟩

/-! ### Claims on `REFINE_LEVELS` and on the quantity tested by the benchmark warning -/

theorem getElem?_isSome_iff {T : Type} (l : List T) (n : Nat) :
    (l[n]?).isSome = true ↔ n < l.length := by
  constructor
  · intro h
    by_contra hcon
    rw [List.getElem?_eq_none (Nat.le_of_not_lt hcon)] at h
    exact absurd h (by simp)
  · intro h
    rw [List.getElem?_eq_getElem h]
    rfl

/-- C22: `REFINE_LEVELS` has exactly 15 entries, for the degrees `k = 1..15`, with the annotated
values (`k=1 -> 7`, `k=3 -> 6`, `k=7 -> 5`, `k=15 -> 4`), and is non-increasing; the read
`REFINE_LEVELS[degree - 1]` of `main` is inside the table exactly when `1 <= degree <= 15`, where
it reads the entry `degree - 1`, and outside for `degree = 0` (where `degree - 1` wraps) and for
`degree >= 16`. -/
theorem REFINE_LEVELS_table_and_lookup (degree : Nat) :
    REFINE_LEVELS.length = 15
      ∧ (REFINE_LEVELS[0]? = some 7 ∧ REFINE_LEVELS[2]? = some 6 ∧ REFINE_LEVELS[6]? = some 5
        ∧ REFINE_LEVELS[14]? = some 4)
      ∧ List.Pairwise (fun a b => a ≥ b) REFINE_LEVELS
      ∧ ((refine_level degree).isSome = true ↔ 1 ≤ degree ∧ degree ≤ 15)
      ∧ (1 ≤ degree → degree ≤ 15 → refine_level degree = REFINE_LEVELS[degree - 1]?)
      ∧ refine_level 0 = none
      ∧ (16 ≤ degree → refine_level degree = none) := by
  have hlen : REFINE_LEVELS.length = 15 := rfl
  have hzero : refine_level 0 = none := by
    unfold refine_level
    rw [if_pos rfl]
    exact List.getElem?_eq_none (by rw [hlen]; norm_num)
  have hpos : ∀ d, d ≠ 0 → refine_level d = REFINE_LEVELS[d - 1]? := by
    intro d hd
    unfold refine_level
    rw [if_neg hd]
  refine ⟨hlen, ⟨rfl, rfl, rfl, rfl⟩, by decide, ?_, ?_, hzero, ?_⟩
  · by_cases hd : degree = 0
    · subst hd
      rw [hzero]
      constructor
      · intro h; exact absurd h (by simp)
      · intro h; omega
    · rw [hpos degree hd, getElem?_isSome_iff, hlen]
      omega
  · intro h1 _
    exact hpos degree (by omega)
  · intro h16
    rw [hpos degree (by omega)]
    exact List.getElem?_eq_none (by rw [hlen]; omega)

/-- C26, as stated, fails. With the configured 100 inner and 1 outer repetitions and every
measured time the `double` `0x1.47ae147ae147ap-7` (non-negative), the tested quantity
`wall_time * n_inner * n_outer` is `0x1.0000000000003p+0`, which is above the sum of all measured
times and not equal to it although `n_outer = 1`; and the total is under one second, but the
warning is not emitted. -/
theorem warning_quantity_not_at_most_total :
    Double.round sample_wall_time = Double.finite sample_wall_time
      ∧ (0 : ℚ) ≤ sample_wall_time
      ∧ Double.mul
          (Double.mul
            (apply_operator Double.arithmetic N_REPETITIONS_INNER N_REPETITIONS_OUTER
              (fun _ _ => Double.finite sample_wall_time) 100 4 3 []).wall_time
            (Double.round (N_REPETITIONS_INNER : ℚ)))
          (Double.round (N_REPETITIONS_OUTER : ℚ))
        = Double.finite (0x10000000000003 / 2 ^ 52)
      ∧ (∑ _o in Finset.range N_REPETITIONS_OUTER, ∑ _i in Finset.range N_REPETITIONS_INNER,
          sample_wall_time) < 0x10000000000003 / 2 ^ 52
      ∧ (∑ _o in Finset.range N_REPETITIONS_OUTER, ∑ _i in Finset.range N_REPETITIONS_INNER,
          sample_wall_time) < 1
      ∧ (apply_operator Double.arithmetic N_REPETITIONS_INNER N_REPETITIONS_OUTER
          (fun _ _ => Double.finite sample_wall_time) 100 4 3 []).warning = false := by
  refine ⟨by decide!, ?_, by decide!, ?_, ?_, by decide!⟩
  · norm_num [sample_wall_time]
  · norm_num [N_REPETITIONS_OUTER, N_REPETITIONS_INNER, sample_wall_time]
  · norm_num [N_REPETITIONS_OUTER, N_REPETITIONS_INNER, sample_wall_time]

/-- C26, amended: for `n_inner >= 1`, `n_outer >= 1` (both `unsigned int`) and non-negative
measured times, the quantity `wall_time * n_inner * n_outer` tested by the warning is at most
the sum of all measured times up to rounding: when it is finite it is at most the bound of
`n_inner + 3` rounded operations on the total; hence the warning is emitted whenever that bound
is under one, and with the configured counts 100 and 1 whenever the total is at most `1 - 2^-46`
seconds. In exact arithmetic, with measured times of at most `DBL_MAX`, the tested quantity is
at most the total and equal to it when `n_outer = 1`, and the warning is emitted whenever the
total is under one second. -/
theorem warning_quantity_at_most_total (n_inner n_outer : Nat)
    (timer : Nat → Nat → Double) (t : Nat → Nat → ℚ)
    (dofs N_mpi_processes degree : Nat) (wall_times : List (Nat × Double))
    (exact_wall_times : List (Nat × ℚ))
    (hI : 1 ≤ n_inner) (hO : 1 ≤ n_outer) (hI2 : n_inner < 2 ^ 32) (hO2 : n_outer < 2 ^ 32)
    (ht : ∀ o i, o < n_outer → i < n_inner → timer o i = Double.finite (t o i) ∧ 0 ≤ t o i)
    (hmax : ∀ o i, o < n_outer → i < n_inner → t o i ≤ DBL_MAX) :
    (∀ tested,
        Double.mul
            (Double.mul
              (apply_operator Double.arithmetic n_inner n_outer timer dofs N_mpi_processes
                degree wall_times).wall_time
              (Double.round (n_inner : ℚ)))
            (Double.round (n_outer : ℚ)) = Double.finite tested →
        tested ≤ rounding_bound (∑ o in Finset.range n_outer, ∑ i in Finset.range n_inner, t o i)
          (((n_inner + 1) * n_inner + 1) * n_outer + 1) (n_inner + 3))
      ∧ (rounding_bound (∑ o in Finset.range n_outer, ∑ i in Finset.range n_inner, t o i)
            (((n_inner + 1) * n_inner + 1) * n_outer + 1) (n_inner + 3) < 1 →
          (apply_operator Double.arithmetic n_inner n_outer timer dofs N_mpi_processes degree
            wall_times).warning = true)
      ∧ (n_inner = 100 → n_outer = 1 →
          (∑ o in Finset.range n_outer, ∑ i in Finset.range n_inner, t o i) ≤ 1 - 1 / 2 ^ 46 →
          (apply_operator Double.arithmetic n_inner n_outer timer dofs N_mpi_processes degree
            wall_times).warning = true)
      ∧ (apply_operator exact_arithmetic n_inner n_outer t dofs N_mpi_processes degree
            exact_wall_times).wall_time * (n_inner : ℚ) * (n_outer : ℚ)
          ≤ ∑ o in Finset.range n_outer, ∑ i in Finset.range n_inner, t o i
      ∧ (n_outer = 1 →
          (apply_operator exact_arithmetic n_inner n_outer t dofs N_mpi_processes degree
              exact_wall_times).wall_time * (n_inner : ℚ) * (n_outer : ℚ)
            = ∑ o in Finset.range n_outer, ∑ i in Finset.range n_inner, t o i)
      ∧ ((∑ o in Finset.range n_outer, ∑ i in Finset.range n_inner, t o i) < 1 →
          (apply_operator exact_arithmetic n_inner n_outer t dofs N_mpi_processes degree
            exact_wall_times).warning = true) := by
  have hI53 := two_pow_32_lt_two_pow_53 hI2
  have hO53 := two_pow_32_lt_two_pow_53 hO2
  have hd : (apply_operator Double.arithmetic n_inner n_outer timer dofs N_mpi_processes degree
        wall_times).warning
      = Double.lt
          (Double.mul
            (Double.mul (timing_loop Double.arithmetic n_inner n_outer timer)
              (Double.round (n_inner : ℚ)))
            (Double.round (n_outer : ℚ)))
          (Double.finite 1) := rfl
  have hwt : (apply_operator exact_arithmetic n_inner n_outer t dofs N_mpi_processes degree
      exact_wall_times).wall_time = timing_loop exact_arithmetic n_inner n_outer t := rfl
  have hw : (apply_operator exact_arithmetic n_inner n_outer t dofs N_mpi_processes degree
        exact_wall_times).warning
      = decide (timing_loop exact_arithmetic n_inner n_outer t * (n_inner : ℚ)
          * (n_outer : ℚ) < 1) := rfl
  have hpos : (0 : ℚ) ≤ (n_inner : ℚ) := Nat.cast_nonneg n_inner
  have hrow : ∀ o, o < n_outer →
      timing_loop exact_arithmetic n_inner n_outer t * (n_inner : ℚ)
        ≤ ∑ i in Finset.range n_inner, t o i := by
    intro o ho
    have h1 := mul_le_mul_of_nonneg_right (timing_loop_le n_inner n_outer t o ho) hpos
    rwa [inner_mean_mul n_inner hI] at h1
  have hle : timing_loop exact_arithmetic n_inner n_outer t * (n_inner : ℚ) * (n_outer : ℚ)
      ≤ ∑ o in Finset.range n_outer, ∑ i in Finset.range n_inner, t o i := by
    have hsum : ∑ _o in Finset.range n_outer,
          timing_loop exact_arithmetic n_inner n_outer t * (n_inner : ℚ)
        ≤ ∑ o in Finset.range n_outer, ∑ i in Finset.range n_inner, t o i :=
      Finset.sum_le_sum (fun o ho => hrow o (Finset.mem_range.1 ho))
    simpa [mul_comm] using hsum
  -- some outer repetition carries at most the average of the total
  obtain ⟨o, ho, hrowle⟩ := exists_row_mul_le_total n_inner n_outer t hO
  have hrow0 : 0 ≤ (∑ i in Finset.range n_inner, t o i) * (n_outer : ℚ) :=
    mul_nonneg (Finset.sum_nonneg (fun i hi => (ht o i ho (Finset.mem_range.1 hi)).2))
      (Nat.cast_nonneg n_outer)
  have hmono := rounding_bound_mono _ _ (((n_inner + 1) * n_inner + 1) * n_outer + 1)
    (((n_inner + 1) * n_inner + 1) * n_outer + 1) (n_inner + 3) (n_inner + 3) hrow0 hrowle
    (le_refl _) (le_refl _)
  have hhence : rounding_bound
        (∑ o in Finset.range n_outer, ∑ i in Finset.range n_inner, t o i)
        (((n_inner + 1) * n_inner + 1) * n_outer + 1) (n_inner + 3) < 1 →
      (apply_operator Double.arithmetic n_inner n_outer timer dofs N_mpi_processes degree
        wall_times).warning = true := by
    intro hb
    rw [hd]
    exact warning_double_of_bound n_inner n_outer timer t hI hI53 hO hO53 ht o ho
      (lt_of_le_of_lt hmono hb)
  refine ⟨?_, hhence, ?_, ?_, ?_, ?_⟩
  · intro tested htested
    exact le_trans
      ((tested_quantity_double_bound n_inner n_outer timer t hI hI53 hO hO53 ht
        tested htested).2 o ho) hmono
  · intro h100 h1 htot
    subst h100
    subst h1
    apply hhence
    have hu : unit_roundoff = 1 / 2 ^ 53 := rfl
    have he : underflow_unit = 1 / 2 ^ 1075 := rfl
    unfold rounding_bound
    rw [hu, he]
    have hK : (0 : ℚ) < (1 + 1 / 2 ^ 53) ^ (100 + 3) := by positivity
    have hnum : ((1 : ℚ) - 1 / 2 ^ 46
        + (((((100 + 1) * 100 + 1) * 1 + 1 : ℕ)) : ℚ) * (1 / 2 ^ 1075))
        * (1 + 1 / 2 ^ 53) ^ (100 + 3) < 1 := by norm_num
    refine lt_of_le_of_lt (mul_le_mul_of_nonneg_right ?_ (le_of_lt hK)) hnum
    linarith
  · rw [hwt]
    exact hle
  · intro h1
    subst h1
    rw [hwt]
    obtain ⟨o1, ho1, heq⟩ := timing_loop_attained n_inner 1 t hI (le_refl 1) hmax
    have ho0 : o1 = 0 := by omega
    subst ho0
    rw [heq, inner_mean_mul n_inner hI]
    simp
  · intro htot
    rw [hw]
    exact decide_eq_true (lt_of_le_of_lt hle htot)

/-- Witness of the amended C26: two outer repetitions of one inner repetition measured at `1/8`
and `1/4`, both `double`s: the tested quantity
`1/8 * 1 * 2 = 1/4` is below the total `3/8` in `double` and in exact arithmetic, and the warning
is emitted. -/
theorem warning_quantity_at_most_total_witness :
    Double.mul
        (Double.mul
          (apply_operator Double.arithmetic 1 2 (fun o _ => Double.finite (((o : ℚ) + 1) / 8))
            100 4 3 []).wall_time
          (Double.round ((1 : Nat) : ℚ)))
        (Double.round ((2 : Nat) : ℚ)) = Double.finite (1 / 4)
      ∧ (1 / 4 : ℚ) ≤ rounding_bound
          (∑ o in Finset.range 2, ∑ _i in Finset.range 1, ((o : ℚ) + 1) / 8)
          (((1 + 1) * 1 + 1) * 2 + 1) (1 + 3)
      ∧ (apply_operator exact_arithmetic 1 2 (fun o _ => ((o : ℚ) + 1) / 8) 100 4 3 []).wall_time
            * ((1 : Nat) : ℚ) * ((2 : Nat) : ℚ)
          ≤ ∑ o in Finset.range 2, ∑ _i in Finset.range 1, ((o : ℚ) + 1) / 8
      ∧ (apply_operator exact_arithmetic 1 2 (fun o _ => ((o : ℚ) + 1) / 8) 100 4 3 []).warning
        = true := by
  have h := warning_quantity_at_most_total 1 2 (fun o _ => Double.finite (((o : ℚ) + 1) / 8))
    (fun o _ => ((o : ℚ) + 1) / 8) 100 4 3 [] []
    (by decide) (by decide) (by norm_num) (by norm_num)
    (by
      intro o i _ _
      exact ⟨rfl, by positivity⟩)
    (by
      intro o i ho _
      interval_cases o <;> norm_num [DBL_MAX])
  have htested : Double.mul
        (Double.mul
          (apply_operator Double.arithmetic 1 2 (fun o _ => Double.finite (((o : ℚ) + 1) / 8))
            100 4 3 []).wall_time
          (Double.round ((1 : Nat) : ℚ)))
        (Double.round ((2 : Nat) : ℚ)) = Double.finite (1 / 4) := by decide!
  exact ⟨htested, h.1 (1 / 4) htested, h.2.2.2.1, h.2.2.2.2.2 (by norm_num [Finset.sum_range_succ])⟩

/-! ### Claims on `RHSOperator::cell_loop` and `RHSOperator::evaluate_add` -/

theorem forLoop_append {β : Type} (n : Nat) (f : Nat → List β) (init : List β) :
    forLoop n (fun i acc => acc ++ f i) init = init ++ ((List.range n).map f).flatten := by
  induction n with
  | zero => simp [forLoop_zero]
  | succ k ih =>
    rw [forLoop_succ, ih, List.range_succ, List.map_append, List.flatten_append]
    simp [List.append_assoc]

theorem foldl_append_flatten {β γ : Type} (f : γ → List β) (l : List γ) :
    ∀ init : List β, l.foldl (fun acc x => acc ++ f x) init = init ++ (l.map f).flatten := by
  induction l with
  | nil => intro init; simp
  | cons x xs ih => intro init; rw [List.foldl_cons, ih]; simp [List.append_assoc]

/-- The integrator after the loop over the quadrature points of `do_cell_integral`: it is on
the same cell batch and holds the volume flux at every quadrature point. -/
theorem do_cell_integral_values {α : Type} (op : RHSOperator α) (integrator : IntegratorCell α)
    (hlen : integrator.values_quad.length = op.matrix_free.n_q_points) :
    (forLoop op.matrix_free.n_q_points
        (fun q (integrator : IntegratorCell α) =>
          integrator.submit_value (op.get_volume_flux integrator.cell q op.time) q)
        integrator).cell = integrator.cell
      ∧ (forLoop op.matrix_free.n_q_points
        (fun q (integrator : IntegratorCell α) =>
          integrator.submit_value (op.get_volume_flux integrator.cell q op.time) q)
        integrator).values_quad
        = (List.range op.matrix_free.n_q_points).map
            (fun q => op.get_volume_flux integrator.cell q op.time) := by
  have h := forLoop_induction_indexed
    (fun k (v : IntegratorCell α) => v.cell = integrator.cell
      ∧ v.values_quad.length = op.matrix_free.n_q_points
      ∧ ∀ q, q < k → v.values_quad[q]? = some (op.get_volume_flux integrator.cell q op.time))
    op.matrix_free.n_q_points
    (fun q (integrator : IntegratorCell α) =>
      integrator.submit_value (op.get_volume_flux integrator.cell q op.time) q)
    integrator
    ⟨rfl, hlen, fun q hq => absurd hq (Nat.not_lt_zero q)⟩
    (by
      intro k v hk hv
      obtain ⟨hc, hl, hq⟩ := hv
      refine ⟨hc, ?_, ?_⟩
      · simp [IntegratorCell.submit_value, hl]
      · intro q hqk
        simp only [IntegratorCell.submit_value, List.getElem?_set, hc]
        by_cases hkq : k = q
        · subst hkq
          simp [hl, hk]
        · rw [if_neg hkq]
          exact hq q (by omega))
  refine ⟨h.1, ?_⟩
  apply List.ext_getElem?
  intro q
  by_cases hq : q < op.matrix_free.n_q_points
  · rw [h.2.2 q hq, List.getElem?_map, List.getElem?_range hq]
    rfl
  · rw [List.getElem?_eq_none (by rw [h.2.1]; omega),
      List.getElem?_eq_none (by simp; omega)]

/-- What `do_cell_integral` leaves in an integrator that holds one value per quadrature
point. -/
theorem do_cell_integral_eq {α : Type} (op : RHSOperator α) (integrator : IntegratorCell α)
    (hlen : integrator.values_quad.length = op.matrix_free.n_q_points) :
    op.do_cell_integral integrator
      = { cell := integrator.cell
          values_quad := (List.range op.matrix_free.n_q_points).map
            (fun q => op.get_volume_flux integrator.cell q op.time)
          values_dofs := op.matrix_free.integrate true false integrator.cell
            ((List.range op.matrix_free.n_q_points).map
              (fun q => op.get_volume_flux integrator.cell q op.time)) } := by
  obtain ⟨hc, hv⟩ := do_cell_integral_values op integrator hlen
  unfold RHSOperator.do_cell_integral IntegratorCell.integrate
  simp only [hc, hv]

/-- The loop of `cell_loop` after `n` passes: the integrator holds one value per quadrature
point, and `dst` has received the contributions of the cell batches `first, ..., first + n - 1`
in this order. -/
theorem cell_loop_passes {α : Type} [Zero α] [Add α] (op : RHSOperator α) (dst : List α)
    (first : Nat) :
    ∀ n,
      (forLoop n
        (fun j (state : IntegratorCell α × List α) =>
          ((op.do_cell_integral (state.1.reinit (first + j))),
            (op.do_cell_integral (state.1.reinit (first + j))).distribute_local_to_global
              op.matrix_free state.2))
        (IntegratorCell.init op.matrix_free, dst)).1.values_quad.length
          = op.matrix_free.n_q_points
      ∧ (forLoop n
        (fun j (state : IntegratorCell α × List α) =>
          ((op.do_cell_integral (state.1.reinit (first + j))),
            (op.do_cell_integral (state.1.reinit (first + j))).distribute_local_to_global
              op.matrix_free state.2))
        (IntegratorCell.init op.matrix_free, dst)).2
        = (List.range' first n).foldl
            (fun dst cell =>
              IntegratorCell.distribute_local_to_global op.matrix_free
                { cell := cell
                  values_quad := (List.range op.matrix_free.n_q_points).map
                    (fun q => op.get_volume_flux cell q op.time)
                  values_dofs := op.matrix_free.integrate true false cell
                    ((List.range op.matrix_free.n_q_points).map
                      (fun q => op.get_volume_flux cell q op.time)) }
                dst)
            dst := by
  intro n
  induction n with
  | zero =>
    rw [forLoop_zero]
    exact ⟨by simp [IntegratorCell.init], rfl⟩
  | succ k ih =>
    obtain ⟨hlen, hdst⟩ := ih
    rw [forLoop_succ]
    have hre : ((forLoop k
        (fun j (state : IntegratorCell α × List α) =>
          ((op.do_cell_integral (state.1.reinit (first + j))),
            (op.do_cell_integral (state.1.reinit (first + j))).distribute_local_to_global
              op.matrix_free state.2))
        (IntegratorCell.init op.matrix_free, dst)).1.reinit (first + k)).values_quad.length
          = op.matrix_free.n_q_points := hlen
    simp only [do_cell_integral_eq op _ hre, hdst]
    refine ⟨by simp, ?_⟩
    rw [List.range'_concat, List.foldl_append]
    simp [IntegratorCell.reinit]

/-- C21: `cell_loop` processes every cell batch of its range exactly once, in ascending order:
what it leaves in `dst` is what the passes for `c = first, first + 1, ..., second - 1`, and for
no other index, leave one after the other, each pass adding to `dst`, at the DoFs of cell batch
`c`, the result of `integrate(true, false)` (values only, no gradients) on the values submitted
for `c`; these are one value per quadrature point `q = 0, ..., n_q_points - 1`, the volume flux
of the kernel at `q` and at the time of the operator. For `first >= second` it leaves `dst` as it
is. In `evaluate_add` the time is the one passed to it, on every range. -/
theorem cell_loop_processes_range_once {α : Type} [Zero α] [Add α] (op : RHSOperator α)
    (dst : List α) (cell_range : Nat × Nat) (evaluation_time : ℚ)
    (integrator : IntegratorCell α) :
    op.cell_loop dst cell_range
        = (List.range' cell_range.1 (cell_range.2 - cell_range.1)).foldl
            (fun dst cell =>
              IntegratorCell.distribute_local_to_global op.matrix_free
                { cell := cell
                  values_quad := (List.range op.matrix_free.n_q_points).map
                    (fun q => op.get_volume_flux cell q op.time)
                  values_dofs := op.matrix_free.integrate true false cell
                    ((List.range op.matrix_free.n_q_points).map
                      (fun q => op.get_volume_flux cell q op.time)) }
                dst)
            dst
      ∧ (cell_range.2 ≤ cell_range.1 → op.cell_loop dst cell_range = dst)
      ∧ (op.evaluate_add dst evaluation_time).2
        = op.matrix_free.cell_ranges.foldl
            (fun dst range =>
              (List.range' range.1 (range.2 - range.1)).foldl
                (fun dst cell =>
                  IntegratorCell.distribute_local_to_global op.matrix_free
                    { cell := cell
                      values_quad := (List.range op.matrix_free.n_q_points).map
                        (fun q => op.get_volume_flux cell q evaluation_time)
                      values_dofs := op.matrix_free.integrate true false cell
                        ((List.range op.matrix_free.n_q_points).map
                          (fun q => op.get_volume_flux cell q evaluation_time)) }
                    dst)
                dst)
            dst
      ∧ (integrator.values_quad.length = op.matrix_free.n_q_points →
          op.do_cell_integral integrator
            = { cell := integrator.cell
                values_quad := (List.range op.matrix_free.n_q_points).map
                  (fun q => op.get_volume_flux integrator.cell q op.time)
                values_dofs := op.matrix_free.integrate true false integrator.cell
                  ((List.range op.matrix_free.n_q_points).map
                    (fun q => op.get_volume_flux integrator.cell q op.time)) }) := by
  have hloop : ∀ (op : RHSOperator α) (dst : List α) (cell_range : Nat × Nat),
      op.cell_loop dst cell_range
        = (List.range' cell_range.1 (cell_range.2 - cell_range.1)).foldl
            (fun dst cell =>
              IntegratorCell.distribute_local_to_global op.matrix_free
                { cell := cell
                  values_quad := (List.range op.matrix_free.n_q_points).map
                    (fun q => op.get_volume_flux cell q op.time)
                  values_dofs := op.matrix_free.integrate true false cell
                    ((List.range op.matrix_free.n_q_points).map
                      (fun q => op.get_volume_flux cell q op.time)) }
                dst)
            dst :=
    fun op dst cell_range => (cell_loop_passes op dst cell_range.1 _).2
  refine ⟨hloop op dst cell_range, ?_, ?_, do_cell_integral_eq op integrator⟩
  · intro h
    rw [hloop, Nat.sub_eq_zero_of_le h]
    rfl
  · unfold RHSOperator.evaluate_add
    simp only [hloop]

/-- Witness of C21: on the sample operator (two quadrature points, flux `c + q`, the integration
hands the values through, cell batch `c` owns the entries `2c` and `2c + 1`), the range `[1, 3)`
adds `1, 2` to the entries `2, 3` and `2, 3` to the entries `4, 5`, and nothing to the entries
of cell batch 0; the empty range `[2, 2)` adds nothing. -/
theorem cell_loop_processes_range_once_witness :
    sample_rhs_operator.cell_loop [0, 0, 0, 0, 0, 0] (1, 3) = [0, 0, 1, 2, 2, 3]
      ∧ sample_rhs_operator.cell_loop [0, 0, 0, 0, 0, 0] (2, 2) = [0, 0, 0, 0, 0, 0]
      ∧ sample_rhs_operator.do_cell_integral
            ((IntegratorCell.init sample_rhs_operator.matrix_free).reinit 2)
          = { cell := 2, values_quad := [2, 3], values_dofs := [2, 3] } := by
  have h := cell_loop_processes_range_once sample_rhs_operator [0, 0, 0, 0, 0, 0] (1, 3) 0
    ((IntegratorCell.init sample_rhs_operator.matrix_free).reinit 2)
  have h2 := cell_loop_processes_range_once sample_rhs_operator [0, 0, 0, 0, 0, 0] (2, 2) 0
    ((IntegratorCell.init sample_rhs_operator.matrix_free).reinit 2)
  refine ⟨?_, h2.2.1 (le_refl _), ?_⟩
  · rw [h.1]
    decide
  · rw [h.2.2.2 (by decide)]
    rfl

theorem add_at_nil {α : Type} [Add α] (i : Nat) (v : α) : add_at ([] : List α) i v = [] := by
  simp [add_at]

theorem add_at_cons_zero {α : Type} [Add α] (x : α) (xs : List α) (v : α) :
    add_at (x :: xs) 0 v = (x + v) :: xs := by
  simp [add_at]

theorem add_at_cons_succ {α : Type} [Add α] (x : α) (xs : List α) (i : Nat) (v : α) :
    add_at (x :: xs) (i + 1) v = x :: add_at xs i v := by
  unfold add_at
  rw [List.getElem?_cons_succ]
  cases h : xs[i]? with
  | none => rfl
  | some y => simp

/-- The update `dst[i] += v` on a sum of two vectors is the update on the second summand. -/
theorem add_at_zipWith {α : Type} [AddMonoid α] (dst : List α) :
    ∀ (e : List α) (i : Nat) (v : α),
      add_at (List.zipWith (fun a b => a + b) dst e) i v
        = List.zipWith (fun a b => a + b) dst (add_at e i v) := by
  induction dst with
  | nil => intro e i v; simp [add_at_nil]
  | cons a as ih =>
    intro e i v
    cases e with
    | nil => simp [add_at_nil]
    | cons b bs =>
      cases i with
      | zero => simp [add_at_cons_zero, add_assoc]
      | succ k => simp [add_at_cons_succ, ih]

theorem distribute_local_to_global_zipWith {α : Type} [AddMonoid α] (mf : MatrixFree α)
    (integrator : IntegratorCell α) (dst e : List α) :
    integrator.distribute_local_to_global mf (List.zipWith (fun a b => a + b) dst e)
      = List.zipWith (fun a b => a + b) dst (integrator.distribute_local_to_global mf e) := by
  unfold IntegratorCell.distribute_local_to_global
  generalize (mf.dof_indices integrator.cell).zip integrator.values_dofs = ps
  induction ps generalizing e with
  | nil => rfl
  | cons p ps ih => rw [List.foldl_cons, List.foldl_cons, add_at_zipWith, ih]

theorem cell_loop_zipWith {α : Type} [AddMonoid α] (op : RHSOperator α) (dst e : List α)
    (cell_range : Nat × Nat) :
    op.cell_loop (List.zipWith (fun a b => a + b) dst e) cell_range
      = List.zipWith (fun a b => a + b) dst (op.cell_loop e cell_range) := by
  unfold RHSOperator.cell_loop
  have h : ∀ n,
      forLoop n
        (fun j (state : IntegratorCell α × List α) =>
          ((op.do_cell_integral (state.1.reinit (cell_range.1 + j))),
            (op.do_cell_integral (state.1.reinit (cell_range.1 + j))).distribute_local_to_global
              op.matrix_free state.2))
        (IntegratorCell.init op.matrix_free, List.zipWith (fun a b => a + b) dst e)
      = ((forLoop n
          (fun j (state : IntegratorCell α × List α) =>
            ((op.do_cell_integral (state.1.reinit (cell_range.1 + j))),
              (op.do_cell_integral
                (state.1.reinit (cell_range.1 + j))).distribute_local_to_global
                op.matrix_free state.2))
          (IntegratorCell.init op.matrix_free, e)).1,
        List.zipWith (fun a b => a + b) dst
          (forLoop n
            (fun j (state : IntegratorCell α × List α) =>
              ((op.do_cell_integral (state.1.reinit (cell_range.1 + j))),
                (op.do_cell_integral
                  (state.1.reinit (cell_range.1 + j))).distribute_local_to_global
                  op.matrix_free state.2))
            (IntegratorCell.init op.matrix_free, e)).2) := by
    intro n
    induction n with
    | zero => simp [forLoop_zero]
    | succ k ih =>
      rw [forLoop_succ, forLoop_succ, ih]
      simp only [distribute_local_to_global_zipWith]
  exact congrArg Prod.snd (h (cell_range.2 - cell_range.1))

theorem zipWith_add_zero {α : Type} [AddMonoid α] (dst : List α) :
    List.zipWith (fun a b => a + b) dst (List.replicate dst.length 0) = dst := by
  induction dst with
  | nil => rfl
  | cons a as ih => simp [List.replicate_succ, ih]

/-- The update `dst[i] += v` leaves the other entries as they are. -/
theorem add_at_getElem?_ne {α : Type} [Add α] (dst : List α) (i j : Nat) (v : α) (h : j ≠ i) :
    (add_at dst i v)[j]? = dst[j]? := by
  unfold add_at
  cases hi : dst[i]? with
  | none => rfl
  | some x => simp [List.getElem?_set, Ne.symm h]

/-- The update `dst[i] += v` on a sum of two vectors is the update on the second summand, when
the second summand is zero at `i` and adding zero changes nothing. -/
theorem add_at_zipWith_zero {α : Type} [AddZeroClass α] (dst : List α) :
    ∀ (e : List α) (i : Nat) (v : α), (∀ x, e[i]? = some x → x = 0) →
      add_at (List.zipWith (fun a b => a + b) dst e) i v
        = List.zipWith (fun a b => a + b) dst (add_at e i v) := by
  induction dst with
  | nil => intro e i v _; simp [add_at_nil]
  | cons a as ih =>
    intro e i v hzero
    cases e with
    | nil => simp [add_at_nil]
    | cons b bs =>
      cases i with
      | zero =>
        have hb : b = 0 := hzero b (by simp)
        subst hb
        simp [add_at_cons_zero]
      | succ k =>
        have hk : ∀ x, bs[k]? = some x → x = 0 := fun x hx => hzero x (by simpa using hx)
        simp [add_at_cons_succ, ih bs k v hk]

/-- A succession of updates `dst[i] += v` at pairwise distinct indices on a sum of two vectors is
the succession on the second summand, when the second summand is zero at these indices. -/
theorem foldl_add_at_zipWith {α : Type} [AddZeroClass α] :
    ∀ (ups : List (Nat × α)), (ups.map Prod.fst).Nodup → ∀ (dst e : List α),
      (∀ p, p ∈ ups → ∀ x, e[p.1]? = some x → x = 0) →
      ups.foldl (fun d iv => add_at d iv.1 iv.2) (List.zipWith (fun a b => a + b) dst e)
        = List.zipWith (fun a b => a + b) dst
            (ups.foldl (fun d iv => add_at d iv.1 iv.2) e) := by
  intro ups
  induction ups with
  | nil => intro _ dst e _; rfl
  | cons p ps ih =>
    intro hnodup dst e hzero
    rw [List.map_cons, List.nodup_cons] at hnodup
    rw [List.foldl_cons, List.foldl_cons,
      add_at_zipWith_zero dst e p.1 p.2 (hzero p (List.mem_cons_self _ _))]
    apply ih hnodup.2
    intro r hr x hx
    have hne : r.1 ≠ p.1 := by
      intro heq
      exact hnodup.1 (by rw [← heq]; exact List.mem_map_of_mem Prod.fst hr)
    rw [add_at_getElem?_ne e p.1 r.1 p.2 hne] at hx
    exact hzero r (List.mem_cons_of_mem _ hr) x hx

theorem foldl_flatMap {β γ δ : Type} (f : γ → List δ) (g : β → δ → β) (l : List γ) :
    ∀ init : β, (l.flatMap f).foldl g init = l.foldl (fun acc x => (f x).foldl g acc) init := by
  induction l with
  | nil => intro init; rfl
  | cons x xs ih => intro init; rw [List.flatMap_cons, List.foldl_append, ih, List.foldl_cons]

theorem map_fst_zip_sublist {β γ : Type} :
    ∀ (l : List β) (r : List γ), ((l.zip r).map Prod.fst).Sublist l := by
  intro l
  induction l with
  | nil => intro r; simp
  | cons a as ih =>
    intro r
    cases r with
    | nil => simp
    | cons b bs =>
      rw [List.zip_cons_cons, List.map_cons]
      exact (ih bs).cons₂ a

theorem flatMap_sublist {β γ : Type} (f g : β → List γ) (l : List β)
    (h : ∀ x, (f x).Sublist (g x)) : (l.flatMap f).Sublist (l.flatMap g) := by
  induction l with
  | nil => simp
  | cons x xs ih =>
    rw [List.flatMap_cons, List.flatMap_cons]
    exact (h x).append ih

theorem zipWith_add_zero_right {α : Type} [AddZeroClass α] (dst : List α) :
    List.zipWith (fun a b => a + b) dst (List.replicate dst.length 0) = dst := by
  induction dst with
  | nil => rfl
  | cons a as ih => simp [List.replicate_succ, ih]

/-- The vector `evaluate_add` leaves, as one succession of updates `dst[i] += v`: those of the
cell batches of the ranges, in order. -/
theorem evaluate_add_updates {α : Type} [Zero α] [Add α] (op : RHSOperator α) (dst : List α)
    (t : ℚ) :
    (op.evaluate_add dst t).2
      = (op.matrix_free.cell_ranges.flatMap
          (fun range => (List.range' range.1 (range.2 - range.1)).flatMap
            (fun cell => (op.matrix_free.dof_indices cell).zip
              (op.matrix_free.integrate true false cell
                ((List.range op.matrix_free.n_q_points).map
                  (fun q => op.get_volume_flux cell q t)))))).foldl
          (fun d iv => add_at d iv.1 iv.2) dst := by
  rw [foldl_flatMap]
  simp only [foldl_flatMap]
  unfold RHSOperator.evaluate_add
  have hloop : ∀ (d : List α) (cell_range : Nat × Nat),
      RHSOperator.cell_loop { op with time := t } d cell_range
        = (List.range' cell_range.1 (cell_range.2 - cell_range.1)).foldl
            (fun d cell =>
              ((op.matrix_free.dof_indices cell).zip
                (op.matrix_free.integrate true false cell
                  ((List.range op.matrix_free.n_q_points).map
                    (fun q => op.get_volume_flux cell q t)))).foldl
                (fun d iv => add_at d iv.1 iv.2) d)
            d :=
    fun d cell_range => (cell_loop_passes { op with time := t } d cell_range.1 _).2
  simp only [hloop]

/-- C25, as stated, fails in `double` arithmetic. On the operator whose two cell batches both
add `1.0` to the entry 0, `evaluate_add` on `dst = [1e16]` leaves `[1e16]`, since `1e16 + 1.0` is
rounded to `1e16` both times; `evaluate` leaves `[2.0]`, and the initial `dst` plus that is
`[1e16 + 2]`. All three numbers are `double`s. -/
theorem evaluate_add_not_accumulating_in_double :
    Double.round (10 ^ 16) = Double.finite (10 ^ 16)
      ∧ Double.round (10 ^ 16 + 2) = Double.finite (10 ^ 16 + 2)
      ∧ (sample_rhs_operator_shared_dof.evaluate_add [Double.finite (10 ^ 16)] 0).2
        = [Double.finite (10 ^ 16)]
      ∧ (sample_rhs_operator_shared_dof.evaluate [Double.finite (10 ^ 16)] 0).2
        = [Double.finite 2]
      ∧ List.zipWith (fun a b => a + b) [Double.finite (10 ^ 16)]
          (sample_rhs_operator_shared_dof.evaluate [Double.finite (10 ^ 16)] 0).2
        = [Double.finite (10 ^ 16 + 2)]
      ∧ (sample_rhs_operator_shared_dof.evaluate_add [Double.finite (10 ^ 16)] 0).2
        ≠ List.zipWith (fun a b => a + b) [Double.finite (10 ^ 16)]
            (sample_rhs_operator_shared_dof.evaluate [Double.finite (10 ^ 16)] 0).2 := by
  refine ⟨?_, ?_, ?_, ?_, ?_, ?_⟩ <;> decide!

/-- C25, amended: for every vector `dst` and time `t`, the vector left by `evaluate_add(dst, t)`
is the initial `dst` plus, entry by entry, the vector left by `evaluate(., t)`, in each of two
cases: when the addition of vector entries is associative with neutral element `0`, as in exact
arithmetic; and, in every arithmetic in which adding `0` changes nothing (as in floating
point), when no DoF index occurs twice among the DoF indices of the cell batches of the ranges,
so that no entry receives more than one contribution. No source vector enters: the `src` handed
to the cell loop is empty and ignored there, so the function has none as input. -/
theorem evaluate_add_accumulates {α β : Type} [AddMonoid α] [AddZeroClass β]
    (op : RHSOperator α) (dst : List α) (t : ℚ) (op2 : RHSOperator β) (dst2 : List β)
    (hdistinct : (op2.matrix_free.cell_ranges.flatMap
      (fun range => (List.range' range.1 (range.2 - range.1)).flatMap
        op2.matrix_free.dof_indices)).Nodup) :
    (op.evaluate_add dst t).2
        = List.zipWith (fun a b => a + b) dst (op.evaluate dst t).2
      ∧ (op2.evaluate_add dst2 t).2
        = List.zipWith (fun a b => a + b) dst2 (op2.evaluate dst2 t).2 := by
  constructor
  · rw [evaluate_eq_evaluate_add_zero]
    have h : ∀ (ranges : List (Nat × Nat)) (e : List α),
        ranges.foldl
            (fun d cell_range => RHSOperator.cell_loop { op with time := t } d cell_range)
            (List.zipWith (fun a b => a + b) dst e)
          = List.zipWith (fun a b => a + b) dst
              (ranges.foldl
                (fun d cell_range => RHSOperator.cell_loop { op with time := t } d cell_range)
                e) := by
      intro ranges
      induction ranges with
      | nil => intro e; rfl
      | cons r rs ih => intro e; rw [List.foldl_cons, List.foldl_cons, cell_loop_zipWith, ih]
    have h2 := h op.matrix_free.cell_ranges (List.replicate dst.length 0)
    rw [zipWith_add_zero] at h2
    exact h2
  · rw [evaluate_eq_evaluate_add_zero, evaluate_add_updates, evaluate_add_updates]
    have hsub : ((op2.matrix_free.cell_ranges.flatMap
          (fun range => (List.range' range.1 (range.2 - range.1)).flatMap
            (fun cell => (op2.matrix_free.dof_indices cell).zip
              (op2.matrix_free.integrate true false cell
                ((List.range op2.matrix_free.n_q_points).map
                  (fun q => op2.get_volume_flux cell q t)))))).map Prod.fst).Sublist
        (op2.matrix_free.cell_ranges.flatMap
          (fun range => (List.range' range.1 (range.2 - range.1)).flatMap
            op2.matrix_free.dof_indices)) := by
      rw [List.map_flatMap]
      apply flatMap_sublist
      intro range
      rw [List.map_flatMap]
      apply flatMap_sublist
      intro cell
      exact map_fst_zip_sublist _ _
    have hkey := foldl_add_at_zipWith _ (List.Nodup.sublist hsub hdistinct) dst2
      (List.replicate dst2.length 0)
      (by
        intro p _ x hx
        rw [List.getElem?_replicate] at hx
        split at hx
        · injection hx with hx
          exact hx.symm
        · exact Option.noConfusion hx)
    rw [zipWith_add_zero_right] at hkey
    exact hkey

/-- Witness of the amended C25: on the sample operator, whose cell batches 0 and 1 own the
entries `0, 1` and `2, 3`, `evaluate_add` at time 3 on `[10, 20, 30, 40]` leaves
`[13, 24, 34, 45]`, the initial vector plus the `[3, 4, 4, 5]` that `evaluate` leaves. -/
theorem evaluate_add_accumulates_witness :
    (sample_rhs_operator.evaluate_add [10, 20, 30, 40] 3).2
        = List.zipWith (fun a b => a + b) [10, 20, 30, 40]
            (sample_rhs_operator.evaluate [10, 20, 30, 40] 3).2
      ∧ (sample_rhs_operator.evaluate_add [10, 20, 30, 40] 3).2 = [13, 24, 34, 45] :=
  ⟨(evaluate_add_accumulates sample_rhs_operator [10, 20, 30, 40] 3 sample_rhs_operator
      [10, 20, 30, 40] (by decide)).2,
    by decide⟩

/-! ### Claims on the field registration and on `Structure::ApplicationBase::setup` -/

/-- C23: the field registration in `setup` is aligned: `DofHandlerSelector` and
`QuadratureSelector` each enumerate the distinct values 0, 1, 2, 3 with `n_variants = 4`; the
DoF-handler, constraint and quadrature lists handed to `data.reinit` have `n_variants` entries;
every slot of the DoF-handler and quadrature lists is assigned exactly once; and the lists pair
position by position velocity, pressure, wall distance and enriched, the enriched handler with
the same (empty) `constraint` object as the velocity handler. -/
theorem field_registration_aligned (fe_degree fe_degree_p n_q_points_1d_xwall : Int) :
    ([DofHandlerSelector.velocity, DofHandlerSelector.pressure, DofHandlerSelector.wdist_tauw,
        DofHandlerSelector.enriched].map DofHandlerSelector.underlying = [0, 1, 2, 3]
      ∧ (∀ a b : DofHandlerSelector, a.underlying = b.underlying → a = b)
      ∧ DofHandlerSelector.n_variants = 4)
    ∧ ([QuadratureSelector.velocity, QuadratureSelector.pressure,
        QuadratureSelector.velocity_nonlinear,
        QuadratureSelector.enriched].map QuadratureSelector.underlying = [0, 1, 2, 3]
      ∧ (∀ a b : QuadratureSelector, a.underlying = b.underlying → a = b)
      ∧ QuadratureSelector.n_variants = 4)
    ∧ (dof_handler_vec.length = DofHandlerSelector.n_variants
      ∧ constraint_matrix_vec.length = DofHandlerSelector.n_variants
      ∧ (quadratures fe_degree fe_degree_p n_q_points_1d_xwall).length
        = QuadratureSelector.n_variants)
    ∧ (∀ i, i < DofHandlerSelector.n_variants →
        (dof_handler_assignments.map (fun a => a.1.underlying)).count i = 1)
    ∧ (∀ i, i < QuadratureSelector.n_variants →
        (quadrature_assignments.map QuadratureSelector.underlying).count i = 1)
    ∧ quadratures fe_degree fe_degree_p n_q_points_1d_xwall
      = (quadrature_assignments.zip
          [fe_degree + 1, fe_degree_p + 1, fe_degree + Int.tdiv (fe_degree + 2) 2,
            n_q_points_1d_xwall]).foldl
          (fun quadratures a => quadratures.set a.1.underlying a.2)
          (resize [] QuadratureSelector.n_variants 0)
    ∧ dof_handler_vec.zip constraint_matrix_vec
      = [ (some DoFHandlerObject.dof_handler_u, ConstraintObject.constraint),
          (some DoFHandlerObject.dof_handler_p, ConstraintObject.constraint_p),
          (some DoFHandlerObject.xwall_dof_handler_wall_distance,
            ConstraintObject.xwall_constraint_matrix),
          (some DoFHandlerObject.dof_handler_xwall, ConstraintObject.constraint) ] := by
  refine ⟨⟨rfl, ?_, rfl⟩, ⟨rfl, ?_, rfl⟩, ⟨rfl, rfl, rfl⟩, ?_, ?_, rfl, rfl⟩
  · intro a b h
    cases a <;> cases b <;> first | rfl | exact absurd h (by decide)
  · intro a b h
    cases a <;> cases b <;> first | rfl | exact absurd h (by decide)
  · intro i hi
    have h4 : i < 4 := hi
    interval_cases i <;> decide
  · intro i hi
    have h4 : i < 4 := hi
    interval_cases i <;> decide

theorem run_calls_take (throws : StructureCall → Option String) :
    ∀ (steps done : List StructureCall),
      ∃ k, k ≤ steps.length ∧ (run_calls throws steps done).calls = done ++ steps.take k := by
  intro steps
  induction steps with
  | nil => intro done; exact ⟨0, le_refl _, by simp [run_calls]⟩
  | cons step steps ih =>
    intro done
    unfold run_calls
    cases h : throws step with
    | some what => exact ⟨1, by simp, by simp⟩
    | none =>
      obtain ⟨k, hk, hcalls⟩ := ih (done ++ [step])
      exact ⟨k + 1, by simpa using hk, by simp [hcalls]⟩

/-- C24: `setup` detects errors before later steps run. Every run enters the steps in program
order (a prefix of them): `param.check()` after `parse_parameters` and `set_parameters` and
before the grid is constructed and `create_grid` called, `verify_boundary_conditions` after
`create_grid` and `set_boundary_descriptor` and before the material descriptor and the field
functions are created. If the parameter check throws, no grid has been constructed; if the
boundary verification throws, no material descriptor and no field functions have been
created. -/
theorem setup_detects_errors_early (throws : StructureCall → Option String)
    (check_throws verify_throws : StructureCall → Option String) (what : String)
    (hcheck : check_throws StructureCall.parse_parameters = none
      ∧ check_throws StructureCall.set_parameters = none
      ∧ check_throws StructureCall.param_check = some what)
    (hverify : (∀ step, step ∈ ApplicationBase.setup_steps.take 9 → verify_throws step = none)
      ∧ verify_throws StructureCall.verify_boundary_conditions = some what) :
    (∃ k, k ≤ 14
        ∧ (ApplicationBase.setup throws).calls
          = [ StructureCall.parse_parameters, StructureCall.set_parameters,
              StructureCall.param_check, StructureCall.param_print,
              StructureCall.make_shared_grid, StructureCall.create_grid,
              StructureCall.print_grid_info, StructureCall.make_shared_boundary_descriptor,
              StructureCall.set_boundary_descriptor, StructureCall.verify_boundary_conditions,
              StructureCall.make_shared_material_descriptor,
              StructureCall.set_material_descriptor,
              StructureCall.make_shared_field_functions,
              StructureCall.set_field_functions ].take k)
      ∧ ((ApplicationBase.setup check_throws).thrown = some what
        ∧ (ApplicationBase.setup check_throws).calls
          = [ StructureCall.parse_parameters, StructureCall.set_parameters,
              StructureCall.param_check ]
        ∧ StructureCall.make_shared_grid ∉ (ApplicationBase.setup check_throws).calls
        ∧ StructureCall.create_grid ∉ (ApplicationBase.setup check_throws).calls)
      ∧ ((ApplicationBase.setup verify_throws).thrown = some what
        ∧ (ApplicationBase.setup verify_throws).calls
          = [ StructureCall.parse_parameters, StructureCall.set_parameters,
              StructureCall.param_check, StructureCall.param_print,
              StructureCall.make_shared_grid, StructureCall.create_grid,
              StructureCall.print_grid_info, StructureCall.make_shared_boundary_descriptor,
              StructureCall.set_boundary_descriptor, StructureCall.verify_boundary_conditions ]
        ∧ StructureCall.make_shared_material_descriptor
            ∉ (ApplicationBase.setup verify_throws).calls
        ∧ StructureCall.set_material_descriptor ∉ (ApplicationBase.setup verify_throws).calls
        ∧ StructureCall.make_shared_field_functions
            ∉ (ApplicationBase.setup verify_throws).calls
        ∧ StructureCall.set_field_functions ∉ (ApplicationBase.setup verify_throws).calls) := by
  refine ⟨?_, ?_, ?_⟩
  · obtain ⟨k, hk, hcalls⟩ := run_calls_take throws ApplicationBase.setup_steps []
    exact ⟨k, hk, by rw [ApplicationBase.setup, hcalls]; rfl⟩
  · obtain ⟨h1, h2, h3⟩ := hcheck
    have hrun : ApplicationBase.setup check_throws
        = { calls := [ StructureCall.parse_parameters, StructureCall.set_parameters,
              StructureCall.param_check ], thrown := some what } := by
      simp only [ApplicationBase.setup, ApplicationBase.setup_steps, run_calls, h1, h2, h3,
        List.nil_append, List.cons_append]
    rw [hrun]
    exact ⟨rfl, rfl, by simp, by simp⟩
  · obtain ⟨hfirst, hthrow⟩ := hverify
    have h1 := hfirst StructureCall.parse_parameters (by decide)
    have h2 := hfirst StructureCall.set_parameters (by decide)
    have h3 := hfirst StructureCall.param_check (by decide)
    have h4 := hfirst StructureCall.param_print (by decide)
    have h5 := hfirst StructureCall.make_shared_grid (by decide)
    have h6 := hfirst StructureCall.create_grid (by decide)
    have h7 := hfirst StructureCall.print_grid_info (by decide)
    have h8 := hfirst StructureCall.make_shared_boundary_descriptor (by decide)
    have h9 := hfirst StructureCall.set_boundary_descriptor (by decide)
    have hrun : ApplicationBase.setup verify_throws
        = { calls := [ StructureCall.parse_parameters, StructureCall.set_parameters,
              StructureCall.param_check, StructureCall.param_print,
              StructureCall.make_shared_grid, StructureCall.create_grid,
              StructureCall.print_grid_info, StructureCall.make_shared_boundary_descriptor,
              StructureCall.set_boundary_descriptor,
              StructureCall.verify_boundary_conditions ], thrown := some what } := by
      simp only [ApplicationBase.setup, ApplicationBase.setup_steps, run_calls, h1, h2, h3, h4,
        h5, h6, h7, h8, h9, hthrow, List.nil_append, List.cons_append]
    rw [hrun]
    exact ⟨rfl, rfl, by simp, by simp, by simp, by simp⟩

/-- Witness of C24: when only `param.check()` throws, `setup` ends after three steps; when only
`verify_boundary_conditions` throws, after ten. -/
theorem setup_detects_errors_early_witness :
    (ApplicationBase.setup
        (fun step => if step = StructureCall.param_check then some "check" else none)).calls
        = [ StructureCall.parse_parameters, StructureCall.set_parameters,
            StructureCall.param_check ]
      ∧ (ApplicationBase.setup
          (fun step =>
            if step = StructureCall.verify_boundary_conditions then some "check"
            else none)).calls.length = 10 := by
  have h := setup_detects_errors_early (fun _ => none)
    (fun step => if step = StructureCall.param_check then some "check" else none)
    (fun step => if step = StructureCall.verify_boundary_conditions then some "check" else none)
    "check" (by decide) (by decide)
  refine ⟨h.2.1.2.1, ?_⟩
  rw [h.2.2.2.1]
  rfl

/-! ### Claim on `shift_pressure` -/

theorem zipWith_map_right_self {β γ δ : Type} (f : β → γ → δ) (g : β → γ) (l : List β) :
    List.zipWith f l (l.map g) = l.map (fun e => f e (g e)) := by
  induction l with
  | nil => rfl
  | cons x xs ih => simp [ih]

theorem lookup_map_value (f : ℚ → ℚ) (i : Nat) (l : List (Nat × ℚ)) :
    (l.map (fun entry => (entry.1, f entry.2))).lookup i = (l.lookup i).map f := by
  induction l with
  | nil => rfl
  | cons x xs ih =>
    obtain ⟨k, b⟩ := x
    rw [List.map_cons, List.lookup_cons, List.lookup_cons]
    cases h : (i == k) with
    | true => rfl
    | false => exact ih

theorem lookup_flatten_none (i : Nat) (procs : List (List (Nat × ℚ)))
    (h : ∀ q, q ∈ procs → q.lookup i = none) : procs.flatten.lookup i = none := by
  induction procs with
  | nil => rfl
  | cons p ps ih =>
    rw [List.flatten_cons, List.lookup_append, h p (List.mem_cons_self p ps),
      ih (fun q hq => h q (List.mem_cons_of_mem p hq))]
    rfl

theorem current_sum_zero (i : Nat) (procs : List (List (Nat × ℚ)))
    (h : ∀ q, q ∈ procs → q.lookup i = none) :
    (procs.map (fun local_entries => shift_pressure_current local_entries i)).sum = 0 := by
  induction procs with
  | nil => rfl
  | cons p ps ih =>
    rw [List.map_cons, List.sum_cons, ih (fun q hq => h q (List.mem_cons_of_mem p hq))]
    unfold shift_pressure_current
    rw [h p (List.mem_cons_self p ps)]
    simp

/-- Every entry is shifted by the one constant `exact - current`. -/
theorem shift_pressure_entry {P : Type} (analytical_pressure : ℚ → P → ℚ) (first_point : P)
    (dof_index_first_point : Nat) (time time_step : ℚ) (pressure : DistributedVector)
    (i : Nat) :
    DistributedVector.entry
        (shift_pressure analytical_pressure first_point dof_index_first_point time time_step
          pressure) i
      = (DistributedVector.entry pressure i).map
          (fun x => x + (analytical_pressure (time + time_step) first_point
            - (pressure.map
                (fun local_entries =>
                  shift_pressure_current local_entries dof_index_first_point)).sum) * 1) := by
  unfold shift_pressure DistributedVector.entry
  simp only [zipWith_map_right_self]
  rw [← lookup_map_value, List.map_flatten]

/-- C27: `shift_pressure` shifts the pressure by one constant: if exactly one process owns
`dof_index_first_point`, then after the call the pressure entry at this index is the analytical
pressure at `first_point` at `time + time_step` (in exact arithmetic), and the difference between
any two pressure entries is what it was before the call. -/
theorem shift_pressure_by_constant {P : Type} (analytical_pressure : ℚ → P → ℚ)
    (first_point : P) (dof_index_first_point : Nat) (time time_step : ℚ)
    (pressure before after : DistributedVector) (owner : List (Nat × ℚ)) (value : ℚ)
    (hprocesses : pressure = before ++ owner :: after)
    (howner : owner.lookup dof_index_first_point = some value)
    (hbefore : ∀ q, q ∈ before → q.lookup dof_index_first_point = none)
    (hafter : ∀ q, q ∈ after → q.lookup dof_index_first_point = none) :
    DistributedVector.entry
        (shift_pressure analytical_pressure first_point dof_index_first_point time time_step
          pressure) dof_index_first_point
        = some (analytical_pressure (time + time_step) first_point)
      ∧ ∀ i j a b, DistributedVector.entry pressure i = some a →
          DistributedVector.entry pressure j = some b →
          ∃ a2 b2,
            DistributedVector.entry
                (shift_pressure analytical_pressure first_point dof_index_first_point time
                  time_step pressure) i = some a2
              ∧ DistributedVector.entry
                (shift_pressure analytical_pressure first_point dof_index_first_point time
                  time_step pressure) j = some b2
              ∧ a2 - b2 = a - b := by
  have hcurrent : (pressure.map
      (fun local_entries => shift_pressure_current local_entries dof_index_first_point)).sum
      = value := by
    rw [hprocesses, List.map_append, List.sum_append, List.map_cons, List.sum_cons,
      current_sum_zero _ before hbefore, current_sum_zero _ after hafter]
    unfold shift_pressure_current
    rw [howner]
    simp
  have hentry : DistributedVector.entry pressure dof_index_first_point = some value := by
    unfold DistributedVector.entry
    rw [hprocesses, List.flatten_append, List.lookup_append,
      lookup_flatten_none _ before hbefore, List.flatten_cons, List.lookup_append, howner]
    rfl
  refine ⟨?_, ?_⟩
  · rw [shift_pressure_entry, hentry, hcurrent]
    simp
  · intro i j a b hi hj
    refine ⟨a + (analytical_pressure (time + time_step) first_point - value) * 1,
      b + (analytical_pressure (time + time_step) first_point - value) * 1, ?_, ?_, ?_⟩
    · rw [shift_pressure_entry, hi, hcurrent]; rfl
    · rw [shift_pressure_entry, hj, hcurrent]; rfl
    · ring

/-- Witness of C27: two processes owning the entries `0, 1` and `2, 3` with values
`5, 7` and `9, 4`, the first point at index 2 and the analytical pressure 1 there: the shifted
vector is `-3, -1` and `1, -4`. -/
theorem shift_pressure_by_constant_witness :
    DistributedVector.entry
        (shift_pressure (fun _ (_ : Unit) => 1) () 2 0 1 [[(0, 5), (1, 7)], [(2, 9), (3, 4)]]) 2
        = some 1
      ∧ DistributedVector.entry
        (shift_pressure (fun t (_ : Unit) => t) () 2 0 1 [[(0, 5), (1, 7)], [(2, 9), (3, 4)]]) 2
        = some 1 := by
  have h1 := shift_pressure_by_constant (fun _ (_ : Unit) => 1) () 2 0 1
    [[(0, 5), (1, 7)], [(2, 9), (3, 4)]] [[(0, 5), (1, 7)]] [] [(2, 9), (3, 4)] 9 rfl rfl
    (by intro q hq; simp at hq; subst hq; rfl) (by intro q hq; simp at hq)
  have h2 := shift_pressure_by_constant (fun t (_ : Unit) => t) () 2 0 1
    [[(0, 5), (1, 7)], [(2, 9), (3, 4)]] [[(0, 5), (1, 7)]] [] [(2, 9), (3, 4)] 9 rfl rfl
    (by intro q hq; simp at hq; subst hq; rfl) (by intro q hq; simp at hq)
  refine ⟨h1.1, ?_⟩
  rw [h2.1]
  norm_num

/-! ### Claim on the accumulated `wall_times` -/

theorem main_degree_body_degree (check_input_parameters : InputParameters → Option String)
    (param : InputParameters) (degree : Nat) (calls : List AppCall) (param2 : InputParameters)
    (outcome : Outcome)
    (h : main_degree_body check_input_parameters param degree calls = some (param2, outcome)) :
    param2.degree = degree := by
  unfold main_degree_body at h
  cases hl : refine_level degree with
  | none => rw [hl] at h; exact Option.noConfusion h
  | some l =>
    rw [hl] at h
    simp only at h
    split at h
    · split at h
      · injection h with h
        injection h with h1 _
        rw [← h1]
      · injection h with h
        injection h with h1 _
        rw [← h1]
    · injection h with h
      injection h with h1 _
      rw [← h1]

theorem main_degree_loop_wall_times_degrees {F : Type} (ar : Arithmetic F)
    (check_input_parameters : InputParameters → Option String)
    (timer : Nat → Nat → Nat → F) (dofs : Nat → Nat) (N_mpi_processes : Nat) :
    ∀ (degrees : List Nat) (param : InputParameters) (calls : List AppCall)
      (wall_times : List (Nat × F)) (outcome : Outcome) (result : List (Nat × F)),
      main_degree_loop_wall_times ar check_input_parameters timer dofs N_mpi_processes degrees
          param calls wall_times = some (outcome, result) →
      outcome.thrown = none →
      result.map Prod.fst = wall_times.map Prod.fst ++ degrees := by
  intro degrees
  induction degrees with
  | nil =>
    intro param calls wall_times outcome result h _
    rw [main_degree_loop_wall_times] at h
    injection h with h
    injection h with _ h2
    rw [← h2]
    simp
  | cons degree degrees ih =>
    intro param calls wall_times outcome result h hthrown
    rw [main_degree_loop_wall_times] at h
    cases hbody : main_degree_body check_input_parameters param degree calls with
    | none => rw [hbody] at h; exact Option.noConfusion h
    | some body =>
      obtain ⟨param2, outcome2⟩ := body
      rw [hbody] at h
      simp only at h
      cases hthrown2 : outcome2.thrown with
      | some what =>
        rw [hthrown2] at h
        simp only at h
        injection h with h
        injection h with h1 _
        rw [← h1, hthrown2] at hthrown
        exact Option.noConfusion hthrown
      | none =>
        rw [hthrown2] at h
        simp only at h
        have hrec := ih _ _ _ _ _ h hthrown
        rw [hrec, main_degree_body_degree _ _ _ _ _ _ hbody]
        simp [apply_operator]

/-- C28: each call of `apply_operator` appends exactly one pair `(param.degree, DoFs per
second)` to `wall_times` and changes no earlier entry; so when the degree loop of `main` over
`DEGREE_MIN..DEGREE_MAX` completes, `print_throughput` is handed exactly
`DEGREE_MAX - DEGREE_MIN + 1` pairs, with the degrees `DEGREE_MIN, ..., DEGREE_MAX` in this
strictly increasing order, and `wall_times` is empty again afterwards. -/
theorem wall_times_accumulated {F : Type} (ar : Arithmetic F)
    (check_input_parameters : InputParameters → Option String)
    (timer : Nat → Nat → Nat → F) (dofs : Nat → Nat) (N_mpi_processes : Nat)
    (param : InputParameters) (DEGREE_MIN DEGREE_MAX : Nat) (result : MainWallTimes F)
    (n_inner n_outer : Nat) (measured : Nat → Nat → F) (n_dofs degree : Nat)
    (wall_times : List (Nat × F))
    (hdegrees : DEGREE_MIN ≤ DEGREE_MAX)
    (hrun : main_wall_times ar check_input_parameters timer dofs N_mpi_processes param DEGREE_MIN
      DEGREE_MAX = some result)
    (hcompletes : result.exit_code = 0) :
    (apply_operator ar n_inner n_outer measured n_dofs N_mpi_processes degree
        wall_times).wall_times
        = wall_times ++ [(degree,
            (apply_operator ar n_inner n_outer measured n_dofs N_mpi_processes degree
              wall_times).dofs_per_walltime)]
      ∧ ∃ printed, result.printed = some printed
          ∧ printed.length = DEGREE_MAX - DEGREE_MIN + 1
          ∧ printed.map Prod.fst = List.range' DEGREE_MIN (DEGREE_MAX - DEGREE_MIN + 1)
          ∧ List.Pairwise (fun a b => a < b) (printed.map Prod.fst)
          ∧ result.wall_times = [] := by
  refine ⟨rfl, ?_⟩
  have hcount : DEGREE_MAX + 1 - DEGREE_MIN = DEGREE_MAX - DEGREE_MIN + 1 := by omega
  unfold main_wall_times at hrun
  rw [hcount] at hrun
  cases hloop : main_degree_loop_wall_times ar check_input_parameters timer dofs N_mpi_processes
      (List.range' DEGREE_MIN (DEGREE_MAX - DEGREE_MIN + 1)) param
      [AppCall.MPI_InitFinalize, AppCall.set_input_parameters] [] with
  | none => rw [hloop] at hrun; exact Option.noConfusion hrun
  | some pair =>
    obtain ⟨outcome, final⟩ := pair
    rw [hloop] at hrun
    simp only at hrun
    cases hthrown : outcome.thrown with
    | some what =>
      rw [hthrown] at hrun
      simp only at hrun
      injection hrun with hrun
      rw [← hrun] at hcompletes
      exact absurd hcompletes (Nat.succ_ne_zero 0)
    | none =>
      rw [hthrown] at hrun
      simp only at hrun
      injection hrun with hrun
      have hfst := main_degree_loop_wall_times_degrees ar check_input_parameters timer dofs
        N_mpi_processes _ _ _ _ _ _ hloop hthrown
      rw [List.map_nil, List.nil_append] at hfst
      refine ⟨final, by rw [← hrun], ?_, hfst, ?_, by rw [← hrun]⟩
      · have hlen := congrArg List.length hfst
        rw [List.length_map, List.length_range'] at hlen
        exact hlen
      · rw [hfst]
        exact List.pairwise_lt_range' DEGREE_MIN (DEGREE_MAX - DEGREE_MIN + 1)


/-- Witness of C28: in `double` arithmetic, with three dimensions, a distributed triangulation
and the degrees 3 to 4, the degree loop completes and `print_throughput` is handed two pairs, for
the degrees 3 and 4; `wall_times` is empty afterwards. -/
theorem wall_times_accumulated_witness :
    ∃ printed,
      main_wall_times Double.arithmetic (fun _ => none) (fun _ _ _ => Double.finite 2)
          (fun degree => 100 * degree) 4 ⟨3, 0, 0, TriangulationType.Distributed⟩ 3 4
        = some { exit_code := 0, printed := some printed, wall_times := [] }
      ∧ printed.map Prod.fst = [3, 4] := by
  have hrun : main_wall_times Double.arithmetic (fun _ => none) (fun _ _ _ => Double.finite 2)
      (fun degree => 100 * degree) 4 ⟨3, 0, 0, TriangulationType.Distributed⟩ 3 4
      = some { exit_code := 0
               printed := some
                (apply_operator Double.arithmetic N_REPETITIONS_INNER N_REPETITIONS_OUTER
                  (fun _ _ => Double.finite 2) (100 * 4) 4 4
                  (apply_operator Double.arithmetic N_REPETITIONS_INNER N_REPETITIONS_OUTER
                    (fun _ _ => Double.finite 2) (100 * 3) 4 3 []).wall_times).wall_times
               wall_times := [] } := rfl
  have h := wall_times_accumulated Double.arithmetic (fun _ => none)
    (fun _ _ _ => Double.finite 2) (fun degree => 100 * degree)
    4 ⟨3, 0, 0, TriangulationType.Distributed⟩ 3 4 _ 1 1 (fun _ _ => Double.finite 2) 100 3 []
    (by decide) hrun rfl
  obtain ⟨printed, hprinted, _, hfst, _, _⟩ := h.2
  injection hprinted with hprinted
  exact ⟨printed, by rw [hrun, hprinted], hfst⟩

end ExaDG
